import Mathlib

/-!
Verification development for the `digits` formula-tree library (`node.go`).

The Go source represents arithmetic formulas over rational constants as
pointer-based binary trees (`Node`), with a prefix-notation parser
(`FromPolish` / `parseNodeFromString`), a serializer (`ToPolish`), an
evaluator (`Eval`) and a fixed-point canonicalizer (`Simplify` with the
generic rewrite templates `transformDuo` / `transformTrio`).

Modelling conventions:
* Go strings are modelled as `List Char`; the byte-level slicing in the
  source only ever splits at ASCII boundaries for the grammar at hand.
* Go `*Node` children are `Option Node`.  Dereferencing a nil pointer in Go
  would panic; the model totalizes such accesses through `optGet` (returning
  the designated `nilNode`).  All claims are stated on (recursively) valid
  trees or on evaluation-succeeding trees, where such accesses never occur.
* Pointer equality tests in `Simplify` (`n1 != n`, `l != n.left`) are Go's
  way of tracking "did a rewrite happen": a transform either returns its
  receiver pointer unchanged (no match) or a freshly allocated node (match).
  The model makes that flag explicit: rewriting functions return
  `Node × Bool` where the boolean is "a fresh node was produced".
* The rational type `rational` (file `rational.go`) is not part of the given
  source; its operations are modelled from the spec (see the doc comments
  marked `Modelled from the spec`).
* The recursion of `Simplify` is not structural (it re-simplifies freshly
  built nodes).  The model uses a fuel parameter (`simplifyF`) together with
  the weight measure `Node.weight`; `Node.Simplify` supplies fuel
  `Node.weight n`, and the lemmas below prove that any fuel of at least the
  weight yields the same result, so the fuelled function is the function
  computed by the Go code.
-/

attribute [local semireducible] Rat.add Rat.sub Rat.mul Rat.inv
  Rat.ofScientific

/-- Auxiliary countdown for `natSqrt`: the largest `k ≤ m` with
`k * k ≤ n` (zero if none). -/
def natSqrtAux (n : ℕ) : ℕ → ℕ
  | 0 => 0
  | k + 1 => if (k + 1) * (k + 1) ≤ n then k + 1 else natSqrtAux n k

/-- Integer square root (largest `k` with `k * k ≤ n`), in a form the
kernel can evaluate. -/
def natSqrt (n : ℕ) : ℕ := natSqrtAux n n

/-- Integer square root of an integer (negative inputs give `0`). -/
def intSqrt (i : ℤ) : ℕ := natSqrt i.toNat

/-- Operation tag, mirroring the Go `Op` byte enumeration, in declaration
order `OpNull, OpAdd, OpSub, OpMul, OpDiv, OpPow, OpFact, OpSqrt, OpMinus`. -/
inductive Op : Type where
  | null | add | sub | mul | div | pow | fact | sqrt | minus
deriving DecidableEq

/-- Numeric position of a tag in the Go `const` block (Go compares tags
numerically, e.g. `op >= OpFact`). -/
def Op.idx : Op → ℕ
  | .null => 0 | .add => 1 | .sub => 2 | .mul => 3 | .div => 4
  | .pow => 5 | .fact => 6 | .sqrt => 7 | .minus => 8

/-- Go `Op.unary`: true for unary operators (`op >= OpFact`). -/
def Op.unary (op : Op) : Bool := 6 ≤ op.idx

/-- Go `Op.binary`: true for binary operators (`OpAdd <= op <= OpPow`). -/
def Op.binary (op : Op) : Bool := 1 ≤ op.idx && op.idx ≤ 5

/-- The `opNames` table: canonical textual symbol of each operator. -/
def Op.symbol : Op → List Char
  | .null => "null".toList
  | .add => "+".toList
  | .sub => "-".toList
  | .mul => "*".toList
  | .div => "/".toList
  | .pow => "^".toList
  | .fact => "!".toList
  | .sqrt => "sqrt".toList
  | .minus => "--".toList

/-- Arithmetic failure of the rational value type.  Modelled from the spec:
`rational.go` is not in the given source; the spec (§3, §7) lists division by
zero, non-integral or negative-domain roots, invalid factorial arguments and
invalid powers as the `ArithmeticError` conditions. -/
inductive ArithErr : Type where
  | divByZero | sqrtDomain | powDomain | factDomain | badOp
deriving DecidableEq

/-- Evaluation failure of `Node.Eval`: either the structural
"invalid formula" error (the Go message embeds a rendering of the node,
which is irrelevant to the claims and elided here) or a propagated
arithmetic error. -/
inductive EvalError : Type where
  | invalidFormula
  | arith (e : ArithErr)
deriving DecidableEq

/-- Modelled from the spec: the exact rational square root used by the
`sqrt` operator of the missing `rational.go`.  A root exists exactly for
perfect squares of rationals; `Int.sqrt`/`Nat.sqrt` of numerator and
denominator give the candidate, which is returned iff its square is the
argument (spec §3/§7: "even root of a negative value" and non-integral
roots are `ArithmeticError`s). -/
def ratSqrt (q : ℚ) : Option ℚ :=
  let c : ℚ := mkRat (intSqrt q.num) (natSqrt q.den)
  if c * c = q then some c else none

/-- Modelled from the spec: the `Even()` predicate of the Value contract
(§3 lists `isEven` among the algebraic predicates): an even integer. -/
def ratEven (q : ℚ) : Prop := q.den = 1 ∧ 2 ∣ q.num

instance (q : ℚ) : Decidable (ratEven q) := by unfold ratEven; infer_instance

/-- Modelled from the spec: unary operator application of the Value
contract (`PerformUnary`).  Unary minus is total; `sqrt` requires an exact
rational root; factorial requires a non-negative integer argument. -/
def performUnary (op : Op) (a : ℚ) : Except ArithErr ℚ :=
  match op with
  | .minus => .ok (-a)
  | .sqrt =>
    match ratSqrt a with
    | some r => .ok r
    | none => .error .sqrtDomain
  | .fact =>
    if a.den = 1 ∧ 0 ≤ a.num then .ok ((a.num.toNat).factorial : ℚ)
    else .error .factDomain
  | _ => .error .badOp

/-- Modelled from the spec: binary operator application of the Value
contract (`PerformBinary`).  Division by zero fails; powers require an
integer exponent and a nonzero base when the exponent is negative. -/
def performBinary (op : Op) (a b : ℚ) : Except ArithErr ℚ :=
  match op with
  | .add => .ok (a + b)
  | .sub => .ok (a - b)
  | .mul => .ok (a * b)
  | .div => if b = 0 then .error .divByZero else .ok (a / b)
  | .pow =>
    if b.den = 1 then
      if a = 0 ∧ b.num < 0 then .error .powDomain else .ok (a ^ b.num)
    else .error .powDomain
  | _ => .error .badOp

instance {ε α : Type} [DecidableEq ε] [DecidableEq α] :
    DecidableEq (Except ε α) := fun a b =>
  match a, b with
  | .ok x, .ok y =>
    decidable_of_iff (x = y) ⟨fun h => h ▸ rfl, fun h => by cases h; rfl⟩
  | .error x, .error y =>
    decidable_of_iff (x = y) ⟨fun h => h ▸ rfl, fun h => by cases h; rfl⟩
  | .ok _, .error _ => isFalse (fun h => by cases h)
  | .error _, .ok _ => isFalse (fun h => by cases h)

/-- The formula parse tree.  Go stores nullable child pointers `left`,
`right`, a `Value` (nil on internal nodes, modelled as the junk value `0`)
and the operation tag. -/
inductive Node : Type where
  | mk (left : Option Node) (right : Option Node) (val : ℚ) (op : Op)

mutual
/-- Boolean structural equality of trees (all four fields, recursively);
used to give `Node` decidable equality. -/
def Node.beq : Node → Node → Bool
  | .mk l r v o, .mk l' r' v' o' =>
    optBeq l l' && optBeq r r' && (v = v') && (o = o')

/-- Lifts `Node.beq` to optional children. -/
def optBeq : Option Node → Option Node → Bool
  | none, none => true
  | some a, some b => Node.beq a b
  | _, _ => false
end

mutual
theorem Node.beq_iff : ∀ (a b : Node), Node.beq a b = true ↔ a = b
  | .mk l r v o, .mk l' r' v' o' => by
    rw [Node.beq]
    simp only [Bool.and_eq_true, decide_eq_true_eq, optBeq_iff l l',
      optBeq_iff r r', Node.mk.injEq]
    tauto

theorem optBeq_iff : ∀ (a b : Option Node), optBeq a b = true ↔ a = b
  | none, none => by simp [optBeq]
  | some a, some b => by rw [optBeq]; simpa using Node.beq_iff a b
  | none, some b => by simp [optBeq]
  | some a, none => by simp [optBeq]
end

instance : DecidableEq Node := fun a b =>
  decidable_of_iff (Node.beq a b = true) (Node.beq_iff a b)

/-- Left child pointer. -/
def Node.left : Node → Option Node
  | .mk l _ _ _ => l

/-- Right child pointer. -/
def Node.right : Node → Option Node
  | .mk _ r _ _ => r

/-- Stored leaf value (`0` models Go's nil interface on internal nodes). -/
def Node.val : Node → ℚ
  | .mk _ _ v _ => v

/-- Operation tag. -/
def Node.op : Node → Op
  | .mk _ _ _ o => o

/-- Stand-in for a Go nil `*Node` when the source would dereference it
(which would panic); unreachable on the valid trees the claims range over. -/
def nilNode : Node := .mk none none 0 .null

/-- Totalized pointer dereference (see `nilNode`). -/
def optGet (o : Option Node) : Node := o.getD nilNode

/-- Go `Node.valid`: local validity of one node (children are not checked
recursively).  A leaf (`OpNull`) has no children, a binary node (tag up to
`OpPow`) has both, a unary node has only the left child. -/
def Node.valid (n : Node) : Bool :=
  if n.op = .null then n.left.isNone && n.right.isNone
  else if n.op.idx ≤ 5 then n.left.isSome && n.right.isSome
  else n.left.isSome && n.right.isNone

/-- Validity of every node of the tree (the invariant the Go constructors
enforce and the Canonicalizer must preserve). -/
def Node.validRec : Node → Bool
  | .mk l r v o =>
    (Node.mk l r v o).valid &&
      (match l with | some x => x.validRec | none => true) &&
      (match r with | some x => x.validRec | none => true)

/-- Go `Node.Equal`: structural equality (shape, operators, leaf values;
leaf values are compared only at leaves, internal `val` fields are
ignored, and the right child is compared only when the receiver has one). -/
def Node.equal : Node → Node → Bool
  | .mk l r v o, n1 =>
    if o ≠ n1.op then false
    else if o ≠ .null then
      (match l, n1.left with
       | some a, some b => a.equal b
       | _, _ => false) &&
      (match r with
       | none => true
       | some a => match n1.right with
         | some b => a.equal b
         | none => false)
    else v = n1.val

/-- Go `Node.Eval`: a leaf evaluates to its value; a binary node evaluates
left then right and applies the binary operation; a unary node evaluates its
left child and applies the unary operation.  A locally invalid node fails
immediately with the "invalid formula" error; child errors propagate
unchanged.  The `nilNode` arms are unreachable because `valid` was checked. -/
def Node.Eval : Node → Except EvalError ℚ
  | .mk l r v o =>
    if ¬ (Node.mk l r v o).valid then .error .invalidFormula
    else if o = .null then .ok v
    else if o.binary then
      match l, r with
      | some nl, some nr =>
        match nl.Eval with
        | .error e => .error e
        | .ok lv =>
          match nr.Eval with
          | .error e => .error e
          | .ok rv => (performBinary o lv rv).mapError .arith
      | _, _ => .error .invalidFormula
    else
      match l with
      | some nl =>
        match nl.Eval with
        | .error e => .error e
        | .ok lv => (performUnary o lv).mapError .arith
      | none => .error .invalidFormula

/-- Termination measure for the rewrite system: leaves weigh `2` and a node
weighs `(weight left + 1) * weight right`, with an absent child counting
`1`.  Every rewrite rule of `Simplify` strictly decreases this weight
(proved below), which bounds the recursion depth of the Go code and supplies
the fuel for the model. -/
def Node.weight : Node → ℕ
  | .mk none none _ _ => 2
  | .mk (some l) none _ _ => l.weight + 1
  | .mk none (some r) _ _ => 2 * r.weight
  | .mk (some l) (some r) _ _ => (l.weight + 1) * r.weight

/-- Weight of an optional child. -/
def weightOpt : Option Node → ℕ
  | none => 1
  | some n => n.weight

/-- Decimal digit character for a digit value below ten. -/
def digitChar (d : ℕ) : Char := Char.ofNat (48 + d)

/-- Little-endian base-ten digit list, with enough fuel (any `fuel ≥ n`)
to exhaust the number; shown below to agree with `Nat.digits 10`. -/
def digitsLE : ℕ → ℕ → List ℕ
  | 0, _ => []
  | fuel + 1, n => if n = 0 then [] else (n % 10) :: digitsLE fuel (n / 10)

/-- Modelled from the spec: decimal rendering of a natural number, as used
by the textual form of the missing `rational.go` value type. -/
def natStr (n : ℕ) : List Char :=
  if n = 0 then ['0'] else ((digitsLE n n).reverse).map digitChar

/-- Modelled from the spec: decimal rendering of an integer. -/
def intStr (i : ℤ) : List Char :=
  if i < 0 then '-' :: natStr i.natAbs else natStr i.toNat

/-- Modelled from the spec: the textual form of a rational value
(`rational.String` of the missing `rational.go`): `a` when the denominator
is one, otherwise `a/b`, written without spaces (the parser grammar of §4.2
and the round-trip contract of §6 fix this form). -/
def ratString (q : ℚ) : List Char :=
  if q.den = 1 then intStr q.num else intStr q.num ++ '/' :: natStr q.den

/-- Go `Node.ToPolish`: serializer.  An invalid node yields a diagnostic
string (the Go text embeds a rendering of the node, elided here); a leaf
yields its value's text; an internal node yields the operator symbol and the
serialized children separated by single spaces.  (The Go special case
writing `--` for `OpMinus` coincides with `opNames[OpMinus]`.) -/
def Node.ToPolish : Node → List Char
  | .mk l r v o =>
    if ¬ (Node.mk l r v o).valid then "invalid formula".toList
    else if o = .null then ratString v
    else
      o.symbol ++ ' ' ::
        (match l with | some x => x.ToPolish | none => []) ++
        (if o.binary then
          ' ' :: (match r with | some x => x.ToPolish | none => [])
        else [])

/-- Leading-whitespace trim. -/
def trimL (s : List Char) : List Char := s.dropWhile Char.isWhitespace

/-- Trailing-whitespace trim. -/
def trimR (s : List Char) : List Char :=
  (s.reverse.dropWhile Char.isWhitespace).reverse

/-- Go `strings.TrimSpace`: trim whitespace from both ends. -/
def trimSpace (s : List Char) : List Char := trimR (trimL s)

/-- The rational-constant regular expression `-?[0-9]+(/[0-9]+)?` of
`ratRx`, as an anchored longest-prefix matcher (its leading whitespace class
is vacuous because the parser trims first): returns the matched token and
the unconsumed remainder, or `none`.  The `/` branch is taken only when at
least one digit follows, exactly like the regex group. -/
def matchRat (s : List Char) : Option (List Char × List Char) :=
  let sgn : List Char × List Char :=
    match s with
    | '-' :: rest => (['-'], rest)
    | _ => ([], s)
  let ds := sgn.2.takeWhile Char.isDigit
  let r1 := sgn.2.dropWhile Char.isDigit
  if ds = [] then none
  else
    match r1 with
    | '/' :: r2 =>
      let ds2 := r2.takeWhile Char.isDigit
      if ds2 = [] then some (sgn.1 ++ ds, r1)
      else some (sgn.1 ++ ds ++ '/' :: ds2, r2.dropWhile Char.isDigit)
    | _ => some (sgn.1 ++ ds, r1)

/-- Decimal reading of a digit string (most significant digit first). -/
def readNat (ds : List Char) : ℕ :=
  ds.foldl (fun a c => 10 * a + (c.toNat - 48)) 0

/-- Modelled from the spec: `newRationalFromString` of the missing
`rational.go`, applied to a token matching the rational grammar
`-?[0-9]+(/[0-9]+)?`: reads the integer part and the optional denominator
and fails exactly on a zero denominator (§1/§3: construction from text may
fail, e.g. on division by zero). -/
def newRationalFromString (t : List Char) : Except (List Char) ℚ :=
  let sgn : Bool × List Char :=
    match t with
    | '-' :: rest => (true, rest)
    | _ => (false, t)
  let n : ℤ := (readNat (sgn.2.takeWhile Char.isDigit) : ℤ)
  let num : ℤ := if sgn.1 then -n else n
  match sgn.2.dropWhile Char.isDigit with
  | '/' :: dens =>
    let d := readNat (dens.takeWhile Char.isDigit)
    if d = 0 then .error ("zero denominator".toList)
    else .ok (mkRat num d)
  | _ => .ok (mkRat num 1)

/-- The single-character operator lookup of `parseNodeFromString`: the Go
code scans the (unordered) `opNames` map comparing each symbol with the
first character; only the six one-character symbols can match, at most one
matches, and the dead `OpMinus → OpSub` fixup can never trigger because
`opNames[OpMinus]` is the two-character `--`. -/
def singleCharOp (c : Char) : Op :=
  if c = '+' then .add
  else if c = '-' then .sub
  else if c = '*' then .mul
  else if c = '/' then .div
  else if c = '^' then .pow
  else if c = '!' then .fact
  else .null

/-- Go `parseNodeFromString`, with a fuel parameter standing for the
(well-founded but non-structural) recursion on ever-shorter strings; any
fuel exceeding the input length gives the function computed by the Go code
(`FromPolish` below supplies such fuel).  Steps: trim; try the rational
regex (propagating value-construction errors); fail on empty input; match
`sqrt`, then `--`, then a single-character operator (else "unrecognized
operator"); fail with "first operand missing" on exhausted input; parse one
operand, and for a binary operator a second one, replacing an inner failure
by "second operand missing". -/
def parseNode : ℕ → List Char → Except (List Char) (Node × List Char)
  | 0, _ => .error ("fuel exhausted".toList)
  | fuel + 1, s0 =>
    let s := trimSpace s0
    match matchRat s with
    | some (tok, rest) =>
      match newRationalFromString (trimSpace tok) with
      | .error e => .error e
      | .ok v => .ok (Node.mk none none v .null, rest)
    | none =>
      if s = [] then .error ("empty string".toList)
      else
        let opAndRest : Op × List Char :=
          if s.take 4 = "sqrt".toList then (.sqrt, s.drop 4)
          else if s.take 2 = "--".toList then (.minus, s.drop 2)
          else (singleCharOp (s.headD ' '), s.drop 1)
        let op := opAndRest.1
        if op = .null then
          .error ("unrecognized operator in ".toList ++
            Char.ofNat 39 :: s ++ [Char.ofNat 39])
        else
          let s1 := opAndRest.2
          if s1 = [] then .error ("first operand missing".toList)
          else
            match parseNode fuel s1 with
            | .error e => .error e
            | .ok (n1, r1) =>
              if op.unary then .ok (Node.mk (some n1) none 0 op, r1)
              else
                match parseNode fuel r1 with
                | .error _ => .error ("second operand missing".toList)
                | .ok (n2, r2) => .ok (Node.mk (some n1) (some n2) 0 op, r2)

/-- Go `FromPolish`: trim, parse as much as possible, discard the
remainder, and wrap a failure as `cannot parse '<input>': <reason>`. -/
def FromPolish (s : List Char) : Except (List Char) Node :=
  let t := trimSpace s
  match parseNode (t.length + 1) t with
  | .error e =>
    .error ("cannot parse ".toList ++ Char.ofNat 39 :: t ++
      Char.ofNat 39 :: ':' :: ' ' :: e)
  | .ok (n, _) => .ok n

/-- Convenience used only to state concrete test cases: the parsed tree of
a string literal (`nilNode` on a parse failure, never hit in the claims). -/
def parseNodeOf (s : String) : Node :=
  match FromPolish s.toList with
  | .ok n => n
  | .error _ => nilNode

/-- One side of `transformDuo`: Go strips the wrapper `op1` when the child's
operator is `op1` and the child has a left child, uses the child as-is when
`op1` is the no-wrap sentinel `OpNull`, and otherwise reports a non-match
(`none`).  `simp` is the recursive canonicalization call. -/
def duoArm (simp : Node → Node × Bool) (child : Node) (op1 : Op) :
    Option Node :=
  if child.op = op1 ∧ child.left.isSome then
    some (simp (optGet child.left)).1
  else if op1 = .null then some (simp child).1
  else none

/-- Go `Node.transformDuo`: rewrites `(op1 a) op2 (op3 b)` into
`op4 (a op5 b)` (with `OpNull` as the no-wrap sentinel on `op1`, `op3`,
`op4`) and reports whether a fresh node was produced.  Freshly built nodes
carry the zero value, as the Go struct literals leave `val` nil. -/
def transformDuo (simp : Node → Node × Bool) (n : Node)
    (op1 op2 op3 op4 op5 : Op) : Node × Bool :=
  if n.op = op2 then
    match duoArm simp (optGet n.left) op1, duoArm simp (optGet n.right) op3 with
    | some a, some b =>
      let n1 : Node := .mk (some a) (some b) 0 op5
      if op4 ≠ .null then (.mk (some (simp n1).1) none 0 op4, true)
      else (n1, true)
    | _, _ => (n, false)
  else (n, false)

/-- Go `Node.transformTrio`: rewrites `a op1 (b op2 c)` into
`(a op3 b) op4 c`, recursively canonicalizing the pieces and the new inner
node, and reports whether a fresh node was produced. -/
def transformTrio (simp : Node → Node × Bool) (n : Node)
    (op1 op2 op3 op4 : Op) : Node × Bool :=
  if n.op = op1 ∧ (optGet n.right).op = op2 then
    let r := optGet n.right
    let n1 : Node := .mk (some (simp (optGet n.left)).1)
      (some (simp (optGet r.left)).1) 0 op3
    (.mk (some (simp n1).1) (some (simp (optGet r.right)).1) 0 op4, true)
  else (n, false)

/-- The thirteen pairwise-merge parameter tuples of `Simplify`, in source
order (including the duplicated first row, exactly as in the Go table). -/
def duoRules : List (Op × Op × Op × Op × Op) :=
  [(.null, .add, .minus, .null, .sub),
   (.null, .add, .minus, .null, .sub),
   (.null, .sub, .minus, .null, .add),
   (.minus, .sub, .null, .minus, .add),
   (.minus, .add, .null, .minus, .sub),
   (.minus, .mul, .minus, .null, .mul),
   (.minus, .div, .minus, .null, .div),
   (.minus, .mul, .null, .minus, .mul),
   (.minus, .div, .null, .minus, .div),
   (.null, .mul, .minus, .minus, .mul),
   (.null, .div, .minus, .minus, .div),
   (.sqrt, .mul, .sqrt, .sqrt, .mul),
   (.sqrt, .div, .sqrt, .sqrt, .div)]

/-- The four re-association parameter tuples of `Simplify`, in source
order. -/
def trioRules : List (Op × Op × Op × Op) :=
  [(.add, .add, .add, .add),
   (.sub, .sub, .sub, .add),
   (.mul, .mul, .mul, .mul),
   (.div, .div, .div, .mul)]

/-- The Go chain `n1 = n1.transformDuo(t...)` over the rule table, with the
accumulated "a fresh node was produced" flag standing for the pointer test
`n1 != n`. -/
def applyDuos (simp : Node → Node × Bool) (p : Node × Bool) : Node × Bool :=
  duoRules.foldl
    (fun acc t =>
      let q := transformDuo simp acc.1 t.1 t.2.1 t.2.2.1 t.2.2.2.1 t.2.2.2.2
      (q.1, acc.2 || q.2))
    p

/-- The Go chain over the re-association table. -/
def applyTrios (simp : Node → Node × Bool) (p : Node × Bool) : Node × Bool :=
  trioRules.foldl
    (fun acc t =>
      let q := transformTrio simp acc.1 t.1 t.2.1 t.2.2.1 t.2.2.2
      (q.1, acc.2 || q.2))
    p

/-- Go `Node.Simplify` with fuel (see the module comment): the double
negation rule; the even-power rule guarded by a successful, even evaluation
of the exponent (failures are swallowed and leave the node untouched); the
duo and trio chains; the recursion into children when nothing matched at the
root (rebuilding only if a child changed, preserving value and operator);
and the re-simplification of any fresh node before returning. -/
def simplifyF : ℕ → Node → Node × Bool
  | 0, n => (n, false)
  | fuel + 1, n =>
    let simp := simplifyF fuel
    if n.op = .minus ∧ (optGet n.left).op = .minus then
      ((simp (simp (optGet (optGet n.left).left)).1).1, true)
    else if n.op = .pow ∧ (optGet n.left).op = .minus then
      match (optGet n.right).Eval with
      | .ok e =>
        if ratEven e then
          ((simp (Node.mk (some (simp (optGet (optGet n.left).left)).1)
            (some (simp (optGet n.right)).1) 0 .pow)).1, true)
        else (n, false)
      | .error _ => (n, false)
    else
      let p := applyTrios simp (applyDuos simp (n, false))
      if p.2 then ((simp p.1).1, true)
      else
        let lc : Option (Node × Bool) := n.left.map simp
        let rc : Option (Node × Bool) := n.right.map simp
        let changed := (match lc with | some q => q.2 | none => false) ||
          (match rc with | some q => q.2 | none => false)
        if changed then
          ((simp (Node.mk (lc.map Prod.fst) (rc.map Prod.fst)
            n.val n.op)).1, true)
        else (n, false)

/-- Go `Node.Simplify`: the canonicalizer, with fuel `Node.weight n`
(shown below to be enough fuel: any larger amount gives the same result). -/
def Node.Simplify (n : Node) : Node := (simplifyF n.weight n).1

/-! Basic facts about the embedding. -/

@[simp] theorem Node.left_mk (l r : Option Node) (v : ℚ) (o : Op) :
    (Node.mk l r v o).left = l := rfl

@[simp] theorem Node.right_mk (l r : Option Node) (v : ℚ) (o : Op) :
    (Node.mk l r v o).right = r := rfl

@[simp] theorem Node.val_mk (l r : Option Node) (v : ℚ) (o : Op) :
    (Node.mk l r v o).val = v := rfl

@[simp] theorem Node.op_mk (l r : Option Node) (v : ℚ) (o : Op) :
    (Node.mk l r v o).op = o := rfl

theorem Node.eta : ∀ n : Node, n = .mk n.left n.right n.val n.op
  | .mk _ _ _ _ => rfl

theorem natSqrtAux_eq (k : ℕ) : ∀ (m n : ℕ), k * k ≤ n →
    (∀ j, k < j → j ≤ m → n < j * j) → k ≤ m → natSqrtAux n m = k
  | 0, n, _, _, hkm => by
    have hz : k = 0 := Nat.le_zero.mp hkm
    subst hz; rfl
  | m + 1, n, hk, hj, hkm => by
    rw [natSqrtAux]
    by_cases h : (m + 1) * (m + 1) ≤ n
    · have hk1 : ¬ k < m + 1 := fun hlt =>
        absurd (hj (m + 1) hlt le_rfl) (Nat.not_lt.mpr h)
      have hke : k = m + 1 := by omega
      rw [if_pos h, hke]
    · rw [if_neg h]
      have hkm' : k ≤ m := by
        rcases Nat.eq_or_lt_of_le hkm with he | hl
        · exact absurd (he ▸ hk) h
        · omega
      exact natSqrtAux_eq k m n hk
        (fun j h1 h2 => hj j h1 (Nat.le_succ_of_le h2)) hkm'

theorem natSqrt_sq (k : ℕ) : natSqrt (k * k) = k := by
  rcases Nat.eq_zero_or_pos k with hk | hk
  · subst hk; rfl
  · exact natSqrtAux_eq k (k * k) (k * k) le_rfl
      (fun j h1 _ => Nat.mul_lt_mul_of_lt_of_le h1 (le_of_lt h1) (by omega))
      (Nat.le_mul_of_pos_left k hk)

theorem ratSqrt_eq_some (q y : ℚ) : ratSqrt q = some y ↔ 0 ≤ y ∧ y * y = q := by
  constructor
  · intro h
    simp only [ratSqrt] at h
    split_ifs at h with hc
    · cases h
      refine ⟨?_, hc⟩
      rw [Rat.mkRat_eq_div]
      positivity
  · rintro ⟨hy, rfl⟩
    have hnum : 0 ≤ y.num := Rat.num_nonneg.mpr hy
    have hn : (y * y).num = y.num * y.num := Rat.mul_self_num y
    have hd : (y * y).den = y.den * y.den := Rat.mul_self_den y
    have htn : y.num = (y.num.toNat : ℤ) := (Int.toNat_of_nonneg hnum).symm
    have h1 : intSqrt ((y * y).num) = y.num.toNat := by
      rw [hn, intSqrt]
      rw [htn]
      rw [show ((y.num.toNat : ℤ) * (y.num.toNat : ℤ)).toNat
          = y.num.toNat * y.num.toNat by
        rw [← Nat.cast_mul, Int.toNat_natCast]]
      exact natSqrt_sq _
    have h2 : natSqrt ((y * y).den) = y.den := by rw [hd]; exact natSqrt_sq _
    unfold ratSqrt
    simp only [h1, h2]
    have hc : mkRat (y.num.toNat : ℤ) y.den = y := by
      rw [← htn]; exact Rat.mkRat_self y
    rw [hc, if_pos rfl]

theorem pb_add (a b v : ℚ) : performBinary .add a b = .ok v ↔ v = a + b := by
  show Except.ok (a + b) = .ok v ↔ v = a + b
  exact ⟨fun h => by cases h; rfl, fun h => by rw [h]⟩

theorem pb_sub (a b v : ℚ) : performBinary .sub a b = .ok v ↔ v = a - b := by
  show Except.ok (a - b) = .ok v ↔ v = a - b
  exact ⟨fun h => by cases h; rfl, fun h => by rw [h]⟩

theorem pb_mul (a b v : ℚ) : performBinary .mul a b = .ok v ↔ v = a * b := by
  show Except.ok (a * b) = .ok v ↔ v = a * b
  exact ⟨fun h => by cases h; rfl, fun h => by rw [h]⟩

theorem pb_div (a b v : ℚ) :
    performBinary .div a b = .ok v ↔ b ≠ 0 ∧ v = a / b := by
  show (if b = 0 then Except.error ArithErr.divByZero
    else Except.ok (a / b)) = .ok v ↔ b ≠ 0 ∧ v = a / b
  split_ifs with h
  · refine ⟨fun hh => ?_, fun hh => absurd h hh.1⟩
    cases hh
  · refine ⟨fun hh => ?_, fun hh => by rw [hh.2]⟩
    cases hh
    exact ⟨h, rfl⟩

theorem pb_pow (a b v : ℚ) : performBinary .pow a b = .ok v ↔
    b.den = 1 ∧ ¬ (a = 0 ∧ b.num < 0) ∧ v = a ^ b.num := by
  show (if b.den = 1 then
      if a = 0 ∧ b.num < 0 then Except.error ArithErr.powDomain
      else Except.ok (a ^ b.num)
    else Except.error ArithErr.powDomain) = .ok v ↔ _
  split_ifs with h1 h2
  · refine ⟨fun hh => ?_, fun hh => absurd h2 hh.2.1⟩
    cases hh
  · refine ⟨fun hh => ?_, fun hh => by rw [hh.2.2]⟩
    cases hh
    exact ⟨h1, h2, rfl⟩
  · refine ⟨fun hh => ?_, fun hh => absurd hh.1 h1⟩
    cases hh

theorem pu_minus (a v : ℚ) : performUnary .minus a = .ok v ↔ v = -a := by
  show Except.ok (-a) = .ok v ↔ v = -a
  exact ⟨fun h => by cases h; rfl, fun h => by rw [h]⟩

theorem pu_sqrt (a v : ℚ) :
    performUnary .sqrt a = .ok v ↔ (0 ≤ v ∧ v * v = a) := by
  rw [← ratSqrt_eq_some]
  show (match ratSqrt a with
    | some r => Except.ok r
    | none => Except.error ArithErr.sqrtDomain) = .ok v ↔ _
  constructor
  · intro h
    cases hr : ratSqrt a with
    | none => rw [hr] at h; cases h
    | some r => rw [hr] at h; cases h; rfl
  · intro h; rw [h]

theorem pb_pow_neg_even (a b v : ℚ) (he : ratEven b)
    (h : performBinary .pow (-a) b = .ok v) :
    performBinary .pow a b = .ok v := by
  rw [pb_pow] at h ⊢
  obtain ⟨h1, h2, h3⟩ := h
  refine ⟨h1, ?_, ?_⟩
  · intro hh
    exact h2 ⟨by rw [hh.1, neg_zero], hh.2⟩
  · rw [h3]
    have hev : Even b.num := even_iff_two_dvd.mpr he.2
    exact Even.neg_zpow hev a

theorem valid_of_binary {o : Op} (ho : o.binary = true)
    (l r : Option Node) (v : ℚ) :
    (Node.mk l r v o).valid = (l.isSome && r.isSome) := by
  cases o <;> simp_all [Op.binary, Op.idx, Node.valid]

theorem valid_of_unary {o : Op} (ho : o.unary = true)
    (l r : Option Node) (v : ℚ) :
    (Node.mk l r v o).valid = (l.isSome && r.isNone) := by
  cases o <;> simp_all [Op.unary, Op.idx, Node.valid]

theorem valid_of_null (l r : Option Node) (v : ℚ) :
    (Node.mk l r v .null).valid = (l.isNone && r.isNone) := by
  simp [Node.valid]

theorem mapError_ok {x : Except ArithErr ℚ} {v : ℚ} :
    x.mapError EvalError.arith = .ok v ↔ x = .ok v := by
  cases x <;> simp [Except.mapError]

theorem eval_mk_leaf (v : ℚ) : (Node.mk none none v .null).Eval = .ok v := by
  rw [Node.Eval]
  simp [Node.valid]

theorem eval_mk_binary (l r : Node) (v0 : ℚ) (o : Op) (ho : o.binary = true) :
    (Node.mk (some l) (some r) v0 o).Eval =
      match l.Eval with
      | .error e => .error e
      | .ok lv =>
        match r.Eval with
        | .error e => .error e
        | .ok rv => (performBinary o lv rv).mapError .arith := by
  rw [Node.Eval]
  rw [valid_of_binary ho]
  have hnn : o ≠ .null := by cases o <;> simp_all [Op.binary, Op.idx]
  simp [hnn, ho]

theorem eval_mk_unary (l : Node) (v0 : ℚ) (o : Op) (ho : o.unary = true) :
    (Node.mk (some l) none v0 o).Eval =
      match l.Eval with
      | .error e => .error e
      | .ok lv => (performUnary o lv).mapError .arith := by
  rw [Node.Eval]
  rw [valid_of_unary ho]
  have hnn : o ≠ .null := by cases o <;> simp_all [Op.unary, Op.idx]
  have hnb : o.binary = false := by
    cases o <;> simp_all [Op.unary, Op.binary, Op.idx]
  simp [hnn, hnb]
  exact fun a b _ h2 => Option.noConfusion h2

theorem op_class (o : Op) :
    o = .null ∨ o.binary = true ∨ o.unary = true := by
  cases o <;> simp [Op.binary, Op.unary, Op.idx]

theorem eval_ok_valid {n : Node} {v : ℚ} (h : n.Eval = .ok v) :
    n.valid = true := by
  obtain ⟨l, r, v0, o⟩ := n
  by_contra hv
  rw [Node.Eval.eq_def] at h
  dsimp only at h
  rw [if_pos (by simpa using hv)] at h
  cases h

/-- Inversion of a successful evaluation: the node is a leaf returning its
value, a binary node with two successfully evaluated children, or a unary
node with one. -/
theorem eval_ok_cases {n : Node} {v : ℚ} (h : n.Eval = .ok v) :
    (n = .mk none none v .null) ∨
    (n.op.binary = true ∧ ∃ l r lv rv, n = .mk (some l) (some r) n.val n.op ∧
      l.Eval = .ok lv ∧ r.Eval = .ok rv ∧
      performBinary n.op lv rv = .ok v) ∨
    (n.op.unary = true ∧ ∃ l lv, n = .mk (some l) none n.val n.op ∧
      l.Eval = .ok lv ∧ performUnary n.op lv = .ok v) := by
  have hv := eval_ok_valid h
  obtain ⟨l, r, v0, o⟩ := n
  rcases op_class o with ho | ho | ho
  · subst ho
    left
    rw [valid_of_null] at hv
    simp only [Bool.and_eq_true, Option.isNone_iff_eq_none] at hv
    obtain ⟨hl, hr⟩ := hv
    subst hl; subst hr
    rw [eval_mk_leaf] at h
    cases h
    rfl
  · right; left
    refine ⟨ho, ?_⟩
    rw [valid_of_binary ho] at hv
    simp only [Bool.and_eq_true, Option.isSome_iff_exists] at hv
    obtain ⟨⟨x, hx⟩, ⟨y, hy⟩⟩ := hv
    subst hx; subst hy
    rw [eval_mk_binary _ _ _ _ ho] at h
    rcases hex : x.Eval with e | lv
    · rw [hex] at h; cases h
    rcases hey : y.Eval with e | rv
    · rw [hex, hey] at h; cases h
    rw [hex, hey] at h
    exact ⟨x, y, lv, rv, rfl, hex, hey, mapError_ok.mp h⟩
  · right; right
    refine ⟨ho, ?_⟩
    rw [valid_of_unary ho] at hv
    simp only [Bool.and_eq_true, Option.isSome_iff_exists,
      Option.isNone_iff_eq_none] at hv
    obtain ⟨⟨x, hx⟩, hy⟩ := hv
    subst hx; subst hy
    rw [eval_mk_unary _ _ _ ho] at h
    rcases hex : x.Eval with e | lv
    · rw [hex] at h; cases h
    rw [hex] at h
    exact ⟨x, lv, rfl, hex, mapError_ok.mp h⟩

/-- A canonicalization pass preserves successful evaluations (the key
induction invariant behind value preservation). -/
def SimpPres (s : Node → Node × Bool) : Prop :=
  ∀ n v, n.Eval = .ok v → ((s n).1).Eval = .ok v

/-- Relation between a wrapped child's value and the stripped operand's
value in `transformDuo` (`c` is the child's value, `a` the operand's). -/
def Unwrap : Op → ℚ → ℚ → Prop
  | .null, c, a => a = c
  | .minus, c, a => c = -a
  | .sqrt, c, a => a = c * c ∧ 0 ≤ c
  | _, _, _ => False

/-- Relation between the inner node's value and the final value after the
optional result wrapper of `transformDuo`. -/
def Wrap : Op → ℚ → ℚ → Prop
  | .null, vi, vo => vo = vi
  | .minus, vi, vo => vo = -vi
  | .sqrt, vi, vo => performUnary .sqrt vi = .ok vo
  | _, _, _ => False

theorem duoArm_eval {s : Node → Node × Bool} (hs : SimpPres s)
    {child : Node} {cv : ℚ} (hev : child.Eval = .ok cv) {w : Op}
    (hw : w = .null ∨ w = .minus ∨ w = .sqrt) {a : Node}
    (ha : duoArm s child w = some a) :
    ∃ va, a.Eval = .ok va ∧ Unwrap w cv va := by
  unfold duoArm at ha
  split_ifs at ha with c1 c2
  · obtain ⟨hop, hsome⟩ := c1
    rcases eval_ok_cases hev with hleaf | ⟨hb, l', r', lv, rv, hsh, hl, hr, hpb⟩ |
        ⟨hu, l', lv, hsh, hl, hpu⟩
    · exfalso
      rw [hleaf] at hsome
      simp at hsome
    · exfalso
      rw [hsh] at hop
      simp only [Node.op_mk] at hop
      rcases hw with hw | hw | hw <;> rw [hw] at hop <;> rw [hop] at hb <;>
        simp [Op.binary, Op.idx] at hb
    · cases ha
      rw [hsh] at hsome hop ⊢
      simp only [Node.left_mk, optGet, Option.getD_some, Node.op_mk] at hsome hop ⊢
      rcases hw with hw | hw | hw <;> rw [hw] at hop
      · rw [hop] at hu; simp [Op.unary, Op.idx] at hu
      · refine ⟨lv, hs _ _ hl, ?_⟩
        rw [hop] at hpu
        rw [pu_minus] at hpu
        rw [hw]
        exact hpu
      · refine ⟨lv, hs _ _ hl, ?_⟩
        rw [hop] at hpu
        rw [pu_sqrt] at hpu
        rw [hw]
        exact ⟨hpu.2.symm, hpu.1⟩
  · cases ha
    refine ⟨cv, hs _ _ hev, ?_⟩
    rw [c2]
    exact rfl

theorem Op.binary_not_unary {o : Op} (hb : o.binary = true)
    (hu : o.unary = true) : False := by
  cases o <;> simp [Op.binary, Op.unary, Op.idx] at hb hu

theorem transformDuo_pres {s : Node → Node × Bool} (hs : SimpPres s)
    (op1 op2 op3 op4 op5 : Op)
    (h1 : op1 = .null ∨ op1 = .minus ∨ op1 = .sqrt)
    (h2 : op2.binary = true)
    (h3 : op3 = .null ∨ op3 = .minus ∨ op3 = .sqrt)
    (h4 : op4 = .null ∨ op4 = .minus ∨ op4 = .sqrt)
    (h5 : op5.binary = true)
    (halg : ∀ cl cr va vb v, Unwrap op1 cl va → Unwrap op3 cr vb →
      performBinary op2 cl cr = .ok v →
      ∃ vi, performBinary op5 va vb = .ok vi ∧ Wrap op4 vi v)
    (n : Node) (v : ℚ) (hev : n.Eval = .ok v) :
    ((transformDuo s n op1 op2 op3 op4 op5).1).Eval = .ok v := by
  unfold transformDuo
  by_cases hop : n.op = op2
  · rw [if_pos hop]
    rcases eval_ok_cases hev with hleaf | ⟨hb, l, r, cl, cr, hsh, hl, hr, hpb⟩ |
        ⟨hu, l, lv, hsh, hl, hpu⟩
    · exfalso
      rw [hleaf] at hop
      simp only [Node.op_mk] at hop
      rw [← hop] at h2
      simp [Op.binary, Op.idx] at h2
    · rw [hsh]
      simp only [Node.left_mk, Node.right_mk, optGet, Option.getD_some]
      rcases hal : duoArm s l op1 with _ | a
      · rw [hsh] at hev; exact hev
      rcases har : duoArm s r op3 with _ | b
      · rw [hsh] at hev; exact hev
      obtain ⟨va, hae, hun1⟩ := duoArm_eval hs hl h1 hal
      obtain ⟨vb, hbe, hun3⟩ := duoArm_eval hs hr h3 har
      rw [hop] at hpb
      obtain ⟨vi, hio, hwrap⟩ := halg cl cr va vb v hun1 hun3 hpb
      have hinner : (Node.mk (some a) (some b) 0 op5).Eval = .ok vi := by
        rw [eval_mk_binary _ _ _ _ h5]
        simp only [hae, hbe, hio]
        rfl
      dsimp only
      by_cases h4n : op4 = Op.null
      · rw [if_neg (by simp [h4n])]
        rw [h4n] at hwrap
        have hv : v = vi := hwrap
        rw [hinner, hv]
      · rw [if_pos h4n]
        have hse : ((s (Node.mk (some a) (some b) 0 op5)).1).Eval = .ok vi :=
          hs _ _ hinner
        rcases h4 with h | h | h
        · exact absurd h h4n
        · subst h
          rw [eval_mk_unary _ _ _ (by simp [Op.unary, Op.idx])]
          have hv : v = -vi := hwrap
          simp only [hse, pu_minus vi (-vi) |>.mpr rfl]
          simp [Except.mapError, hv]
        · subst h
          rw [eval_mk_unary _ _ _ (by simp [Op.unary, Op.idx])]
          have hv : performUnary .sqrt vi = .ok v := hwrap
          simp only [hse, hv]
          rfl
    · exfalso
      rw [← hop] at h2
      exact Op.binary_not_unary h2 hu
  · rw [if_neg hop]
    exact hev

theorem transformTrio_pres {s : Node → Node × Bool} (hs : SimpPres s)
    (op1 op2 op3 op4 : Op)
    (h1 : op1.binary = true) (h2 : op2.binary = true)
    (h3 : op3.binary = true) (h4 : op4.binary = true)
    (halg : ∀ a b c bc v, performBinary op2 b c = .ok bc →
      performBinary op1 a bc = .ok v →
      ∃ vi, performBinary op3 a b = .ok vi ∧ performBinary op4 vi c = .ok v)
    (n : Node) (v : ℚ) (hev : n.Eval = .ok v) :
    ((transformTrio s n op1 op2 op3 op4).1).Eval = .ok v := by
  unfold transformTrio
  by_cases hc : n.op = op1 ∧ (optGet n.right).op = op2
  · rw [if_pos hc]
    obtain ⟨hop, hrop⟩ := hc
    rcases eval_ok_cases hev with hleaf | ⟨hb, l, r, va, vbc, hsh, hl, hr, hpb⟩ |
        ⟨hu, l, lv, hsh, hl, hpu⟩
    · exfalso
      rw [hleaf] at hop
      simp only [Node.op_mk] at hop
      rw [← hop] at h1
      simp [Op.binary, Op.idx] at h1
    · rw [hsh]
      simp only [Node.left_mk, Node.right_mk, optGet, Option.getD_some]
      have hrop' : r.op = op2 := by
        rw [hsh] at hrop
        simpa [optGet] using hrop
      rcases eval_ok_cases hr with hrleaf | ⟨hrb, rl, rr, vb, vc, hrsh, hrl, hrr, hrpb⟩ |
          ⟨hru, rl, rlv, hrsh, hrl, hrpu⟩
      · exfalso
        rw [hrleaf] at hrop'
        simp only [Node.op_mk] at hrop'
        rw [← hrop'] at h2
        simp [Op.binary, Op.idx] at h2
      · rw [hrsh]
        simp only [Node.left_mk, Node.right_mk, optGet, Option.getD_some]
        rw [hrop'] at hrpb
        rw [hop] at hpb
        obtain ⟨vi, hi3, hi4⟩ := halg va vb vc vbc v hrpb hpb
        have hinner : (Node.mk (some ((s l).1)) (some ((s rl).1)) 0 op3).Eval
            = .ok vi := by
          rw [eval_mk_binary _ _ _ _ h3]
          simp only [hs _ _ hl, hs _ _ hrl, hi3]
          rfl
        rw [eval_mk_binary _ _ _ _ h4]
        simp only [hs _ _ hinner, hs _ _ hrr, hi4]
        rfl
      · exfalso
        rw [hrsh] at hrop'
        simp only [Node.op_mk] at hrop'
        rw [← hrop'] at h2
        exact Op.binary_not_unary h2 hru
    · exfalso
      rw [← hop] at h1
      exact Op.binary_not_unary h1 hu
  · rw [if_neg hc]
    exact hev

theorem duo_rule_pres {s : Node → Node × Bool} (hs : SimpPres s)
    (t : Op × Op × Op × Op × Op) (ht : t ∈ duoRules) (n : Node) (v : ℚ)
    (hev : n.Eval = .ok v) :
    ((transformDuo s n t.1 t.2.1 t.2.2.1 t.2.2.2.1 t.2.2.2.2).1).Eval
      = .ok v := by
  have pres_add_minus : ∀ n v, n.Eval = .ok v →
      ((transformDuo s n .null .add .minus .null .sub).1).Eval = .ok v := by
    intro n v hev
    refine transformDuo_pres hs .null .add .minus .null .sub (Or.inl rfl) rfl
      (Or.inr (Or.inl rfl)) (Or.inl rfl) rfl ?_ n v hev
    intro cl cr va vb w hu1 hu3 hpb
    have e1 : va = cl := hu1
    have e3 : cr = -vb := hu3
    have ev : w = cl + cr := (pb_add _ _ _).mp hpb
    exact ⟨va - vb, (pb_sub _ _ _).mpr rfl,
      show w = va - vb by rw [ev, e1, e3]; ring⟩
  fin_cases ht
  · exact pres_add_minus n v hev
  · exact pres_add_minus n v hev
  · -- a - (--b) → a + b
    refine transformDuo_pres hs .null .sub .minus .null .add (Or.inl rfl) rfl
      (Or.inr (Or.inl rfl)) (Or.inl rfl) rfl ?_ n v hev
    intro cl cr va vb w hu1 hu3 hpb
    have e1 : va = cl := hu1
    have e3 : cr = -vb := hu3
    have ev : w = cl - cr := (pb_sub _ _ _).mp hpb
    exact ⟨va + vb, (pb_add _ _ _).mpr rfl,
      show w = va + vb by rw [ev, e1, e3]; ring⟩
  · -- (--a) - b → --(a + b)
    refine transformDuo_pres hs .minus .sub .null .minus .add (Or.inr (Or.inl rfl)) rfl
      (Or.inl rfl) (Or.inr (Or.inl rfl)) rfl ?_ n v hev
    intro cl cr va vb w hu1 hu3 hpb
    have e1 : cl = -va := hu1
    have e3 : vb = cr := hu3
    have ev : w = cl - cr := (pb_sub _ _ _).mp hpb
    exact ⟨va + vb, (pb_add _ _ _).mpr rfl,
      show w = -(va + vb) by rw [ev, e1, e3]; ring⟩
  · -- (--a) + b → --(a - b)
    refine transformDuo_pres hs .minus .add .null .minus .sub (Or.inr (Or.inl rfl)) rfl
      (Or.inl rfl) (Or.inr (Or.inl rfl)) rfl ?_ n v hev
    intro cl cr va vb w hu1 hu3 hpb
    have e1 : cl = -va := hu1
    have e3 : vb = cr := hu3
    have ev : w = cl + cr := (pb_add _ _ _).mp hpb
    exact ⟨va - vb, (pb_sub _ _ _).mpr rfl,
      show w = -(va - vb) by rw [ev, e1, e3]; ring⟩
  · -- (--a) * (--b) → a * b
    refine transformDuo_pres hs .minus .mul .minus .null .mul (Or.inr (Or.inl rfl)) rfl
      (Or.inr (Or.inl rfl)) (Or.inl rfl) rfl ?_ n v hev
    intro cl cr va vb w hu1 hu3 hpb
    have e1 : cl = -va := hu1
    have e3 : cr = -vb := hu3
    have ev : w = cl * cr := (pb_mul _ _ _).mp hpb
    exact ⟨va * vb, (pb_mul _ _ _).mpr rfl,
      show w = va * vb by rw [ev, e1, e3]; ring⟩
  · -- (--a) / (--b) → a / b
    refine transformDuo_pres hs .minus .div .minus .null .div (Or.inr (Or.inl rfl)) rfl
      (Or.inr (Or.inl rfl)) (Or.inl rfl) rfl ?_ n v hev
    intro cl cr va vb w hu1 hu3 hpb
    have e1 : cl = -va := hu1
    have e3 : cr = -vb := hu3
    obtain ⟨hcr, ev⟩ := (pb_div _ _ _).mp hpb
    have hvb : vb ≠ 0 := by rw [e3] at hcr; simpa using hcr
    exact ⟨va / vb, (pb_div _ _ _).mpr ⟨hvb, rfl⟩,
      show w = va / vb by rw [ev, e1, e3, neg_div_neg_eq]⟩
  · -- (--a) * b → --(a * b)
    refine transformDuo_pres hs .minus .mul .null .minus .mul (Or.inr (Or.inl rfl)) rfl
      (Or.inl rfl) (Or.inr (Or.inl rfl)) rfl ?_ n v hev
    intro cl cr va vb w hu1 hu3 hpb
    have e1 : cl = -va := hu1
    have e3 : vb = cr := hu3
    have ev : w = cl * cr := (pb_mul _ _ _).mp hpb
    exact ⟨va * vb, (pb_mul _ _ _).mpr rfl,
      show w = -(va * vb) by rw [ev, e1, e3]; ring⟩
  · -- (--a) / b → --(a / b)
    refine transformDuo_pres hs .minus .div .null .minus .div (Or.inr (Or.inl rfl)) rfl
      (Or.inl rfl) (Or.inr (Or.inl rfl)) rfl ?_ n v hev
    intro cl cr va vb w hu1 hu3 hpb
    have e1 : cl = -va := hu1
    have e3 : vb = cr := hu3
    obtain ⟨hcr, ev⟩ := (pb_div _ _ _).mp hpb
    have hvb : vb ≠ 0 := by rw [e3]; exact hcr
    exact ⟨va / vb, (pb_div _ _ _).mpr ⟨hvb, rfl⟩,
      show w = -(va / vb) by rw [ev, e1, e3, neg_div]⟩
  · -- a * (--b) → --(a * b)
    refine transformDuo_pres hs .null .mul .minus .minus .mul (Or.inl rfl) rfl
      (Or.inr (Or.inl rfl)) (Or.inr (Or.inl rfl)) rfl ?_ n v hev
    intro cl cr va vb w hu1 hu3 hpb
    have e1 : va = cl := hu1
    have e3 : cr = -vb := hu3
    have ev : w = cl * cr := (pb_mul _ _ _).mp hpb
    exact ⟨va * vb, (pb_mul _ _ _).mpr rfl,
      show w = -(va * vb) by rw [ev, e1, e3]; ring⟩
  · -- a / (--b) → --(a / b)
    refine transformDuo_pres hs .null .div .minus .minus .div (Or.inl rfl) rfl
      (Or.inr (Or.inl rfl)) (Or.inr (Or.inl rfl)) rfl ?_ n v hev
    intro cl cr va vb w hu1 hu3 hpb
    have e1 : va = cl := hu1
    have e3 : cr = -vb := hu3
    obtain ⟨hcr, ev⟩ := (pb_div _ _ _).mp hpb
    have hvb : vb ≠ 0 := by rw [e3] at hcr; simpa using hcr
    exact ⟨va / vb, (pb_div _ _ _).mpr ⟨hvb, rfl⟩,
      show w = -(va / vb) by rw [ev, e1, e3, div_neg]⟩
  · -- sqrt a * sqrt b → sqrt (a * b)
    refine transformDuo_pres hs .sqrt .mul .sqrt .sqrt .mul (Or.inr (Or.inr rfl)) rfl
      (Or.inr (Or.inr rfl)) (Or.inr (Or.inr rfl)) rfl ?_ n v hev
    intro cl cr va vb w hu1 hu3 hpb
    obtain ⟨e1, hcl⟩ := (hu1 : va = cl * cl ∧ 0 ≤ cl)
    obtain ⟨e3, hcr⟩ := (hu3 : vb = cr * cr ∧ 0 ≤ cr)
    have ev : w = cl * cr := (pb_mul _ _ _).mp hpb
    refine ⟨va * vb, (pb_mul _ _ _).mpr rfl, ?_⟩
    show performUnary .sqrt (va * vb) = .ok w
    rw [pu_sqrt]
    constructor
    · rw [ev]; exact mul_nonneg hcl hcr
    · rw [ev, e1, e3]; ring
  · -- sqrt a / sqrt b → sqrt (a / b)
    refine transformDuo_pres hs .sqrt .div .sqrt .sqrt .div (Or.inr (Or.inr rfl)) rfl
      (Or.inr (Or.inr rfl)) (Or.inr (Or.inr rfl)) rfl ?_ n v hev
    intro cl cr va vb w hu1 hu3 hpb
    obtain ⟨e1, hcl⟩ := (hu1 : va = cl * cl ∧ 0 ≤ cl)
    obtain ⟨e3, hcr⟩ := (hu3 : vb = cr * cr ∧ 0 ≤ cr)
    obtain ⟨hcrne, ev⟩ := (pb_div _ _ _).mp hpb
    have hvb : vb ≠ 0 := by rw [e3]; exact mul_ne_zero hcrne hcrne
    refine ⟨va / vb, (pb_div _ _ _).mpr ⟨hvb, rfl⟩, ?_⟩
    show performUnary .sqrt (va / vb) = .ok w
    rw [pu_sqrt]
    constructor
    · rw [ev]
      exact div_nonneg hcl hcr
    · rw [ev, e1, e3]
      rw [div_mul_div_comm]

theorem trio_rule_pres {s : Node → Node × Bool} (hs : SimpPres s)
    (t : Op × Op × Op × Op) (ht : t ∈ trioRules) (n : Node) (v : ℚ)
    (hev : n.Eval = .ok v) :
    ((transformTrio s n t.1 t.2.1 t.2.2.1 t.2.2.2).1).Eval = .ok v := by
  fin_cases ht
  · -- a + (b + c) → (a + b) + c
    refine transformTrio_pres hs .add .add .add .add rfl rfl rfl rfl ?_ n v hev
    intro a b c bc w hbc hv
    have e1 : bc = b + c := (pb_add _ _ _).mp hbc
    have e2 : w = a + bc := (pb_add _ _ _).mp hv
    exact ⟨a + b, (pb_add _ _ _).mpr rfl,
      (pb_add _ _ _).mpr (by rw [e2, e1]; ring)⟩
  · -- a - (b - c) → (a - b) + c
    refine transformTrio_pres hs .sub .sub .sub .add rfl rfl rfl rfl ?_ n v hev
    intro a b c bc w hbc hv
    have e1 : bc = b - c := (pb_sub _ _ _).mp hbc
    have e2 : w = a - bc := (pb_sub _ _ _).mp hv
    exact ⟨a - b, (pb_sub _ _ _).mpr rfl,
      (pb_add _ _ _).mpr (by rw [e2, e1]; ring)⟩
  · -- a * (b * c) → (a * b) * c
    refine transformTrio_pres hs .mul .mul .mul .mul rfl rfl rfl rfl ?_ n v hev
    intro a b c bc w hbc hv
    have e1 : bc = b * c := (pb_mul _ _ _).mp hbc
    have e2 : w = a * bc := (pb_mul _ _ _).mp hv
    exact ⟨a * b, (pb_mul _ _ _).mpr rfl,
      (pb_mul _ _ _).mpr (by rw [e2, e1]; ring)⟩
  · -- a / (b / c) → (a / b) * c
    refine transformTrio_pres hs .div .div .div .mul rfl rfl rfl rfl ?_ n v hev
    intro a b c bc w hbc hv
    obtain ⟨hc, e1⟩ := (pb_div _ _ _).mp hbc
    obtain ⟨hbc0, e2⟩ := (pb_div _ _ _).mp hv
    have hb : b ≠ 0 := by
      intro hb0
      apply hbc0
      rw [e1, hb0, zero_div]
    refine ⟨a / b, (pb_div _ _ _).mpr ⟨hb, rfl⟩, (pb_mul _ _ _).mpr ?_⟩
    rw [e2, e1]
    field_simp

theorem applyDuos_pres {s : Node → Node × Bool} (hs : SimpPres s)
    (p : Node × Bool) (v : ℚ) (h : (p.1).Eval = .ok v) :
    ((applyDuos s p).1).Eval = .ok v := by
  unfold applyDuos
  suffices h' : ∀ (L : List (Op × Op × Op × Op × Op)),
      (∀ t ∈ L, t ∈ duoRules) → ∀ (p : Node × Bool), (p.1).Eval = .ok v →
      ((List.foldl (fun acc t =>
        let q := transformDuo s acc.1 t.1 t.2.1 t.2.2.1 t.2.2.2.1 t.2.2.2.2
        (q.1, acc.2 || q.2)) p L).1).Eval = .ok v by
    exact h' duoRules (fun _ ht => ht) p h
  intro L
  induction L with
  | nil => exact fun _ p hp => hp
  | cons t ts ih =>
    intro hmem p hp
    rw [List.foldl_cons]
    exact ih (fun u hu => hmem u (List.mem_cons_of_mem _ hu)) _
      (duo_rule_pres hs t (hmem t (List.mem_cons_self _ _)) _ _ hp)

theorem applyTrios_pres {s : Node → Node × Bool} (hs : SimpPres s)
    (p : Node × Bool) (v : ℚ) (h : (p.1).Eval = .ok v) :
    ((applyTrios s p).1).Eval = .ok v := by
  unfold applyTrios
  suffices h' : ∀ (L : List (Op × Op × Op × Op)),
      (∀ t ∈ L, t ∈ trioRules) → ∀ (p : Node × Bool), (p.1).Eval = .ok v →
      ((List.foldl (fun acc t =>
        let q := transformTrio s acc.1 t.1 t.2.1 t.2.2.1 t.2.2.2
        (q.1, acc.2 || q.2)) p L).1).Eval = .ok v by
    exact h' trioRules (fun _ ht => ht) p h
  intro L
  induction L with
  | nil => exact fun _ p hp => hp
  | cons t ts ih =>
    intro hmem p hp
    rw [List.foldl_cons]
    exact ih (fun u hu => hmem u (List.mem_cons_of_mem _ hu)) _
      (trio_rule_pres hs t (hmem t (List.mem_cons_self _ _)) _ _ hp)

theorem simplifyF_pres : ∀ (fuel : ℕ), SimpPres (simplifyF fuel) := by
  intro fuel
  induction fuel with
  | zero => intro n v h; exact h
  | succ fuel ih =>
    intro n v hev
    rw [simplifyF]
    dsimp only
    by_cases hc1 : n.op = .minus ∧ (optGet n.left).op = .minus
    · rw [if_pos hc1]
      obtain ⟨hop, hlop⟩ := hc1
      rcases eval_ok_cases hev with hleaf | ⟨hb, l, r, lv, rv, hsh, hl, hr, hpb⟩ |
          ⟨hu, l, lv, hsh, hl, hpu⟩
      · rw [hleaf] at hop; simp at hop
      · rw [hop] at hb; simp [Op.binary, Op.idx] at hb
      · rw [hsh] at hlop
        simp only [Node.left_mk, optGet, Option.getD_some] at hlop
        rcases eval_ok_cases hl with hlleaf | ⟨hlb, _, _, _, _, _, _, _, _⟩ |
            ⟨hlu, x, xv, hlsh, hx, hlpu⟩
        · rw [hlleaf] at hlop; simp at hlop
        · rw [hlop] at hlb; simp [Op.binary, Op.idx] at hlb
        · rw [hop] at hpu
          rw [pu_minus] at hpu
          rw [hlop] at hlpu
          rw [pu_minus] at hlpu
          have hvx : v = xv := by rw [hpu, hlpu]; ring
          rw [hsh]
          simp only [Node.left_mk, optGet, Option.getD_some]
          rw [hlsh]
          simp only [Node.left_mk, optGet, Option.getD_some]
          rw [hvx]
          exact ih _ _ (ih _ _ hx)
    · rw [if_neg hc1]
      by_cases hc2 : n.op = .pow ∧ (optGet n.left).op = .minus
      · rw [if_pos hc2]
        obtain ⟨hop, hlop⟩ := hc2
        rcases eval_ok_cases hev with hleaf | ⟨hb, l, r, lv, rv, hsh, hl, hr, hpb⟩ |
            ⟨hu, l, lv, hsh, hl, hpu⟩
        · rw [hleaf] at hop; simp at hop
        · rw [hsh] at hlop
          simp only [Node.left_mk, optGet, Option.getD_some] at hlop
          rcases eval_ok_cases hl with hlleaf | ⟨hlb, _, _, _, _, _, _, _, _⟩ |
              ⟨hlu, x, xv, hlsh, hx, hlpu⟩
          · rw [hlleaf] at hlop; simp at hlop
          · rw [hlop] at hlb; simp [Op.binary, Op.idx] at hlb
          · rw [hlop] at hlpu
            rw [pu_minus] at hlpu
            rw [hop] at hpb
            rw [hlpu] at hpb
            rw [hsh]
            simp only [Node.left_mk, Node.right_mk, optGet, Option.getD_some]
            rw [hr]
            dsimp only
            by_cases he : ratEven rv
            · rw [if_pos he]
              dsimp only
              rw [hlsh]
              simp only [Node.left_mk, optGet, Option.getD_some]
              have hpb' : performBinary .pow xv rv = .ok v :=
                pb_pow_neg_even xv rv v he hpb
              have hin : (Node.mk (some ((simplifyF fuel x).1))
                  (some ((simplifyF fuel r).1)) 0 .pow).Eval = .ok v := by
                rw [eval_mk_binary _ _ _ .pow rfl]
                simp only [ih _ _ hx, ih _ _ hr, hpb']
                rfl
              exact ih _ _ hin
            · rw [if_neg he]
              exact hsh ▸ hev
        · rw [hop] at hu; simp [Op.unary, Op.idx] at hu
      · rw [if_neg hc2]
        have hch : ((applyTrios (simplifyF fuel)
            (applyDuos (simplifyF fuel) (n, false))).1).Eval = .ok v :=
          applyTrios_pres ih _ v (applyDuos_pres ih (n, false) v hev)
        by_cases hp2 : (applyTrios (simplifyF fuel)
            (applyDuos (simplifyF fuel) (n, false))).2 = true
        · rw [if_pos hp2]
          exact ih _ _ hch
        · rw [if_neg hp2]
          rcases eval_ok_cases hev with hleaf | ⟨hb, l, r, lv, rv, hsh, hl, hr, hpb⟩ |
              ⟨hu, l, lv, hsh, hl, hpu⟩
          · rw [hleaf]
            simp only [Node.left_mk, Node.right_mk, Option.map_none']
            rw [if_neg (by simp)]
            exact eval_mk_leaf v
          · rw [hsh]
            simp only [Node.left_mk, Node.right_mk, Option.map_some',
              Node.val_mk, Node.op_mk]
            by_cases hcl : ((simplifyF fuel l).2 || (simplifyF fuel r).2) = true
            · rw [if_pos hcl]
              have hreb : (Node.mk (some ((simplifyF fuel l).1))
                  (some ((simplifyF fuel r).1)) n.val n.op).Eval = .ok v := by
                rw [eval_mk_binary _ _ _ _ hb]
                simp only [ih _ _ hl, ih _ _ hr, hpb]
                rfl
              exact ih _ _ hreb
            · rw [if_neg hcl]
              exact hsh ▸ hev
          · rw [hsh]
            simp only [Node.left_mk, Node.right_mk, Option.map_some',
              Option.map_none', Node.val_mk, Node.op_mk]
            by_cases hcl : ((simplifyF fuel l).2 || false) = true
            · rw [if_pos hcl]
              have hreb : (Node.mk (some ((simplifyF fuel l).1)) none
                  n.val n.op).Eval = .ok v := by
                rw [eval_mk_unary _ _ _ hu]
                simp only [ih _ _ hl, hpu]
                rfl
              exact ih _ _ hreb
            · rw [if_neg hcl]
              exact hsh ▸ hev

/-! Weight and validity infrastructure for the termination and idempotence
arguments. -/

/-- Recursive validity of an optional child. -/
def optValidRec : Option Node → Bool
  | some x => x.validRec
  | none => true

theorem validRec_mk (l r : Option Node) (v : ℚ) (o : Op) :
    (Node.mk l r v o).validRec =
      ((Node.mk l r v o).valid && optValidRec l && optValidRec r) := by
  cases l <;> cases r <;> rfl

theorem weightOpt_some (x : Node) : weightOpt (some x) = x.weight := rfl

theorem weightOpt_none : weightOpt none = 1 := rfl

theorem weight_mk (l r : Option Node) (v : ℚ) (o : Op) :
    (Node.mk l r v o).weight = (weightOpt l + 1) * weightOpt r := by
  cases l <;> cases r <;> simp [Node.weight, weightOpt]

theorem two_le_weight : ∀ (n : Node), 2 ≤ n.weight
  | .mk none none _ _ => by simp [Node.weight]
  | .mk (some l) none _ _ => by
    have := two_le_weight l
    simp only [Node.weight]
    omega
  | .mk none (some r) _ _ => by
    have := two_le_weight r
    simp only [Node.weight]
    omega
  | .mk (some l) (some r) _ _ => by
    have h1 := two_le_weight l
    have h2 := two_le_weight r
    simp only [Node.weight]
    nlinarith

theorem one_le_weightOpt (o : Option Node) : 1 ≤ weightOpt o := by
  cases o with
  | none => simp [weightOpt]
  | some x => simp only [weightOpt]; have := two_le_weight x; omega

theorem weight_left_lt {n : Node} {x : Node} (h : n.left = some x) :
    x.weight < n.weight := by
  obtain ⟨l, r, v, o⟩ := n
  simp only [Node.left_mk] at h
  subst h
  rw [weight_mk, weightOpt_some]
  nlinarith [two_le_weight x, one_le_weightOpt r]

theorem weight_right_lt {n : Node} {y : Node} (h : n.right = some y) :
    y.weight < n.weight := by
  obtain ⟨l, r, v, o⟩ := n
  simp only [Node.right_mk] at h
  subst h
  rw [weight_mk, weightOpt_some]
  nlinarith [two_le_weight y, one_le_weightOpt l]

theorem validRec_valid {n : Node} (h : n.validRec = true) : n.valid = true := by
  obtain ⟨l, r, v, o⟩ := n
  rw [validRec_mk] at h
  simp only [Bool.and_eq_true] at h
  exact h.1.1

theorem validRec_left {n : Node} {x : Node} (h : n.validRec = true)
    (hx : n.left = some x) : x.validRec = true := by
  obtain ⟨l, r, v, o⟩ := n
  rw [validRec_mk] at h
  simp only [Bool.and_eq_true] at h
  simp only [Node.left_mk] at hx
  subst hx
  simpa [optValidRec] using h.1.2

theorem validRec_right {n : Node} {y : Node} (h : n.validRec = true)
    (hy : n.right = some y) : y.validRec = true := by
  obtain ⟨l, r, v, o⟩ := n
  rw [validRec_mk] at h
  simp only [Bool.and_eq_true] at h
  simp only [Node.right_mk] at hy
  subst hy
  simpa [optValidRec] using h.2

/-- Shape of a recursively valid node whose operator is binary. -/
theorem validRec_binary_shape {n : Node} (h : n.validRec = true)
    (hb : n.op.binary = true) :
    ∃ l r, n = .mk (some l) (some r) n.val n.op ∧
      l.validRec = true ∧ r.validRec = true := by
  obtain ⟨l, r, v, o⟩ := n
  simp only [Node.op_mk] at hb
  have hval := validRec_valid h
  rw [valid_of_binary hb] at hval
  simp only [Bool.and_eq_true, Option.isSome_iff_exists] at hval
  obtain ⟨⟨x, hx⟩, ⟨y, hy⟩⟩ := hval
  subst hx; subst hy
  exact ⟨x, y, rfl, validRec_left h rfl, validRec_right h rfl⟩

/-- Shape of a recursively valid node whose operator is unary. -/
theorem validRec_unary_shape {n : Node} (h : n.validRec = true)
    (hu : n.op.unary = true) :
    ∃ l, n = .mk (some l) none n.val n.op ∧ l.validRec = true := by
  obtain ⟨l, r, v, o⟩ := n
  simp only [Node.op_mk] at hu
  have hval := validRec_valid h
  rw [valid_of_unary hu] at hval
  simp only [Bool.and_eq_true, Option.isSome_iff_exists,
    Option.isNone_iff_eq_none] at hval
  obtain ⟨⟨x, hx⟩, hy⟩ := hval
  subst hx; subst hy
  exact ⟨x, rfl, validRec_left h rfl⟩

/-- The invariant a canonicalization pass maintains: on recursively valid
input it returns a recursively valid tree; if it reports a change the weight
strictly drops, and otherwise the tree is returned unchanged. -/
def SimpOK (s : Node → Node × Bool) : Prop :=
  ∀ n, n.validRec = true →
    ((s n).1.validRec = true ∧
     ((s n).2 = true → (s n).1.weight < n.weight) ∧
     ((s n).2 = false → (s n).1 = n))

theorem SimpOK.le {s : Node → Node × Bool} (hs : SimpOK s) {n : Node}
    (hv : n.validRec = true) : ((s n).1).weight ≤ n.weight := by
  obtain ⟨_, h1, h2⟩ := hs n hv
  cases hf : (s n).2 with
  | true => exact le_of_lt (h1 hf)
  | false => rw [h2 hf]

theorem duoArm_wv {s : Node → Node × Bool} (hs : SimpOK s) {child : Node}
    (hv : child.validRec = true) (w : Op) {a : Node}
    (ha : duoArm s child w = some a) :
    a.validRec = true ∧ a.weight ≤ child.weight ∧
      (w ≠ .null → a.weight < child.weight) := by
  unfold duoArm at ha
  split_ifs at ha with c1 c2
  · obtain ⟨hop, hsome⟩ := c1
    rw [Option.isSome_iff_exists] at hsome
    obtain ⟨x, hx⟩ := hsome
    rw [hx] at ha
    simp only [optGet, Option.getD_some] at ha
    cases ha
    have hxv : x.validRec = true := validRec_left hv hx
    have hxw : x.weight < child.weight := weight_left_lt hx
    obtain ⟨hval, _, _⟩ := hs x hxv
    have hle := SimpOK.le hs hxv
    exact ⟨hval, le_trans hle (le_of_lt hxw),
      fun _ => lt_of_le_of_lt hle hxw⟩
  · cases ha
    obtain ⟨hval, _, _⟩ := hs child hv
    exact ⟨hval, SimpOK.le hs hv, fun hw => absurd c2 hw⟩

theorem transformDuo_flag_false {s : Node → Node × Bool} {n : Node}
    {op1 op2 op3 op4 op5 : Op}
    (h : (transformDuo s n op1 op2 op3 op4 op5).2 = false) :
    (transformDuo s n op1 op2 op3 op4 op5).1 = n := by
  unfold transformDuo at h ⊢
  by_cases hc : n.op = op2
  · rw [if_pos hc] at h ⊢
    rcases h1 : duoArm s (optGet n.left) op1 with _ | a <;>
      rcases h2 : duoArm s (optGet n.right) op3 with _ | b
    · rfl
    · rfl
    · rfl
    · rw [h1, h2] at h
      dsimp only at h
      by_cases h4 : op4 ≠ Op.null
      · rw [if_pos h4] at h; cases h
      · rw [if_neg h4] at h; cases h
  · rw [if_neg hc] at h ⊢

theorem transformTrio_flag_false {s : Node → Node × Bool} {n : Node}
    {op1 op2 op3 op4 : Op}
    (h : (transformTrio s n op1 op2 op3 op4).2 = false) :
    (transformTrio s n op1 op2 op3 op4).1 = n := by
  unfold transformTrio at h ⊢
  by_cases hc : n.op = op1 ∧ (optGet n.right).op = op2
  · rw [if_pos hc] at h
    cases h
  · rw [if_neg hc]

theorem duo_weight_lt {wl wr wa wb : ℕ} (hwl : 2 ≤ wl) (hwr : 2 ≤ wr)
    (hcase : (wa + 1 ≤ wl ∧ wb ≤ wr) ∨ (wa ≤ wl ∧ wb + 1 ≤ wr)) :
    (wa + 1) * wb + 1 < (wl + 1) * wr := by
  rcases hcase with ⟨h1, h2⟩ | ⟨h1, h2⟩ <;> nlinarith

theorem transformDuo_wv {s : Node → Node × Bool} (hs : SimpOK s)
    (op1 op2 op3 op4 op5 : Op)
    (h13 : op1 ≠ .null ∨ op3 ≠ .null)
    (h2 : op2.binary = true)
    (h4 : op4 = .null ∨ op4.unary = true)
    (h5 : op5.binary = true)
    (n : Node) (hv : n.validRec = true)
    (hflag : (transformDuo s n op1 op2 op3 op4 op5).2 = true) :
    (transformDuo s n op1 op2 op3 op4 op5).1.validRec = true ∧
      (transformDuo s n op1 op2 op3 op4 op5).1.weight < n.weight := by
  unfold transformDuo at hflag ⊢
  by_cases hop : n.op = op2
  · rw [if_pos hop] at hflag ⊢
    obtain ⟨l, r, hsh, hlv, hrv⟩ := validRec_binary_shape hv (hop ▸ h2)
    have hln : n.left = some l := by rw [hsh]; rfl
    have hrn : n.right = some r := by rw [hsh]; rfl
    rw [hln, hrn]
    rw [hln, hrn] at hflag
    simp only [optGet, Option.getD_some] at hflag ⊢
    rcases h1 : duoArm s l op1 with _ | a
    · rw [h1] at hflag; cases hflag
    rcases h3 : duoArm s r op3 with _ | b
    · rw [h1, h3] at hflag; cases hflag
    obtain ⟨hav, hale, halt⟩ := duoArm_wv hs hlv op1 h1
    obtain ⟨hbv, hble, hblt⟩ := duoArm_wv hs hrv op3 h3
    have hwn : n.weight = (l.weight + 1) * r.weight := by
      rw [hsh, weight_mk, weightOpt_some, weightOpt_some]
    have hmain : (a.weight + 1) * b.weight + 1 < n.weight := by
      rw [hwn]
      apply duo_weight_lt (two_le_weight l) (two_le_weight r)
      rcases h13 with h | h
      · exact Or.inl ⟨by have := halt h; omega, hble⟩
      · exact Or.inr ⟨hale, by have := hblt h; omega⟩
    have hinv : (Node.mk (some a) (some b) 0 op5).validRec = true := by
      rw [validRec_mk, valid_of_binary h5]
      simp [optValidRec, hav, hbv]
    have hinw : (Node.mk (some a) (some b) 0 op5).weight
        = (a.weight + 1) * b.weight := by
      rw [weight_mk, weightOpt_some, weightOpt_some]
    dsimp only
    by_cases h4n : op4 = Op.null
    · rw [if_neg (by simp [h4n])]
      refine ⟨hinv, ?_⟩
      rw [hinw]
      omega
    · rw [if_pos h4n]
      have hop4u : op4.unary = true := by
        rcases h4 with h | h
        · exact absurd h h4n
        · exact h
      obtain ⟨hsv, _, _⟩ := hs _ hinv
      have hsle := SimpOK.le hs hinv
      constructor
      · rw [validRec_mk, valid_of_unary hop4u]
        simp [optValidRec, hsv]
      · rw [weight_mk, weightOpt_some, weightOpt_none]
        have : (s (Node.mk (some a) (some b) 0 op5)).1.weight
            ≤ (a.weight + 1) * b.weight := by rw [← hinw]; exact hsle
        omega
  · rw [if_neg hop] at hflag
    cases hflag

theorem trio_weight_lt {wl wrl wrr wa wb wc : ℕ}
    (hwl : 2 ≤ wl) (hwrr : 2 ≤ wrr) (hwrl : 2 ≤ wrl)
    (ha : wa ≤ wl) (hb : wb ≤ wrl) (hc : wc ≤ wrr) :
    ((wa + 1) * wb + 1) * wc < (wl + 1) * ((wrl + 1) * wrr) := by
  have k1 : (wa + 1) * wb ≤ (wl + 1) * wrl :=
    Nat.mul_le_mul (by omega) hb
  have k2 : ((wa + 1) * wb + 1) * wc ≤ ((wl + 1) * wrl + 1) * wrr :=
    Nat.mul_le_mul (by omega) hc
  have k4 : ((wl + 1) * (wrl + 1)) * wrr = ((wl + 1) * wrl + (wl + 1)) * wrr := by
    ring
  have k5 : ((wl + 1) * wrl + 1) * wrr < ((wl + 1) * wrl + (wl + 1)) * wrr := by
    apply Nat.mul_lt_mul_of_lt_of_le _ le_rfl (by omega)
    omega
  calc ((wa + 1) * wb + 1) * wc ≤ ((wl + 1) * wrl + 1) * wrr := k2
    _ < ((wl + 1) * wrl + (wl + 1)) * wrr := k5
    _ = (wl + 1) * ((wrl + 1) * wrr) := by ring

theorem transformTrio_wv {s : Node → Node × Bool} (hs : SimpOK s)
    (op1 op2 op3 op4 : Op)
    (h1 : op1.binary = true) (h2 : op2.binary = true)
    (h3 : op3.binary = true) (h4 : op4.binary = true)
    (n : Node) (hv : n.validRec = true)
    (hflag : (transformTrio s n op1 op2 op3 op4).2 = true) :
    (transformTrio s n op1 op2 op3 op4).1.validRec = true ∧
      (transformTrio s n op1 op2 op3 op4).1.weight < n.weight := by
  unfold transformTrio at hflag ⊢
  by_cases hc : n.op = op1 ∧ (optGet n.right).op = op2
  · rw [if_pos hc] at hflag ⊢
    obtain ⟨hop, hrop⟩ := hc
    obtain ⟨l, r, hsh, hlv, hrv⟩ := validRec_binary_shape hv (hop ▸ h1)
    have hln : n.left = some l := by rw [hsh]; rfl
    have hrn : n.right = some r := by rw [hsh]; rfl
    rw [hrn] at hrop
    simp only [optGet, Option.getD_some] at hrop
    obtain ⟨rl, rr, hrsh, hrlv, hrrv⟩ := validRec_binary_shape hrv (hrop ▸ h2)
    have hrln : r.left = some rl := by rw [hrsh]; rfl
    have hrrn : r.right = some rr := by rw [hrsh]; rfl
    dsimp only
    rw [hln, hrn]
    simp only [optGet, Option.getD_some]
    rw [hrln, hrrn]
    simp only [optGet, Option.getD_some]
    have hlov := hs l hlv
    have hrlov := hs rl hrlv
    have hrrov := hs rr hrrv
    have hinv : (Node.mk (some ((s l).1)) (some ((s rl).1)) 0 op3).validRec
        = true := by
      rw [validRec_mk, valid_of_binary h3]
      simp [optValidRec, hlov.1, hrlov.1]
    have hinw : (Node.mk (some ((s l).1)) (some ((s rl).1)) 0 op3).weight
        = ((s l).1.weight + 1) * (s rl).1.weight := by
      rw [weight_mk, weightOpt_some, weightOpt_some]
    obtain ⟨hsv, _, _⟩ := hs _ hinv
    have hsle := SimpOK.le hs hinv
    constructor
    · rw [validRec_mk, valid_of_binary h4]
      simp [optValidRec, hsv, hrrov.1]
    · rw [weight_mk, weightOpt_some, weightOpt_some]
      have hwn : n.weight = (l.weight + 1) * ((rl.weight + 1) * rr.weight) := by
        rw [hsh, weight_mk, weightOpt_some, weightOpt_some, hrsh,
          weight_mk, weightOpt_some, weightOpt_some]
      rw [hwn]
      have e1 : (s (Node.mk (some ((s l).1)) (some ((s rl).1)) 0 op3)).1.weight
          ≤ ((s l).1.weight + 1) * (s rl).1.weight := by
        rw [← hinw]; exact hsle
      have e2 : ((s l).1.weight + 1) * (s rl).1.weight
          ≤ (l.weight + 1) * rl.weight := by
        have := SimpOK.le hs hlv
        have := SimpOK.le hs hrlv
        have := two_le_weight (s rl).1
        nlinarith
      have e3 : (s rr).1.weight ≤ rr.weight := SimpOK.le hs hrrv
      calc ((s (Node.mk (some ((s l).1)) (some ((s rl).1)) 0 op3)).1.weight + 1)
            * (s rr).1.weight
          ≤ ((l.weight + 1) * rl.weight + 1) * rr.weight := by
            have h2w := two_le_weight (s rr).1
            nlinarith
        _ < (l.weight + 1) * ((rl.weight + 1) * rr.weight) :=
            trio_weight_lt (two_le_weight l) (two_le_weight rr)
              (two_le_weight rl) le_rfl le_rfl le_rfl
  · rw [if_neg hc] at hflag
    cases hflag

/-- The shape facts about a pairwise-merge tuple that the weight argument
needs; all thirteen rows of the table satisfy them. -/
def GoodDuo (t : Op × Op × Op × Op × Op) : Prop :=
  (t.1 ≠ .null ∨ t.2.2.1 ≠ .null) ∧ t.2.1.binary = true ∧
    (t.2.2.2.1 = .null ∨ (t.2.2.2.1).unary = true) ∧ (t.2.2.2.2).binary = true

/-- The shape facts about a re-association tuple; all four rows satisfy
them. -/
def GoodTrio (t : Op × Op × Op × Op) : Prop :=
  t.1.binary = true ∧ t.2.1.binary = true ∧ t.2.2.1.binary = true ∧
    t.2.2.2.binary = true

instance (t : Op × Op × Op × Op × Op) : Decidable (GoodDuo t) := by
  unfold GoodDuo; infer_instance

instance (t : Op × Op × Op × Op) : Decidable (GoodTrio t) := by
  unfold GoodTrio; infer_instance

theorem duoRules_good : ∀ t ∈ duoRules, GoodDuo t := by decide

theorem trioRules_good : ∀ t ∈ trioRules, GoodTrio t := by decide

/-- Shape of a recursively valid leaf. -/
theorem validRec_null_shape {n : Node} (h : n.validRec = true)
    (ho : n.op = .null) : n = .mk none none n.val .null := by
  obtain ⟨l, r, v, o⟩ := n
  simp only [Node.op_mk] at ho
  subst ho
  have hval := validRec_valid h
  rw [valid_of_null] at hval
  simp only [Bool.and_eq_true, Option.isNone_iff_eq_none] at hval
  obtain ⟨hl, hr⟩ := hval
  subst hl; subst hr
  rfl

theorem duo_fold_inv {s : Node → Node × Bool} (hs : SimpOK s) (n : Node) :
    ∀ (L : List (Op × Op × Op × Op × Op)), (∀ t ∈ L, GoodDuo t) →
    ∀ (p : Node × Bool), p.1.validRec = true →
    (p.2 = true → p.1.weight < n.weight) → (p.2 = false → p.1 = n) →
    ((List.foldl (fun acc t =>
        let q := transformDuo s acc.1 t.1 t.2.1 t.2.2.1 t.2.2.2.1 t.2.2.2.2
        (q.1, acc.2 || q.2)) p L).1.validRec = true ∧
      ((List.foldl (fun acc t =>
        let q := transformDuo s acc.1 t.1 t.2.1 t.2.2.1 t.2.2.2.1 t.2.2.2.2
        (q.1, acc.2 || q.2)) p L).2 = true →
        (List.foldl (fun acc t =>
        let q := transformDuo s acc.1 t.1 t.2.1 t.2.2.1 t.2.2.2.1 t.2.2.2.2
        (q.1, acc.2 || q.2)) p L).1.weight < n.weight) ∧
      ((List.foldl (fun acc t =>
        let q := transformDuo s acc.1 t.1 t.2.1 t.2.2.1 t.2.2.2.1 t.2.2.2.2
        (q.1, acc.2 || q.2)) p L).2 = false →
        (List.foldl (fun acc t =>
        let q := transformDuo s acc.1 t.1 t.2.1 t.2.2.1 t.2.2.2.1 t.2.2.2.2
        (q.1, acc.2 || q.2)) p L).1 = n)) := by
  intro L
  induction L with
  | nil => exact fun _ p h1 h2 h3 => ⟨h1, h2, h3⟩
  | cons t ts ihL =>
    intro hmem p h1 h2 h3
    rw [List.foldl_cons]
    dsimp only
    obtain ⟨g13, g2, g4, g5⟩ := hmem t (List.mem_cons_self _ _)
    apply ihL (fun u hu => hmem u (List.mem_cons_of_mem _ hu))
    · cases hq : (transformDuo s p.1 t.1 t.2.1 t.2.2.1 t.2.2.2.1 t.2.2.2.2).2 with
      | false => rw [transformDuo_flag_false hq]; exact h1
      | true => exact (transformDuo_wv hs _ _ _ _ _ g13 g2 g4 g5 p.1 h1 hq).1
    · intro hflag
      cases hq : (transformDuo s p.1 t.1 t.2.1 t.2.2.1 t.2.2.2.1 t.2.2.2.2).2 with
      | false =>
        rw [transformDuo_flag_false hq]
        rw [hq, Bool.or_false] at hflag
        exact h2 hflag
      | true =>
        have hlt := (transformDuo_wv hs _ _ _ _ _ g13 g2 g4 g5 p.1 h1 hq).2
        cases hp : p.2 with
        | true => exact lt_trans hlt (h2 hp)
        | false => rw [← h3 hp]; exact hlt
    · intro hflag
      cases hq : (transformDuo s p.1 t.1 t.2.1 t.2.2.1 t.2.2.2.1 t.2.2.2.2).2 with
      | false =>
        rw [transformDuo_flag_false hq]
        rw [hq, Bool.or_false] at hflag
        exact h3 hflag
      | true =>
        rw [hq, Bool.or_true] at hflag
        cases hflag

theorem trio_fold_inv {s : Node → Node × Bool} (hs : SimpOK s) (n : Node) :
    ∀ (L : List (Op × Op × Op × Op)), (∀ t ∈ L, GoodTrio t) →
    ∀ (p : Node × Bool), p.1.validRec = true →
    (p.2 = true → p.1.weight < n.weight) → (p.2 = false → p.1 = n) →
    ((List.foldl (fun acc t =>
        let q := transformTrio s acc.1 t.1 t.2.1 t.2.2.1 t.2.2.2
        (q.1, acc.2 || q.2)) p L).1.validRec = true ∧
      ((List.foldl (fun acc t =>
        let q := transformTrio s acc.1 t.1 t.2.1 t.2.2.1 t.2.2.2
        (q.1, acc.2 || q.2)) p L).2 = true →
        (List.foldl (fun acc t =>
        let q := transformTrio s acc.1 t.1 t.2.1 t.2.2.1 t.2.2.2
        (q.1, acc.2 || q.2)) p L).1.weight < n.weight) ∧
      ((List.foldl (fun acc t =>
        let q := transformTrio s acc.1 t.1 t.2.1 t.2.2.1 t.2.2.2
        (q.1, acc.2 || q.2)) p L).2 = false →
        (List.foldl (fun acc t =>
        let q := transformTrio s acc.1 t.1 t.2.1 t.2.2.1 t.2.2.2
        (q.1, acc.2 || q.2)) p L).1 = n)) := by
  intro L
  induction L with
  | nil => exact fun _ p h1 h2 h3 => ⟨h1, h2, h3⟩
  | cons t ts ihL =>
    intro hmem p h1 h2 h3
    rw [List.foldl_cons]
    dsimp only
    obtain ⟨g1, g2, g3, g4⟩ := hmem t (List.mem_cons_self _ _)
    apply ihL (fun u hu => hmem u (List.mem_cons_of_mem _ hu))
    · cases hq : (transformTrio s p.1 t.1 t.2.1 t.2.2.1 t.2.2.2).2 with
      | false => rw [transformTrio_flag_false hq]; exact h1
      | true => exact (transformTrio_wv hs _ _ _ _ g1 g2 g3 g4 p.1 h1 hq).1
    · intro hflag
      cases hq : (transformTrio s p.1 t.1 t.2.1 t.2.2.1 t.2.2.2).2 with
      | false =>
        rw [transformTrio_flag_false hq]
        rw [hq, Bool.or_false] at hflag
        exact h2 hflag
      | true =>
        have hlt := (transformTrio_wv hs _ _ _ _ g1 g2 g3 g4 p.1 h1 hq).2
        cases hp : p.2 with
        | true => exact lt_trans hlt (h2 hp)
        | false => rw [← h3 hp]; exact hlt
    · intro hflag
      cases hq : (transformTrio s p.1 t.1 t.2.1 t.2.2.1 t.2.2.2).2 with
      | false =>
        rw [transformTrio_flag_false hq]
        rw [hq, Bool.or_false] at hflag
        exact h3 hflag
      | true =>
        rw [hq, Bool.or_true] at hflag
        cases hflag

/-- The chain invariant for the full duo-then-trio sequence starting from
`(n, false)`. -/
theorem chains_inv {s : Node → Node × Bool} (hs : SimpOK s) {n : Node}
    (hv : n.validRec = true) :
    ((applyTrios s (applyDuos s (n, false))).1.validRec = true ∧
     ((applyTrios s (applyDuos s (n, false))).2 = true →
       (applyTrios s (applyDuos s (n, false))).1.weight < n.weight) ∧
     ((applyTrios s (applyDuos s (n, false))).2 = false →
       (applyTrios s (applyDuos s (n, false))).1 = n)) := by
  have hd := duo_fold_inv hs n duoRules duoRules_good (n, false) hv
    (fun h => by cases h) (fun _ => rfl)
  exact trio_fold_inv hs n trioRules trioRules_good _ hd.1 hd.2.1 hd.2.2

theorem weight_prod_lt {wa wb wl wr : ℕ} (h2r : 2 ≤ wr) (h2b : 2 ≤ wb)
    (hcase : (wa < wl ∧ wb ≤ wr) ∨ (wa ≤ wl ∧ wb < wr)) :
    (wa + 1) * wb < (wl + 1) * wr := by
  rcases hcase with ⟨hx, hy⟩ | ⟨hx, hy⟩ <;> nlinarith

/-- The central invariant: at any fuel, the fuelled canonicalizer preserves
recursive validity, strictly decreases the weight whenever it reports a
change, and returns its argument unchanged otherwise. -/
theorem simplifyF_wv : ∀ (fuel : ℕ), SimpOK (simplifyF fuel) := by
  intro fuel
  induction fuel with
  | zero =>
    intro n hv
    refine ⟨hv, ?_, ?_⟩
    · intro h; cases h
    · intro _; rfl
  | succ fuel ih =>
    intro n hv
    rw [simplifyF]
    dsimp only
    by_cases hc1 : n.op = .minus ∧ (optGet n.left).op = .minus
    · rw [if_pos hc1]
      obtain ⟨hop, hlop⟩ := hc1
      obtain ⟨l, hsh, hlv⟩ := validRec_unary_shape hv (by rw [hop]; rfl)
      have hln : n.left = some l := by rw [hsh]; rfl
      rw [hln] at hlop
      simp only [optGet, Option.getD_some] at hlop
      obtain ⟨x, hlsh, hxv⟩ := validRec_unary_shape hlv (by rw [hlop]; rfl)
      have hxl : l.left = some x := by rw [hlsh]; rfl
      rw [hln]
      simp only [optGet, Option.getD_some]
      rw [hxl]
      simp only [optGet, Option.getD_some]
      obtain ⟨hv1, _, _⟩ := ih x hxv
      obtain ⟨hv2, _, _⟩ := ih _ hv1
      refine ⟨hv2, fun _ => ?_, fun h => by cases h⟩
      have e1 := SimpOK.le ih hxv
      have e2 := SimpOK.le ih hv1
      have e3 : x.weight < l.weight := weight_left_lt hxl
      have e4 : l.weight < n.weight := weight_left_lt hln
      exact lt_of_le_of_lt (le_trans e2 e1) (lt_trans e3 e4)
    · rw [if_neg hc1]
      by_cases hc2 : n.op = .pow ∧ (optGet n.left).op = .minus
      · rw [if_pos hc2]
        obtain ⟨hop, hlop⟩ := hc2
        obtain ⟨l, r, hsh, hlv, hrv⟩ := validRec_binary_shape hv
          (by rw [hop]; rfl)
        have hln : n.left = some l := by rw [hsh]; rfl
        have hrn : n.right = some r := by rw [hsh]; rfl
        rw [hln] at hlop
        simp only [optGet, Option.getD_some] at hlop
        obtain ⟨x, hlsh, hxv⟩ := validRec_unary_shape hlv (by rw [hlop]; rfl)
        have hxl : l.left = some x := by rw [hlsh]; rfl
        rw [hrn]
        simp only [optGet, Option.getD_some]
        rcases her : r.Eval with e | ev
        · refine ⟨hv, ?_, ?_⟩
          · intro h; cases h
          · intro _; rfl
        · dsimp only
          by_cases hevn : ratEven ev
          · rw [if_pos hevn]
            rw [hln]
            simp only [optGet, Option.getD_some]
            rw [hxl]
            simp only [optGet, Option.getD_some]
            obtain ⟨hxsv, _, _⟩ := ih x hxv
            obtain ⟨hrsv, _, _⟩ := ih r hrv
            have hbv : (Node.mk (some ((simplifyF fuel x).1))
                (some ((simplifyF fuel r).1)) 0 .pow).validRec = true := by
              rw [validRec_mk,
                valid_of_binary (show Op.pow.binary = true from rfl)]
              simp [optValidRec, hxsv, hrsv]
            have hbw : (Node.mk (some ((simplifyF fuel x).1))
                (some ((simplifyF fuel r).1)) 0 .pow).weight < n.weight := by
              rw [weight_mk, weightOpt_some, weightOpt_some]
              have hwn : n.weight = (l.weight + 1) * r.weight := by
                rw [hsh, weight_mk, weightOpt_some, weightOpt_some]
              have hwl : l.weight = x.weight + 1 := by
                rw [hlsh, weight_mk, weightOpt_some, weightOpt_none]
                ring
              rw [hwn, hwl]
              apply weight_prod_lt (two_le_weight r)
                (two_le_weight (simplifyF fuel r).1)
              exact Or.inl ⟨by have := SimpOK.le ih hxv; omega,
                SimpOK.le ih hrv⟩
            obtain ⟨hv2, _, _⟩ := ih _ hbv
            refine ⟨hv2, fun _ => ?_, fun h => by cases h⟩
            exact lt_of_le_of_lt (SimpOK.le ih hbv) hbw
          · rw [if_neg hevn]
            refine ⟨hv, ?_, ?_⟩
            · intro h; cases h
            · intro _; rfl
      · rw [if_neg hc2]
        have hch := chains_inv ih hv
        by_cases hp2 : (applyTrios (simplifyF fuel)
            (applyDuos (simplifyF fuel) (n, false))).2 = true
        · rw [if_pos hp2]
          obtain ⟨hcv, hcw, _⟩ := hch
          obtain ⟨hv2, _, _⟩ := ih _ hcv
          refine ⟨hv2, fun _ => ?_, fun h => by cases h⟩
          exact lt_of_le_of_lt (SimpOK.le ih hcv) (hcw hp2)
        · rw [if_neg hp2]
          rcases op_class n.op with ho | ho | ho
          · have hsh := validRec_null_shape hv ho
            rw [hsh]
            simp only [Node.left_mk, Node.right_mk, Option.map_none']
            rw [if_neg (by simp)]
            refine ⟨hsh ▸ hv, ?_, ?_⟩
            · intro h; cases h
            · intro _; rfl
          · obtain ⟨l, r, hsh, hlv, hrv⟩ := validRec_binary_shape hv ho
            rw [hsh]
            simp only [Node.left_mk, Node.right_mk, Option.map_some',
              Node.val_mk, Node.op_mk]
            obtain ⟨hlsv, hlsw, hlse⟩ := ih l hlv
            obtain ⟨hrsv, hrsw, hrse⟩ := ih r hrv
            by_cases hcl : ((simplifyF fuel l).2 || (simplifyF fuel r).2) = true
            · rw [if_pos hcl]
              have hrebv : (Node.mk (some ((simplifyF fuel l).1))
                  (some ((simplifyF fuel r).1)) n.val n.op).validRec = true := by
                rw [validRec_mk, valid_of_binary ho]
                simp [optValidRec, hlsv, hrsv]
              have hrebw : (Node.mk (some ((simplifyF fuel l).1))
                  (some ((simplifyF fuel r).1)) n.val n.op).weight
                  < (Node.mk (some l) (some r) n.val n.op).weight := by
                simp only [weight_mk, weightOpt_some]
                apply weight_prod_lt (two_le_weight r)
                  (two_le_weight (simplifyF fuel r).1)
                rcases Bool.or_eq_true_iff.mp hcl with hfl | hfr
                · exact Or.inl ⟨hlsw hfl, SimpOK.le ih hrv⟩
                · exact Or.inr ⟨SimpOK.le ih hlv, hrsw hfr⟩
              obtain ⟨hv2, _, _⟩ := ih _ hrebv
              refine ⟨hv2, fun _ => ?_, fun h => by cases h⟩
              exact lt_of_le_of_lt (SimpOK.le ih hrebv) hrebw
            · rw [if_neg hcl]
              refine ⟨hsh ▸ hv, ?_, ?_⟩
              · intro h; cases h
              · intro _; rfl
          · obtain ⟨l, hsh, hlv⟩ := validRec_unary_shape hv ho
            rw [hsh]
            simp only [Node.left_mk, Node.right_mk, Option.map_some',
              Option.map_none', Node.val_mk, Node.op_mk]
            obtain ⟨hlsv, hlsw, hlse⟩ := ih l hlv
            by_cases hcl : ((simplifyF fuel l).2 || false) = true
            · rw [if_pos hcl]
              rw [Bool.or_false] at hcl
              have hrebv : (Node.mk (some ((simplifyF fuel l).1)) none
                  n.val n.op).validRec = true := by
                rw [validRec_mk, valid_of_unary ho]
                simp [optValidRec, hlsv]
              have hrebw : (Node.mk (some ((simplifyF fuel l).1)) none
                  n.val n.op).weight
                  < (Node.mk (some l) none n.val n.op).weight := by
                simp only [weight_mk, weightOpt_some, weightOpt_none,
                  Nat.mul_one]
                have := hlsw hcl
                omega
              obtain ⟨hv2, _, _⟩ := ih _ hrebv
              refine ⟨hv2, fun _ => ?_, fun h => by cases h⟩
              exact lt_of_le_of_lt (SimpOK.le ih hrebv) hrebw
            · rw [if_neg hcl]
              refine ⟨hsh ▸ hv, ?_, ?_⟩
              · intro h; cases h
              · intro _; rfl

/-- Pointwise agreement of two canonicalization passes on valid nodes below
a weight bound. -/
def Agree (W : ℕ) (s1 s2 : Node → Node × Bool) : Prop :=
  ∀ m, m.validRec = true → m.weight < W → s1 m = s2 m

theorem duoArm_congr {W : ℕ} {s1 s2 : Node → Node × Bool} (hA : Agree W s1 s2)
    {child : Node} (hv : child.validRec = true) (hw : child.weight < W)
    (op1 : Op) : duoArm s1 child op1 = duoArm s2 child op1 := by
  unfold duoArm
  split_ifs with c1
  · obtain ⟨hop, hsome⟩ := c1
    rw [Option.isSome_iff_exists] at hsome
    obtain ⟨x, hx⟩ := hsome
    rw [hx]
    simp only [optGet, Option.getD_some]
    rw [hA x (validRec_left hv hx) (lt_trans (weight_left_lt hx) hw)]
  · rw [hA child hv hw]
  · rfl

theorem transformDuo_congr {W : ℕ} {s1 s2 : Node → Node × Bool}
    (hok : SimpOK s1) (hA : Agree W s1 s2) {op1 op2 op3 op4 op5 : Op}
    (h13 : op1 ≠ .null ∨ op3 ≠ .null) (h2 : op2.binary = true)
    (h5 : op5.binary = true)
    {m : Node} (hv : m.validRec = true) (hw : m.weight ≤ W) :
    transformDuo s1 m op1 op2 op3 op4 op5 =
      transformDuo s2 m op1 op2 op3 op4 op5 := by
  unfold transformDuo
  by_cases hop : m.op = op2
  · rw [if_pos hop, if_pos hop]
    obtain ⟨l, r, hsh, hlv, hrv⟩ := validRec_binary_shape hv (hop ▸ h2)
    have hln : m.left = some l := by rw [hsh]; rfl
    have hrn : m.right = some r := by rw [hsh]; rfl
    rw [hln, hrn]
    simp only [optGet, Option.getD_some]
    have hwl : l.weight < W := lt_of_lt_of_le (weight_left_lt hln) hw
    have hwr : r.weight < W := lt_of_lt_of_le (weight_right_lt hrn) hw
    rw [duoArm_congr hA hlv hwl op1, duoArm_congr hA hrv hwr op3]
    rcases h1 : duoArm s2 l op1 with _ | a
    · rfl
    rcases h3 : duoArm s2 r op3 with _ | b
    · rfl
    dsimp only
    by_cases h4n : op4 ≠ Op.null
    · rw [if_pos h4n, if_pos h4n]
      have h1' : duoArm s1 l op1 = some a := by
        rw [duoArm_congr hA hlv hwl op1, h1]
      have h3' : duoArm s1 r op3 = some b := by
        rw [duoArm_congr hA hrv hwr op3, h3]
      obtain ⟨hav, hale, halt⟩ := duoArm_wv hok hlv op1 h1'
      obtain ⟨hbv, hble, hblt⟩ := duoArm_wv hok hrv op3 h3'
      have hinv : (Node.mk (some a) (some b) 0 op5).validRec = true := by
        rw [validRec_mk, valid_of_binary h5]
        simp [optValidRec, hav, hbv]
      have hinw : (Node.mk (some a) (some b) 0 op5).weight < W := by
        rw [weight_mk, weightOpt_some, weightOpt_some]
        have hwm : m.weight = (l.weight + 1) * r.weight := by
          rw [hsh, weight_mk, weightOpt_some, weightOpt_some]
        have hlt : (a.weight + 1) * b.weight + 1 < (l.weight + 1) * r.weight := by
          apply duo_weight_lt (two_le_weight l) (two_le_weight r)
          rcases h13 with h | h
          · exact Or.inl ⟨by have := halt h; omega, hble⟩
          · exact Or.inr ⟨hale, by have := hblt h; omega⟩
        have : (l.weight + 1) * r.weight ≤ W := by rw [← hwm]; exact hw
        omega
      rw [hA _ hinv hinw]
    · rw [if_neg h4n, if_neg h4n]
  · rw [if_neg hop, if_neg hop]

theorem transformTrio_congr {W : ℕ} {s1 s2 : Node → Node × Bool}
    (hok : SimpOK s1) (hA : Agree W s1 s2) {op1 op2 op3 op4 : Op}
    (h1 : op1.binary = true) (h2 : op2.binary = true) (h3 : op3.binary = true)
    {m : Node} (hv : m.validRec = true) (hw : m.weight ≤ W) :
    transformTrio s1 m op1 op2 op3 op4 = transformTrio s2 m op1 op2 op3 op4 := by
  unfold transformTrio
  by_cases hc : m.op = op1 ∧ (optGet m.right).op = op2
  · rw [if_pos hc, if_pos hc]
    obtain ⟨hop, hrop⟩ := hc
    obtain ⟨l, r, hsh, hlv, hrv⟩ := validRec_binary_shape hv (hop ▸ h1)
    have hln : m.left = some l := by rw [hsh]; rfl
    have hrn : m.right = some r := by rw [hsh]; rfl
    rw [hrn] at hrop
    simp only [optGet, Option.getD_some] at hrop
    obtain ⟨rl, rr, hrsh, hrlv, hrrv⟩ := validRec_binary_shape hrv (hrop ▸ h2)
    have hrln : r.left = some rl := by rw [hrsh]; rfl
    have hrrn : r.right = some rr := by rw [hrsh]; rfl
    dsimp only
    rw [hln, hrn]
    simp only [optGet, Option.getD_some]
    rw [hrln, hrrn]
    simp only [optGet, Option.getD_some]
    have hwl : l.weight < W := lt_of_lt_of_le (weight_left_lt hln) hw
    have hwrl : rl.weight < W :=
      lt_of_lt_of_le (lt_trans (weight_left_lt hrln) (weight_right_lt hrn)) hw
    have hwrr : rr.weight < W :=
      lt_of_lt_of_le (lt_trans (weight_right_lt hrrn) (weight_right_lt hrn)) hw
    rw [hA l hlv hwl, hA rl hrlv hwrl, hA rr hrrv hwrr]
    have hlv2 := hok l hlv
    have hrlv2 := hok rl hrlv
    have hl2 : (s1 l) = (s2 l) := hA l hlv hwl
    have hrl2 : (s1 rl) = (s2 rl) := hA rl hrlv hwrl
    have hinv : (Node.mk (some ((s2 l).1)) (some ((s2 rl).1)) 0 op3).validRec
        = true := by
      rw [validRec_mk, valid_of_binary h3]
      rw [← hl2, ← hrl2]
      simp [optValidRec, hlv2.1, hrlv2.1]
    have hinw : (Node.mk (some ((s2 l).1)) (some ((s2 rl).1)) 0 op3).weight
        < W := by
      rw [weight_mk, weightOpt_some, weightOpt_some]
      rw [← hl2, ← hrl2]
      have e1 : (s1 l).1.weight ≤ l.weight := SimpOK.le hok hlv
      have e2 : (s1 rl).1.weight ≤ rl.weight := SimpOK.le hok hrlv
      have hwm : m.weight = (l.weight + 1) * ((rl.weight + 1) * rr.weight) := by
        rw [hsh, weight_mk, weightOpt_some, weightOpt_some, hrsh,
          weight_mk, weightOpt_some, weightOpt_some]
      have hbig : ((s1 l).1.weight + 1) * (s1 rl).1.weight < m.weight := by
        rw [hwm]
        have k1 : ((s1 l).1.weight + 1) * (s1 rl).1.weight
            ≤ (l.weight + 1) * rl.weight :=
          Nat.mul_le_mul (by omega) e2
        have k2 : (l.weight + 1) * rl.weight
            < (l.weight + 1) * ((rl.weight + 1) * rr.weight) := by
          apply Nat.mul_lt_mul_of_le_of_lt le_rfl _ (by omega)
          have := two_le_weight rr
          nlinarith
        omega
      omega
    rw [hA _ hinv hinw]
  · rw [if_neg hc, if_neg hc]

theorem duo_fold_congr {W : ℕ} {s1 s2 : Node → Node × Bool}
    (hok : SimpOK s1) (hA : Agree W s1 s2) :
    ∀ (L : List (Op × Op × Op × Op × Op)), (∀ t ∈ L, GoodDuo t) →
    ∀ (p : Node × Bool), p.1.validRec = true → p.1.weight ≤ W →
    List.foldl (fun acc t =>
        let q := transformDuo s1 acc.1 t.1 t.2.1 t.2.2.1 t.2.2.2.1 t.2.2.2.2
        (q.1, acc.2 || q.2)) p L =
      List.foldl (fun acc t =>
        let q := transformDuo s2 acc.1 t.1 t.2.1 t.2.2.1 t.2.2.2.1 t.2.2.2.2
        (q.1, acc.2 || q.2)) p L := by
  intro L
  induction L with
  | nil => exact fun _ _ _ _ => rfl
  | cons t ts ihL =>
    intro hmem p h1 h2
    rw [List.foldl_cons, List.foldl_cons]
    dsimp only
    obtain ⟨g13, g2, g4, g5⟩ := hmem t (List.mem_cons_self _ _)
    rw [transformDuo_congr hok hA g13 g2 g5 h1 h2]
    apply ihL (fun u hu => hmem u (List.mem_cons_of_mem _ hu))
    · cases hq : (transformDuo s2 p.1 t.1 t.2.1 t.2.2.1 t.2.2.2.1 t.2.2.2.2).2 with
      | false => rw [transformDuo_flag_false hq]; exact h1
      | true =>
        have hcg : transformDuo s1 p.1 t.1 t.2.1 t.2.2.1 t.2.2.2.1 t.2.2.2.2
            = transformDuo s2 p.1 t.1 t.2.1 t.2.2.1 t.2.2.2.1 t.2.2.2.2 :=
          transformDuo_congr hok hA g13 g2 g5 h1 h2
        rw [← hcg] at hq ⊢
        exact (transformDuo_wv hok _ _ _ _ _ g13 g2 g4 g5 p.1 h1 hq).1
    · cases hq : (transformDuo s2 p.1 t.1 t.2.1 t.2.2.1 t.2.2.2.1 t.2.2.2.2).2 with
      | false => rw [transformDuo_flag_false hq]; exact h2
      | true =>
        have hcg : transformDuo s1 p.1 t.1 t.2.1 t.2.2.1 t.2.2.2.1 t.2.2.2.2
            = transformDuo s2 p.1 t.1 t.2.1 t.2.2.1 t.2.2.2.1 t.2.2.2.2 :=
          transformDuo_congr hok hA g13 g2 g5 h1 h2
        rw [← hcg] at hq ⊢
        have hlt := (transformDuo_wv hok _ _ _ _ _ g13 g2 g4 g5 p.1 h1 hq).2
        exact le_of_lt (lt_of_lt_of_le hlt h2)

theorem trio_fold_congr {W : ℕ} {s1 s2 : Node → Node × Bool}
    (hok : SimpOK s1) (hA : Agree W s1 s2) :
    ∀ (L : List (Op × Op × Op × Op)), (∀ t ∈ L, GoodTrio t) →
    ∀ (p : Node × Bool), p.1.validRec = true → p.1.weight ≤ W →
    List.foldl (fun acc t =>
        let q := transformTrio s1 acc.1 t.1 t.2.1 t.2.2.1 t.2.2.2
        (q.1, acc.2 || q.2)) p L =
      List.foldl (fun acc t =>
        let q := transformTrio s2 acc.1 t.1 t.2.1 t.2.2.1 t.2.2.2
        (q.1, acc.2 || q.2)) p L := by
  intro L
  induction L with
  | nil => exact fun _ _ _ _ => rfl
  | cons t ts ihL =>
    intro hmem p h1 h2
    rw [List.foldl_cons, List.foldl_cons]
    dsimp only
    obtain ⟨g1, g2, g3, g4⟩ := hmem t (List.mem_cons_self _ _)
    rw [transformTrio_congr hok hA g1 g2 g3 h1 h2]
    apply ihL (fun u hu => hmem u (List.mem_cons_of_mem _ hu))
    · cases hq : (transformTrio s2 p.1 t.1 t.2.1 t.2.2.1 t.2.2.2).2 with
      | false => rw [transformTrio_flag_false hq]; exact h1
      | true =>
        have hcg : transformTrio s1 p.1 t.1 t.2.1 t.2.2.1 t.2.2.2
            = transformTrio s2 p.1 t.1 t.2.1 t.2.2.1 t.2.2.2 :=
          transformTrio_congr hok hA g1 g2 g3 h1 h2
        rw [← hcg] at hq ⊢
        exact (transformTrio_wv hok _ _ _ _ g1 g2 g3 g4 p.1 h1 hq).1
    · cases hq : (transformTrio s2 p.1 t.1 t.2.1 t.2.2.1 t.2.2.2).2 with
      | false => rw [transformTrio_flag_false hq]; exact h2
      | true =>
        have hcg : transformTrio s1 p.1 t.1 t.2.1 t.2.2.1 t.2.2.2
            = transformTrio s2 p.1 t.1 t.2.1 t.2.2.1 t.2.2.2 :=
          transformTrio_congr hok hA g1 g2 g3 h1 h2
        rw [← hcg] at hq ⊢
        have hlt := (transformTrio_wv hok _ _ _ _ g1 g2 g3 g4 p.1 h1 hq).2
        exact le_of_lt (lt_of_lt_of_le hlt h2)

theorem chains_congr {W : ℕ} {s1 s2 : Node → Node × Bool}
    (hok : SimpOK s1) (hA : Agree W s1 s2) {n : Node}
    (hv : n.validRec = true) (hw : n.weight ≤ W) :
    applyTrios s1 (applyDuos s1 (n, false)) =
      applyTrios s2 (applyDuos s2 (n, false)) := by
  unfold applyDuos applyTrios
  rw [duo_fold_congr hok hA duoRules duoRules_good (n, false) hv hw]
  have hd := duo_fold_inv hok n duoRules duoRules_good (n, false) hv
    (fun h => by cases h) (fun _ => rfl)
  rw [duo_fold_congr hok hA duoRules duoRules_good (n, false) hv hw] at hd
  apply trio_fold_congr hok hA trioRules trioRules_good _ hd.1
  cases hq : (List.foldl (fun acc t =>
      let q := transformDuo s2 acc.1 t.1 t.2.1 t.2.2.1 t.2.2.2.1 t.2.2.2.2
      (q.1, acc.2 || q.2)) (n, false) duoRules).2 with
  | false => rw [hd.2.2 hq]; exact hw
  | true => exact le_trans (le_of_lt (hd.2.1 hq)) hw

/-- Fuel independence: any two fuel amounts at least the node's weight give
the same result, so `Node.Simplify`'s choice of fuel is immaterial. -/
theorem simplifyF_fuel_indep : ∀ (k : ℕ) (n : Node), n.weight ≤ k →
    n.validRec = true → ∀ f g, n.weight ≤ f → n.weight ≤ g →
    simplifyF f n = simplifyF g n := by
  intro k
  induction k with
  | zero => intro n hk; have := two_le_weight n; omega
  | succ k ihk =>
    intro n hk hv f g hf hg
    have h2n := two_le_weight n
    cases f with
    | zero => omega
    | succ f' =>
    cases g with
    | zero => omega
    | succ g' =>
    have hA : Agree n.weight (simplifyF f') (simplifyF g') := by
      intro m hmv hmw
      exact ihk m (by omega) hmv f' g' (by omega) (by omega)
    have hok1 : SimpOK (simplifyF f') := simplifyF_wv f'
    have hok2 : SimpOK (simplifyF g') := simplifyF_wv g'
    rw [simplifyF, simplifyF]
    dsimp only
    by_cases hc1 : n.op = .minus ∧ (optGet n.left).op = .minus
    · rw [if_pos hc1, if_pos hc1]
      obtain ⟨hop, hlop⟩ := hc1
      obtain ⟨l, hsh, hlv⟩ := validRec_unary_shape hv (by rw [hop]; rfl)
      have hln : n.left = some l := by rw [hsh]; rfl
      rw [hln] at hlop
      simp only [optGet, Option.getD_some] at hlop
      obtain ⟨x, hlsh, hxv⟩ := validRec_unary_shape hlv (by rw [hlop]; rfl)
      have hxl : l.left = some x := by rw [hlsh]; rfl
      rw [hln]
      simp only [optGet, Option.getD_some]
      rw [hxl]
      simp only [optGet, Option.getD_some]
      have hxw : x.weight < n.weight :=
        lt_trans (weight_left_lt hxl) (weight_left_lt hln)
      have e1 : simplifyF f' x = simplifyF g' x := hA x hxv hxw
      rw [e1]
      have hv2 := (hok2 x hxv).1
      have hw2 : ((simplifyF g' x).1).weight < n.weight :=
        lt_of_le_of_lt (SimpOK.le hok2 hxv) hxw
      rw [hA _ hv2 hw2]
    · rw [if_neg hc1, if_neg hc1]
      by_cases hc2 : n.op = .pow ∧ (optGet n.left).op = .minus
      · rw [if_pos hc2, if_pos hc2]
        obtain ⟨hop, hlop⟩ := hc2
        obtain ⟨l, r, hsh, hlv, hrv⟩ := validRec_binary_shape hv
          (by rw [hop]; rfl)
        have hln : n.left = some l := by rw [hsh]; rfl
        have hrn : n.right = some r := by rw [hsh]; rfl
        rw [hln] at hlop
        simp only [optGet, Option.getD_some] at hlop
        obtain ⟨x, hlsh, hxv⟩ := validRec_unary_shape hlv (by rw [hlop]; rfl)
        have hxl : l.left = some x := by rw [hlsh]; rfl
        rw [hrn]
        simp only [optGet, Option.getD_some]
        rcases her : r.Eval with e | ev
        · rfl
        · dsimp only
          by_cases hevn : ratEven ev
          · rw [if_pos hevn, if_pos hevn]
            rw [hln]
            simp only [optGet, Option.getD_some]
            rw [hxl]
            simp only [optGet, Option.getD_some]
            have hxw : x.weight < n.weight :=
              lt_trans (weight_left_lt hxl) (weight_left_lt hln)
            have hrw : r.weight < n.weight := weight_right_lt hrn
            rw [hA x hxv hxw, hA r hrv hrw]
            have hbv : (Node.mk (some ((simplifyF g' x).1))
                (some ((simplifyF g' r).1)) 0 .pow).validRec = true := by
              rw [validRec_mk,
                valid_of_binary (show Op.pow.binary = true from rfl)]
              simp [optValidRec, (hok2 x hxv).1, (hok2 r hrv).1]
            have hbw : (Node.mk (some ((simplifyF g' x).1))
                (some ((simplifyF g' r).1)) 0 .pow).weight < n.weight := by
              rw [weight_mk, weightOpt_some, weightOpt_some]
              have hwn : n.weight = (l.weight + 1) * r.weight := by
                rw [hsh, weight_mk, weightOpt_some, weightOpt_some]
              have hwl : l.weight = x.weight + 1 := by
                rw [hlsh, weight_mk, weightOpt_some, weightOpt_none]
                ring
              rw [hwn, hwl]
              apply weight_prod_lt (two_le_weight r)
                (two_le_weight (simplifyF g' r).1)
              exact Or.inl ⟨by have := SimpOK.le hok2 hxv; omega,
                SimpOK.le hok2 hrv⟩
            rw [hA _ hbv hbw]
          · rw [if_neg hevn, if_neg hevn]
      · rw [if_neg hc2, if_neg hc2]
        have hcg := chains_congr hok1 hA hv le_rfl
        rw [hcg]
        have hch := chains_inv hok2 hv
        by_cases hp2 : (applyTrios (simplifyF g')
            (applyDuos (simplifyF g') (n, false))).2 = true
        · rw [if_pos hp2, if_pos hp2]
          rw [hA _ hch.1 (hch.2.1 hp2)]
        · rw [if_neg hp2, if_neg hp2]
          rcases op_class n.op with ho | ho | ho
          · have hsh := validRec_null_shape hv ho
            rw [hsh]
            simp only [Node.left_mk, Node.right_mk, Option.map_none']
            rw [if_neg (by simp), if_neg (by simp)]
          · obtain ⟨l, r, hsh, hlv, hrv⟩ := validRec_binary_shape hv ho
            rw [hsh]
            simp only [Node.left_mk, Node.right_mk, Option.map_some',
              Node.val_mk, Node.op_mk]
            have hlw : l.weight < n.weight := weight_left_lt (by rw [hsh]; rfl)
            have hrw : r.weight < n.weight := weight_right_lt (by rw [hsh]; rfl)
            rw [hA l hlv hlw, hA r hrv hrw]
            by_cases hcl : ((simplifyF g' l).2 || (simplifyF g' r).2) = true
            · rw [if_pos hcl, if_pos hcl]
              have hrebv : (Node.mk (some ((simplifyF g' l).1))
                  (some ((simplifyF g' r).1)) n.val n.op).validRec = true := by
                rw [validRec_mk, valid_of_binary ho]
                simp [optValidRec, (hok2 l hlv).1, (hok2 r hrv).1]
              have hrebw : (Node.mk (some ((simplifyF g' l).1))
                  (some ((simplifyF g' r).1)) n.val n.op).weight
                  < n.weight := by
                have hwn : n.weight = (l.weight + 1) * r.weight := by
                  rw [hsh]
                  rw [weight_mk, weightOpt_some, weightOpt_some]
                rw [weight_mk, weightOpt_some, weightOpt_some, hwn]
                apply weight_prod_lt (two_le_weight r)
                  (two_le_weight (simplifyF g' r).1)
                rcases Bool.or_eq_true_iff.mp hcl with hfl | hfr
                · exact Or.inl ⟨((hok2 l hlv).2.1 hfl), SimpOK.le hok2 hrv⟩
                · exact Or.inr ⟨SimpOK.le hok2 hlv, ((hok2 r hrv).2.1 hfr)⟩
              rw [hA _ hrebv hrebw]
            · rw [if_neg hcl, if_neg hcl]
          · obtain ⟨l, hsh, hlv⟩ := validRec_unary_shape hv ho
            rw [hsh]
            simp only [Node.left_mk, Node.right_mk, Option.map_some',
              Option.map_none', Node.val_mk, Node.op_mk]
            have hlw : l.weight < n.weight := weight_left_lt (by rw [hsh]; rfl)
            rw [hA l hlv hlw]
            by_cases hcl : ((simplifyF g' l).2 || false) = true
            · rw [if_pos hcl, if_pos hcl]
              rw [Bool.or_false] at hcl
              have hrebv : (Node.mk (some ((simplifyF g' l).1)) none
                  n.val n.op).validRec = true := by
                rw [validRec_mk, valid_of_unary ho]
                simp [optValidRec, (hok2 l hlv).1]
              have hrebw : (Node.mk (some ((simplifyF g' l).1)) none
                  n.val n.op).weight < n.weight := by
                have hwn : n.weight = l.weight + 1 := by
                  rw [hsh]
                  rw [weight_mk, weightOpt_some, weightOpt_none]
                  ring
                rw [weight_mk, weightOpt_some, weightOpt_none, hwn,
                  Nat.mul_one]
                have := (hok2 l hlv).2.1 hcl
                omega
              rw [hA _ hrebv hrebw]
            · rw [if_neg hcl, if_neg hcl]

/-- Whether one side of a pairwise-merge rule accepts a child; this depends
only on the tree shape, not on the recursive canonicalization. -/
def armMatches (child : Node) (op1 : Op) : Bool :=
  (child.op = op1 && child.left.isSome) || (op1 = .null)

/-- Whether a pairwise-merge rule fires at the root of `n`. -/
def duoMatches (n : Node) (t : Op × Op × Op × Op × Op) : Bool :=
  (n.op = t.2.1) && armMatches (optGet n.left) t.1 &&
    armMatches (optGet n.right) t.2.2.1

/-- Whether a re-association rule fires at the root of `n`. -/
def trioMatches (n : Node) (t : Op × Op × Op × Op) : Bool :=
  (n.op = t.1) && ((optGet n.right).op = t.2.1)

theorem duoArm_none_of_not_matches {s : Node → Node × Bool} {child : Node}
    {op1 : Op} (h : armMatches child op1 = false) :
    duoArm s child op1 = none := by
  unfold armMatches at h
  simp only [Bool.or_eq_false_iff, Bool.and_eq_false_iff,
    decide_eq_false_iff_not] at h
  unfold duoArm
  rw [if_neg, if_neg h.2]
  rintro ⟨ho, hs⟩
  rcases h.1 with h' | h'
  · exact h' ho
  · rw [hs] at h'; cases h'

theorem duoArm_some_of_matches {s : Node → Node × Bool} {child : Node}
    {op1 : Op} (h : armMatches child op1 = true) :
    (duoArm s child op1).isSome = true := by
  unfold armMatches at h
  simp only [Bool.or_eq_true_iff, Bool.and_eq_true, decide_eq_true_eq] at h
  unfold duoArm
  rcases h with ⟨h1, h2⟩ | h1
  · rw [if_pos ⟨h1, h2⟩]
    rfl
  · by_cases hc : child.op = op1 ∧ child.left.isSome = true
    · rw [if_pos hc]; rfl
    · rw [if_neg hc, if_pos h1]; rfl

theorem transformDuo_nomatch {s : Node → Node × Bool} {n : Node}
    {t : Op × Op × Op × Op × Op} (h : duoMatches n t = false) :
    transformDuo s n t.1 t.2.1 t.2.2.1 t.2.2.2.1 t.2.2.2.2 = (n, false) := by
  unfold duoMatches at h
  unfold transformDuo
  by_cases hop : n.op = t.2.1
  · rw [if_pos hop]
    rw [Bool.and_eq_false_iff, Bool.and_eq_false_iff] at h
    rcases h with (h | h) | h
    · exfalso
      rw [decide_eq_false_iff_not] at h
      exact h hop
    · rw [duoArm_none_of_not_matches (s := s) h]
    · rw [duoArm_none_of_not_matches (s := s) h]
      rcases duoArm s (optGet n.left) t.1 with _ | a <;> rfl
  · rw [if_neg hop]

theorem transformDuo_match {s : Node → Node × Bool} {n : Node}
    {t : Op × Op × Op × Op × Op} (h : duoMatches n t = true) :
    (transformDuo s n t.1 t.2.1 t.2.2.1 t.2.2.2.1 t.2.2.2.2).2 = true := by
  unfold duoMatches at h
  simp only [Bool.and_eq_true, decide_eq_true_eq] at h
  obtain ⟨⟨hop, h1⟩, h3⟩ := h
  unfold transformDuo
  rw [if_pos hop]
  have hs1 := duoArm_some_of_matches (s := s) h1
  have hs3 := duoArm_some_of_matches (s := s) h3
  rw [Option.isSome_iff_exists] at hs1 hs3
  obtain ⟨a, ha⟩ := (hs1 : ∃ a, duoArm s (optGet n.left) t.1 = some a)
  obtain ⟨b, hb⟩ := (hs3 : ∃ b, duoArm s (optGet n.right) t.2.2.1 = some b)
  rw [ha, hb]
  dsimp only
  by_cases h4 : t.2.2.2.1 ≠ Op.null
  · rw [if_pos h4]
  · rw [if_neg h4]

theorem transformTrio_nomatch {s : Node → Node × Bool} {n : Node}
    {t : Op × Op × Op × Op} (h : trioMatches n t = false) :
    transformTrio s n t.1 t.2.1 t.2.2.1 t.2.2.2 = (n, false) := by
  unfold trioMatches at h
  simp only [Bool.and_eq_false_iff, decide_eq_false_iff_not] at h
  unfold transformTrio
  rw [if_neg]
  rintro ⟨h1, h2⟩
  rcases h with h | h
  · exact h h1
  · exact h h2

theorem transformTrio_match {s : Node → Node × Bool} {n : Node}
    {t : Op × Op × Op × Op} (h : trioMatches n t = true) :
    (transformTrio s n t.1 t.2.1 t.2.2.1 t.2.2.2).2 = true := by
  unfold trioMatches at h
  simp only [Bool.and_eq_true, decide_eq_true_eq] at h
  unfold transformTrio
  rw [if_pos h]

theorem duo_fold_mono {s : Node → Node × Bool}
    (L : List (Op × Op × Op × Op × Op)) :
    ∀ (p : Node × Bool), p.2 = true →
    (List.foldl (fun acc t =>
      let q := transformDuo s acc.1 t.1 t.2.1 t.2.2.1 t.2.2.2.1 t.2.2.2.2
      (q.1, acc.2 || q.2)) p L).2 = true := by
  induction L with
  | nil => exact fun p hp => hp
  | cons t ts ihL =>
    intro p hp
    rw [List.foldl_cons]
    exact ihL _ (by simp [hp])

theorem duo_fold_nomatch {s : Node → Node × Bool} {n : Node}
    (L : List (Op × Op × Op × Op × Op))
    (h : ∀ t ∈ L, duoMatches n t = false) :
    List.foldl (fun acc t =>
      let q := transformDuo s acc.1 t.1 t.2.1 t.2.2.1 t.2.2.2.1 t.2.2.2.2
      (q.1, acc.2 || q.2)) (n, false) L = (n, false) := by
  induction L with
  | nil => rfl
  | cons t ts ihL =>
    rw [List.foldl_cons]
    dsimp only
    rw [transformDuo_nomatch (h t (List.mem_cons_self _ _))]
    exact ihL (fun u hu => h u (List.mem_cons_of_mem _ hu))

theorem duo_fold_flag_none {s : Node → Node × Bool} {n : Node} :
    ∀ (L : List (Op × Op × Op × Op × Op)),
    (List.foldl (fun acc t =>
      let q := transformDuo s acc.1 t.1 t.2.1 t.2.2.1 t.2.2.2.1 t.2.2.2.2
      (q.1, acc.2 || q.2)) (n, false) L).2 = false →
    ∀ t ∈ L, duoMatches n t = false := by
  intro L
  induction L with
  | nil => intro _ t ht; cases ht
  | cons t ts ihL =>
    intro hres u hu
    have hhead : duoMatches n t = false := by
      by_contra hm
      rw [Bool.not_eq_false] at hm
      rw [List.foldl_cons] at hres
      have hflag := transformDuo_match (s := s) hm
      rw [duo_fold_mono ts _ (by dsimp only; rw [hflag, Bool.or_true])] at hres
      cases hres
    rcases List.mem_cons.mp hu with h | h
    · rw [h]; exact hhead
    · refine ihL ?_ u h
      rw [List.foldl_cons] at hres
      dsimp only at hres
      rw [transformDuo_nomatch hhead] at hres
      simpa using hres

theorem trio_fold_mono {s : Node → Node × Bool}
    (L : List (Op × Op × Op × Op)) :
    ∀ (p : Node × Bool), p.2 = true →
    (List.foldl (fun acc t =>
      let q := transformTrio s acc.1 t.1 t.2.1 t.2.2.1 t.2.2.2
      (q.1, acc.2 || q.2)) p L).2 = true := by
  induction L with
  | nil => exact fun p hp => hp
  | cons t ts ihL =>
    intro p hp
    rw [List.foldl_cons]
    exact ihL _ (by simp [hp])

theorem trio_fold_nomatch {s : Node → Node × Bool} {n : Node}
    (L : List (Op × Op × Op × Op))
    (h : ∀ t ∈ L, trioMatches n t = false) :
    List.foldl (fun acc t =>
      let q := transformTrio s acc.1 t.1 t.2.1 t.2.2.1 t.2.2.2
      (q.1, acc.2 || q.2)) (n, false) L = (n, false) := by
  induction L with
  | nil => rfl
  | cons t ts ihL =>
    rw [List.foldl_cons]
    dsimp only
    rw [transformTrio_nomatch (h t (List.mem_cons_self _ _))]
    exact ihL (fun u hu => h u (List.mem_cons_of_mem _ hu))

theorem trio_fold_flag_none {s : Node → Node × Bool} {n : Node} :
    ∀ (L : List (Op × Op × Op × Op)),
    (List.foldl (fun acc t =>
      let q := transformTrio s acc.1 t.1 t.2.1 t.2.2.1 t.2.2.2
      (q.1, acc.2 || q.2)) (n, false) L).2 = false →
    ∀ t ∈ L, trioMatches n t = false := by
  intro L
  induction L with
  | nil => intro _ t ht; cases ht
  | cons t ts ihL =>
    intro hres u hu
    have hhead : trioMatches n t = false := by
      by_contra hm
      rw [Bool.not_eq_false] at hm
      rw [List.foldl_cons] at hres
      have hflag := transformTrio_match (s := s) hm
      rw [trio_fold_mono ts _ (by dsimp only; rw [hflag, Bool.or_true])] at hres
      cases hres
    rcases List.mem_cons.mp hu with h | h
    · rw [h]; exact hhead
    · refine ihL ?_ u h
      rw [List.foldl_cons] at hres
      dsimp only at hres
      rw [transformTrio_nomatch hhead] at hres
      simpa using hres

/-- If the whole duo-trio chain reports no change (under any pass), then no
rule matches the root, and the chain is `(n, false)` under every pass. -/
theorem chains_false_transfer {s1 s2 : Node → Node × Bool} {n : Node}
    (hok : SimpOK s1) (hv : n.validRec = true)
    (h : (applyTrios s1 (applyDuos s1 (n, false))).2 = false) :
    applyTrios s2 (applyDuos s2 (n, false)) = (n, false) := by
  have hd := duo_fold_inv hok n duoRules duoRules_good (n, false) hv
    (fun hh => by cases hh) (fun _ => rfl)
  unfold applyDuos applyTrios at h ⊢
  have hdflag : (List.foldl (fun acc t =>
      let q := transformDuo s1 acc.1 t.1 t.2.1 t.2.2.1 t.2.2.2.1 t.2.2.2.2
      (q.1, acc.2 || q.2)) (n, false) duoRules).2 = false := by
    by_contra hc
    rw [Bool.not_eq_false] at hc
    have hmono := trio_fold_mono (s := s1) trioRules _ hc
    rw [hmono] at h
    cases h
  have hdn : List.foldl (fun acc t =>
      let q := transformDuo s1 acc.1 t.1 t.2.1 t.2.2.1 t.2.2.2.1 t.2.2.2.2
      (q.1, acc.2 || q.2)) (n, false) duoRules = (n, false) := by
    have := hd.2.2 hdflag
    exact Prod.ext this hdflag
  rw [hdn] at h
  have hduoM := duo_fold_flag_none (s := s1) duoRules hdflag
  have htrioM := trio_fold_flag_none (s := s1) trioRules h
  rw [duo_fold_nomatch duoRules hduoM]
  exact trio_fold_nomatch trioRules htrioM

/-- Stability: the output of the canonicalizer is a fixed point — running
the pass again (with any sufficient fuel) reports no change.  This is the
"idempotent by construction" property of the Go code. -/
theorem simplifyF_fix : ∀ (k : ℕ) (n : Node), n.weight ≤ k →
    n.validRec = true → ∀ f, n.weight ≤ f → ∀ g,
    ((simplifyF f n).1).weight ≤ g →
    simplifyF g ((simplifyF f n).1) = ((simplifyF f n).1, false) := by
  intro k
  induction k with
  | zero => intro n hk; have := two_le_weight n; omega
  | succ k ihk =>
    intro n hk hv f hf g hg
    have h2n := two_le_weight n
    cases f with
    | zero => omega
    | succ f' =>
    have hok1 : SimpOK (simplifyF f') := simplifyF_wv f'
    by_cases hc1 : n.op = .minus ∧ (optGet n.left).op = .minus
    · obtain ⟨hop, hlop⟩ := hc1
      obtain ⟨l, hsh, hlv⟩ := validRec_unary_shape hv (by rw [hop]; rfl)
      have hln : n.left = some l := by rw [hsh]; rfl
      rw [hln] at hlop
      simp only [optGet, Option.getD_some] at hlop
      obtain ⟨x, hlsh, hxv⟩ := validRec_unary_shape hlv (by rw [hlop]; rfl)
      have hxl : l.left = some x := by rw [hlsh]; rfl
      have heq : simplifyF (f' + 1) n
          = ((simplifyF f' ((simplifyF f' x).1)).1, true) := by
        rw [simplifyF]
        dsimp only
        rw [if_pos ⟨hop, by rw [hln]; simpa [optGet] using hlop⟩]
        simp only [hln, optGet, Option.getD_some, hxl]
      rw [heq] at hg ⊢
      have hxw : x.weight < n.weight :=
        lt_trans (weight_left_lt hxl) (weight_left_lt hln)
      have hm1v := (hok1 x hxv).1
      have hm1w : ((simplifyF f' x).1).weight ≤ x.weight := SimpOK.le hok1 hxv
      exact ihk ((simplifyF f' x).1) (by omega) hm1v f' (by omega) g hg
    · by_cases hc2 : n.op = .pow ∧ (optGet n.left).op = .minus
      · obtain ⟨hop, hlop⟩ := hc2
        obtain ⟨l, r, hsh, hlv, hrv⟩ := validRec_binary_shape hv
          (by rw [hop]; rfl)
        have hln : n.left = some l := by rw [hsh]; rfl
        have hrn : n.right = some r := by rw [hsh]; rfl
        rw [hln] at hlop
        simp only [optGet, Option.getD_some] at hlop
        obtain ⟨x, hlsh, hxv⟩ := validRec_unary_shape hlv (by rw [hlop]; rfl)
        have hxl : l.left = some x := by rw [hlsh]; rfl
        rcases her : r.Eval with e | ev
        · have heq : simplifyF (f' + 1) n = (n, false) := by
            rw [simplifyF]
            dsimp only
            rw [if_neg (by exact fun hcc => hc1 hcc), if_pos ⟨hop, by
              rw [hln]; simpa [optGet] using hlop⟩]
            rw [hrn]
            simp only [optGet, Option.getD_some]
            rw [her]
          rw [heq] at hg ⊢
          dsimp only at hg ⊢
          have h2g := two_le_weight n
          cases g with
          | zero => omega
          | succ g' =>
          rw [simplifyF]
          dsimp only
          rw [if_neg (by exact fun hcc => hc1 hcc), if_pos ⟨hop, by
            rw [hln]; simpa [optGet] using hlop⟩]
          rw [hrn]
          simp only [optGet, Option.getD_some]
          rw [her]
        · by_cases hevn : ratEven ev
          · have heq : simplifyF (f' + 1) n
                = ((simplifyF f' (Node.mk (some ((simplifyF f' x).1))
                  (some ((simplifyF f' r).1)) 0 .pow)).1, true) := by
              rw [simplifyF]
              dsimp only
              rw [if_neg (by exact fun hcc => hc1 hcc), if_pos ⟨hop, by
                rw [hln]; simpa [optGet] using hlop⟩]
              rw [hrn]
              simp only [optGet, Option.getD_some]
              rw [her]
              dsimp only
              rw [if_pos hevn]
              simp only [hln, optGet, Option.getD_some, hxl]
            rw [heq] at hg ⊢
            have hbv : (Node.mk (some ((simplifyF f' x).1))
                (some ((simplifyF f' r).1)) 0 .pow).validRec = true := by
              rw [validRec_mk,
                valid_of_binary (show Op.pow.binary = true from rfl)]
              simp [optValidRec, (hok1 x hxv).1, (hok1 r hrv).1]
            have hbw : (Node.mk (some ((simplifyF f' x).1))
                (some ((simplifyF f' r).1)) 0 .pow).weight < n.weight := by
              rw [weight_mk, weightOpt_some, weightOpt_some]
              have hwn : n.weight = (l.weight + 1) * r.weight := by
                rw [hsh, weight_mk, weightOpt_some, weightOpt_some]
              have hwl : l.weight = x.weight + 1 := by
                rw [hlsh, weight_mk, weightOpt_some, weightOpt_none]
                ring
              rw [hwn, hwl]
              apply weight_prod_lt (two_le_weight r)
                (two_le_weight (simplifyF f' r).1)
              exact Or.inl ⟨by have := SimpOK.le hok1 hxv; omega,
                SimpOK.le hok1 hrv⟩
            exact ihk _ (by omega) hbv f' (by omega) g hg
          · have heq : simplifyF (f' + 1) n = (n, false) := by
              rw [simplifyF]
              dsimp only
              rw [if_neg (by exact fun hcc => hc1 hcc), if_pos ⟨hop, by
                rw [hln]; simpa [optGet] using hlop⟩]
              rw [hrn]
              simp only [optGet, Option.getD_some]
              rw [her]
              dsimp only
              rw [if_neg hevn]
            rw [heq] at hg ⊢
            dsimp only at hg ⊢
            cases g with
            | zero => omega
            | succ g' =>
            rw [simplifyF]
            dsimp only
            rw [if_neg (by exact fun hcc => hc1 hcc), if_pos ⟨hop, by
              rw [hln]; simpa [optGet] using hlop⟩]
            rw [hrn]
            simp only [optGet, Option.getD_some]
            rw [her]
            dsimp only
            rw [if_neg hevn]
      · have hch := chains_inv hok1 hv
        by_cases hp2 : (applyTrios (simplifyF f')
            (applyDuos (simplifyF f') (n, false))).2 = true
        · have heq : simplifyF (f' + 1) n
              = ((simplifyF f' ((applyTrios (simplifyF f')
                (applyDuos (simplifyF f') (n, false))).1)).1, true) := by
            rw [simplifyF]
            dsimp only
            rw [if_neg (by exact fun hcc => hc1 hcc),
              if_neg (by exact fun hcc => hc2 hcc)]
            rw [if_pos hp2]
          rw [heq] at hg ⊢
          have hpw := hch.2.1 hp2
          exact ihk _ (by omega) hch.1 f' (by omega) g hg
        · rcases op_class n.op with ho | ho | ho
          · have hsh := validRec_null_shape hv ho
            have heq : simplifyF (f' + 1) n = (n, false) := by
              rw [simplifyF]
              dsimp only
              rw [if_neg (by exact fun hcc => hc1 hcc),
                if_neg (by exact fun hcc => hc2 hcc)]
              rw [if_neg hp2]
              rw [hsh]
              simp only [Node.left_mk, Node.right_mk, Option.map_none']
              rw [if_neg (by simp)]
            rw [heq] at hg ⊢
            dsimp only at hg ⊢
            cases g with
            | zero => omega
            | succ g' =>
            rw [simplifyF]
            dsimp only
            rw [if_neg (by exact fun hcc => hc1 hcc),
              if_neg (by exact fun hcc => hc2 hcc)]
            rw [chains_false_transfer hok1 hv (by simpa using hp2)]
            dsimp only
            rw [if_neg (by simp)]
            rw [hsh]
            simp only [Node.left_mk, Node.right_mk, Option.map_none']
            rw [if_neg (by simp)]
          · obtain ⟨l, r, hsh, hlv, hrv⟩ := validRec_binary_shape hv ho
            have hln : n.left = some l := by rw [hsh]; rfl
            have hrn : n.right = some r := by rw [hsh]; rfl
            by_cases hcl : ((simplifyF f' l).2 || (simplifyF f' r).2) = true
            · have heq : simplifyF (f' + 1) n
                  = ((simplifyF f' (Node.mk (some ((simplifyF f' l).1))
                    (some ((simplifyF f' r).1)) n.val n.op)).1, true) := by
                rw [simplifyF]
                dsimp only
                rw [if_neg (by exact fun hcc => hc1 hcc),
                  if_neg (by exact fun hcc => hc2 hcc)]
                rw [if_neg hp2]
                rw [hln, hrn]
                simp only [Option.map_some']
                rw [if_pos hcl]
              rw [heq] at hg ⊢
              have hrebv : (Node.mk (some ((simplifyF f' l).1))
                  (some ((simplifyF f' r).1)) n.val n.op).validRec = true := by
                rw [validRec_mk, valid_of_binary ho]
                simp [optValidRec, (hok1 l hlv).1, (hok1 r hrv).1]
              have hrebw : (Node.mk (some ((simplifyF f' l).1))
                  (some ((simplifyF f' r).1)) n.val n.op).weight
                  < n.weight := by
                have hwn : n.weight = (l.weight + 1) * r.weight := by
                  rw [hsh]
                  rw [weight_mk, weightOpt_some, weightOpt_some]
                rw [weight_mk, weightOpt_some, weightOpt_some, hwn]
                apply weight_prod_lt (two_le_weight r)
                  (two_le_weight (simplifyF f' r).1)
                rcases Bool.or_eq_true_iff.mp hcl with hfl | hfr
                · exact Or.inl ⟨((hok1 l hlv).2.1 hfl), SimpOK.le hok1 hrv⟩
                · exact Or.inr ⟨SimpOK.le hok1 hlv, ((hok1 r hrv).2.1 hfr)⟩
              exact ihk _ (by omega) hrebv f' (by omega) g hg
            · have heq : simplifyF (f' + 1) n = (n, false) := by
                rw [simplifyF]
                dsimp only
                rw [if_neg (by exact fun hcc => hc1 hcc),
                  if_neg (by exact fun hcc => hc2 hcc)]
                rw [if_neg hp2]
                rw [hln, hrn]
                simp only [Option.map_some']
                rw [if_neg hcl]
              rw [heq] at hg ⊢
              dsimp only at hg ⊢
              cases g with
              | zero => omega
              | succ g' =>
              have hflags : (simplifyF f' l).2 = false
                  ∧ (simplifyF f' r).2 = false := by
                simp only [Bool.or_eq_true, not_or, Bool.not_eq_true] at hcl
                exact hcl
              have hflagl := hflags.1
              have hflagr := hflags.2
              have hfixl : (simplifyF f' l) = (l, false) :=
                Prod.ext ((hok1 l hlv).2.2 hflagl) hflagl
              have hfixr : (simplifyF f' r) = (r, false) :=
                Prod.ext ((hok1 r hrv).2.2 hflagr) hflagr
              have hstabl : simplifyF g' l = (l, false) := by
                have := ihk l (by have := weight_left_lt hln; omega) hlv f'
                  (by have := weight_left_lt hln; omega) g'
                rw [hfixl] at this
                exact this (show l.weight ≤ g' by
                  have := weight_left_lt hln; omega)
              have hstabr : simplifyF g' r = (r, false) := by
                have := ihk r (by have := weight_right_lt hrn; omega) hrv f'
                  (by have := weight_right_lt hrn; omega) g'
                rw [hfixr] at this
                exact this (show r.weight ≤ g' by
                  have := weight_right_lt hrn; omega)
              rw [simplifyF]
              dsimp only
              rw [if_neg (by exact fun hcc => hc1 hcc),
                if_neg (by exact fun hcc => hc2 hcc)]
              rw [chains_false_transfer hok1 hv (by simpa using hp2)]
              dsimp only
              rw [if_neg (by simp)]
              rw [hln, hrn]
              simp only [Option.map_some']
              rw [hstabl, hstabr]
              rw [if_neg (by simp)]
          · obtain ⟨l, hsh, hlv⟩ := validRec_unary_shape hv ho
            have hln : n.left = some l := by rw [hsh]; rfl
            have hrn : n.right = none := by rw [hsh]; rfl
            by_cases hcl : ((simplifyF f' l).2 || false) = true
            · have heq : simplifyF (f' + 1) n
                  = ((simplifyF f' (Node.mk (some ((simplifyF f' l).1)) none
                    n.val n.op)).1, true) := by
                rw [simplifyF]
                dsimp only
                rw [if_neg (by exact fun hcc => hc1 hcc),
                  if_neg (by exact fun hcc => hc2 hcc)]
                rw [if_neg hp2]
                rw [hln, hrn]
                simp only [Option.map_some', Option.map_none']
                rw [if_pos hcl]
              rw [heq] at hg ⊢
              rw [Bool.or_false] at hcl
              have hrebv : (Node.mk (some ((simplifyF f' l).1)) none
                  n.val n.op).validRec = true := by
                rw [validRec_mk, valid_of_unary ho]
                simp [optValidRec, (hok1 l hlv).1]
              have hrebw : (Node.mk (some ((simplifyF f' l).1)) none
                  n.val n.op).weight < n.weight := by
                have hwn : n.weight = l.weight + 1 := by
                  rw [hsh]
                  rw [weight_mk, weightOpt_some, weightOpt_none]
                  ring
                rw [weight_mk, weightOpt_some, weightOpt_none, hwn,
                  Nat.mul_one]
                have := (hok1 l hlv).2.1 hcl
                omega
              exact ihk _ (by omega) hrebv f' (by omega) g hg
            · have heq : simplifyF (f' + 1) n = (n, false) := by
                rw [simplifyF]
                dsimp only
                rw [if_neg (by exact fun hcc => hc1 hcc),
                  if_neg (by exact fun hcc => hc2 hcc)]
                rw [if_neg hp2]
                rw [hln, hrn]
                simp only [Option.map_some', Option.map_none']
                rw [if_neg hcl]
              rw [heq] at hg ⊢
              dsimp only at hg ⊢
              cases g with
              | zero => omega
              | succ g' =>
              have hflagl : (simplifyF f' l).2 = false := by
                simpa using hcl
              have hfixl : (simplifyF f' l) = (l, false) :=
                Prod.ext ((hok1 l hlv).2.2 hflagl) hflagl
              have hstabl : simplifyF g' l = (l, false) := by
                have := ihk l (by have := weight_left_lt hln; omega) hlv f'
                  (by have := weight_left_lt hln; omega) g'
                rw [hfixl] at this
                exact this (show l.weight ≤ g' by
                  have := weight_left_lt hln; omega)
              rw [simplifyF]
              dsimp only
              rw [if_neg (by exact fun hcc => hc1 hcc),
                if_neg (by exact fun hcc => hc2 hcc)]
              rw [chains_false_transfer hok1 hv (by simpa using hp2)]
              dsimp only
              rw [if_neg (by simp)]
              rw [hln, hrn]
              simp only [Option.map_some', Option.map_none']
              rw [hstabl]
              rw [if_neg (by simp)]

/-! Round-trip development: the parser reconstructs the serializer's
output.  The reconstructed tree carries the parser's zero in the internal
`val` fields (Go leaves them nil), which `Node.normVal` makes explicit. -/

mutual
/-- The tree the parser rebuilds from a serialization: leaves are kept,
internal `val` fields are the parser's zero. -/
def Node.normVal : Node → Node
  | .mk l r v o =>
    .mk (optNorm l) (optNorm r) (if o = .null then v else 0) o

/-- `Node.normVal` on an optional child. -/
def optNorm : Option Node → Option Node
  | none => none
  | some x => some x.normVal
end

/-- Little-endian value of a digit list. -/
def valLE : List ℕ → ℕ
  | [] => 0
  | d :: ds => d + 10 * valLE ds

theorem normVal_mk (l r : Option Node) (v : ℚ) (o : Op) :
    (Node.mk l r v o).normVal
      = .mk (optNorm l) (optNorm r) (if o = .null then v else 0) o := by
  rw [Node.normVal]

theorem optNorm_none : optNorm none = none := rfl

theorem optNorm_some (x : Node) : optNorm (some x) = some x.normVal := rfl

theorem digitChar_toNat {d : ℕ} (hd : d < 10) :
    (digitChar d).toNat = 48 + d := by
  interval_cases d <;> decide

theorem digitChar_isDigit {d : ℕ} (hd : d < 10) :
    (digitChar d).isDigit = true := by
  interval_cases d <;> decide

theorem digit_ne {c c' : Char} (h : c.isDigit = true)
    (h' : c'.isDigit = false) : c ≠ c' := by
  intro he
  rw [he, h'] at h
  cases h

theorem digit_not_ws {c : Char} (h : c.isDigit = true) :
    c.isWhitespace = false := by
  by_contra hw
  rw [Bool.not_eq_false, Char.isWhitespace] at hw
  simp only [Bool.or_eq_true, decide_eq_true_eq] at hw
  rcases hw with ((hc | hc) | hc) | hc <;> rw [hc] at h <;> cases h

theorem valLE_digitsLE : ∀ (fuel n : ℕ), n ≤ fuel →
    valLE (digitsLE fuel n) = n := by
  intro fuel
  induction fuel with
  | zero =>
    intro n h
    interval_cases n
    rfl
  | succ f ih =>
    intro n h
    rw [digitsLE]
    by_cases h0 : n = 0
    · rw [if_pos h0, h0]
      rfl
    · rw [if_neg h0, valLE, ih (n / 10) (by omega)]
      omega

theorem digitsLE_lt : ∀ (fuel n : ℕ), ∀ d ∈ digitsLE fuel n, d < 10 := by
  intro fuel
  induction fuel with
  | zero => intro n d hd; cases hd
  | succ f ih =>
    intro n d hd
    rw [digitsLE] at hd
    by_cases h0 : n = 0
    · rw [if_pos h0] at hd; cases hd
    · rw [if_neg h0] at hd
      rcases List.mem_cons.mp hd with h | h
      · omega
      · exact ih _ d h

theorem digitsLE_ne_nil {n : ℕ} (h0 : n ≠ 0) : digitsLE n n ≠ [] := by
  cases n with
  | zero => exact absurd rfl h0
  | succ m =>
    rw [digitsLE, if_neg h0]
    simp

theorem readNat_append (xs : List Char) (c : Char) :
    readNat (xs ++ [c]) = 10 * readNat xs + (c.toNat - 48) := by
  unfold readNat
  rw [List.foldl_append]
  rfl

theorem readNat_revmap : ∀ (ds : List ℕ), (∀ d ∈ ds, d < 10) →
    readNat (ds.reverse.map digitChar) = valLE ds := by
  intro ds
  induction ds with
  | nil => intro _; rfl
  | cons d ds ih =>
    intro h
    rw [List.reverse_cons, List.map_append, List.map_singleton,
      readNat_append, ih (fun x hx => h x (List.mem_cons_of_mem _ hx)),
      digitChar_toNat (h d (List.mem_cons_self _ _)), valLE]
    omega

theorem readNat_natStr (n : ℕ) : readNat (natStr n) = n := by
  unfold natStr
  by_cases h0 : n = 0
  · rw [if_pos h0, h0]
    rfl
  · rw [if_neg h0, readNat_revmap _ (digitsLE_lt _ _),
      valLE_digitsLE n n le_rfl]

theorem natStr_ne_nil (n : ℕ) : natStr n ≠ [] := by
  unfold natStr
  by_cases h0 : n = 0
  · rw [if_pos h0]
    simp
  · rw [if_neg h0]
    simp [digitsLE_ne_nil h0]

theorem natStr_digits (n : ℕ) : ∀ c ∈ natStr n, c.isDigit = true := by
  unfold natStr
  by_cases h0 : n = 0
  · rw [if_pos h0]
    intro c hc
    rw [List.mem_singleton] at hc
    rw [hc]
    decide
  · rw [if_neg h0]
    intro c hc
    rw [List.mem_map] at hc
    obtain ⟨d, hd, rfl⟩ := hc
    exact digitChar_isDigit (digitsLE_lt _ _ d (List.mem_reverse.mp hd))

theorem takeWhile_all_append (p : Char → Bool) :
    ∀ (xs ys : List Char), (∀ x ∈ xs, p x = true) →
    (∀ c cs, ys = c :: cs → p c = false) →
    (xs ++ ys).takeWhile p = xs ∧ (xs ++ ys).dropWhile p = ys := by
  intro xs
  induction xs with
  | nil =>
    intro ys _ hy
    cases ys with
    | nil => exact ⟨rfl, rfl⟩
    | cons c cs =>
      refine ⟨?_, ?_⟩
      · rw [List.nil_append, List.takeWhile_cons, hy c cs rfl]
        simp
      · rw [List.nil_append, List.dropWhile_cons, hy c cs rfl]
        simp
  | cons x xs ih =>
    intro ys hx hy
    have hpx : p x = true := hx x (List.mem_cons_self _ _)
    have hrec := ih ys (fun a ha => hx a (List.mem_cons_of_mem _ ha)) hy
    refine ⟨?_, ?_⟩
    · rw [List.cons_append, List.takeWhile_cons, hpx]
      simp only [if_true, hrec.1]
    · rw [List.cons_append, List.dropWhile_cons, hpx]
      simp only [if_true, hrec.2]

theorem matchRat_digits (pre post : List Char) (hne : pre ≠ [])
    (hdig : ∀ c ∈ pre, c.isDigit = true)
    (hpost : ∀ d ds, post = d :: ds → d.isDigit = false ∧ d ≠ '/') :
    matchRat (pre ++ post) = some (pre, post) := by
  obtain ⟨c, cs, rfl⟩ : ∃ c cs, pre = c :: cs := by
    cases pre with
    | nil => exact absurd rfl hne
    | cons c cs => exact ⟨c, cs, rfl⟩
  have hc : c.isDigit = true := hdig c (List.mem_cons_self _ _)
  have htd := takeWhile_all_append Char.isDigit (c :: cs) post hdig
    (fun d ds hd => (hpost d ds hd).1)
  unfold matchRat
  rw [List.cons_append]
  split
  · next rest heq =>
    injection heq with h1 _
    exact absurd (digit_ne hc (by decide) h1) (fun k => k)
  · next hno =>
    dsimp only
    rw [← List.cons_append, htd.1, htd.2]
    rw [if_neg (by simp)]
    cases post with
    | nil => rfl
    | cons d ds =>
      split
      · next r2 heq2 =>
        injection heq2 with h1 _
        exact absurd h1 (hpost d ds rfl).2
      · rfl

theorem matchRat_neg_digits (pre post : List Char) (hne : pre ≠ [])
    (hdig : ∀ c ∈ pre, c.isDigit = true)
    (hpost : ∀ d ds, post = d :: ds → d.isDigit = false ∧ d ≠ '/') :
    matchRat ('-' :: pre ++ post) = some ('-' :: pre, post) := by
  have htd := takeWhile_all_append Char.isDigit pre post hdig
    (fun d ds hd => (hpost d ds hd).1)
  unfold matchRat
  rw [List.cons_append]
  split
  · rename_i rest heq
    injection heq with _ h2
    subst h2
    dsimp only
    rw [htd.1, htd.2]
    rw [if_neg hne]
    cases post with
    | nil => rfl
    | cons d ds =>
      split
      · next r2 heq2 =>
        injection heq2 with h1 _
        exact absurd h1 (hpost d ds rfl).2
      · rfl
  · next hno =>
    exact absurd rfl (hno (pre ++ post))

theorem matchRat_slash (pre1 pre2 post : List Char)
    (hne1 : pre1 ≠ []) (hne2 : pre2 ≠ [])
    (hdig1 : ∀ c ∈ pre1, c.isDigit = true)
    (hdig2 : ∀ c ∈ pre2, c.isDigit = true)
    (hpost : ∀ d ds, post = d :: ds → d.isDigit = false) :
    matchRat (pre1 ++ '/' :: pre2 ++ post)
      = some (pre1 ++ '/' :: pre2, post) := by
  obtain ⟨c, cs, rfl⟩ : ∃ c cs, pre1 = c :: cs := by
    cases pre1 with
    | nil => exact absurd rfl hne1
    | cons c cs => exact ⟨c, cs, rfl⟩
  have hc : c.isDigit = true := hdig1 c (List.mem_cons_self _ _)
  have htd1 := takeWhile_all_append Char.isDigit (c :: cs)
    ('/' :: (pre2 ++ post)) hdig1
    (by
      intro d ds hd
      injection hd with h1 _
      rw [← h1]
      decide)
  have htd2 := takeWhile_all_append Char.isDigit pre2 post hdig2 hpost
  unfold matchRat
  rw [List.append_assoc, List.cons_append, List.cons_append]
  split
  · next rest heq =>
    injection heq with h1 _
    exact absurd (digit_ne hc (by decide) h1) (fun k => k)
  · next hno =>
    dsimp only
    simp only [List.cons_append] at htd1
    rw [htd1.1, htd1.2]
    rw [if_neg (by simp)]
    split
    · rename_i r2x heq2
      injection heq2 with _ h3
      subst h3
      rw [htd2.1, htd2.2]
      rw [if_neg hne2]
      rfl
    · next hno2 =>
      exact absurd rfl (hno2 (pre2 ++ post))

theorem matchRat_neg_slash (pre1 pre2 post : List Char)
    (hne1 : pre1 ≠ []) (hne2 : pre2 ≠ [])
    (hdig1 : ∀ c ∈ pre1, c.isDigit = true)
    (hdig2 : ∀ c ∈ pre2, c.isDigit = true)
    (hpost : ∀ d ds, post = d :: ds → d.isDigit = false) :
    matchRat ('-' :: pre1 ++ '/' :: pre2 ++ post)
      = some ('-' :: pre1 ++ '/' :: pre2, post) := by
  have htd1 := takeWhile_all_append Char.isDigit pre1
    ('/' :: (pre2 ++ post)) hdig1
    (by
      intro d ds hd
      injection hd with h1 _
      rw [← h1]
      decide)
  have htd2 := takeWhile_all_append Char.isDigit pre2 post hdig2 hpost
  unfold matchRat
  simp only [List.cons_append, List.append_assoc]
  rw [htd1.1, htd1.2]
  rw [if_neg hne1]
  split
  · rename_i r2x heq2
    injection heq2 with _ h3
    subst h3
    rw [htd2.1, htd2.2]
    rw [if_neg hne2]
    rfl
  · next hno2 =>
    exact absurd rfl (hno2 (pre2 ++ post))

theorem matchRat_none_head {c : Char} (tail : List Char)
    (h1 : c.isDigit = false) (h2 : c ≠ '-') :
    matchRat (c :: tail) = none := by
  unfold matchRat
  split
  · next rest heq =>
    injection heq with hx _
    exact absurd hx h2
  · dsimp only
    rw [List.takeWhile_cons, h1]
    simp

theorem matchRat_none_dash {c2 : Char} (tail : List Char)
    (h1 : c2.isDigit = false) :
    matchRat ('-' :: c2 :: tail) = none := by
  unfold matchRat
  split
  · rename_i rest heq
    injection heq with _ h3
    subst h3
    simp_all [List.takeWhile_cons]
  · next hno =>
    exact absurd rfl (hno (c2 :: tail))

theorem takeWhile_all (p : Char → Bool) (xs : List Char)
    (h : ∀ x ∈ xs, p x = true) :
    xs.takeWhile p = xs ∧ xs.dropWhile p = [] := by
  have hres := takeWhile_all_append p xs [] h (fun d ds hd => by cases hd)
  rw [List.append_nil] at hres
  exact hres

theorem intStr_nonneg {i : ℤ} (h : 0 ≤ i) : intStr i = natStr i.toNat := by
  unfold intStr
  rw [if_neg (by omega)]

theorem intStr_neg {i : ℤ} (h : i < 0) : intStr i = '-' :: natStr i.natAbs := by
  unfold intStr
  rw [if_pos h]

theorem natStr_cons (n : ℕ) :
    ∃ c cs, natStr n = c :: cs ∧ c.isDigit = true := by
  rcases hn : natStr n with _ | ⟨c, cs⟩
  · exact absurd hn (natStr_ne_nil n)
  · refine ⟨c, cs, rfl, natStr_digits n c ?_⟩
    rw [hn]
    exact List.mem_cons_self _ _

theorem natStr_ends (n : ℕ) :
    ∃ ys c, natStr n = ys ++ [c] ∧ c.isDigit = true := by
  have hne := natStr_ne_nil n
  exact ⟨(natStr n).dropLast, (natStr n).getLast hne,
    (List.dropLast_append_getLast hne).symm,
    natStr_digits n _ (List.getLast_mem hne)⟩

theorem intStr_head (i : ℤ) :
    ∃ c cs, intStr i = c :: cs ∧ c.isWhitespace = false := by
  unfold intStr
  by_cases hneg : i < 0
  · rw [if_pos hneg]
    exact ⟨'-', _, rfl, by decide⟩
  · rw [if_neg hneg]
    obtain ⟨c, cs, h, hc⟩ := natStr_cons i.toNat
    exact ⟨c, cs, h, digit_not_ws hc⟩

theorem ratString_head (q : ℚ) :
    ∃ c cs, ratString q = c :: cs ∧ c.isWhitespace = false := by
  unfold ratString
  obtain ⟨c, cs, h, hc⟩ := intStr_head q.num
  by_cases hden : q.den = 1
  · rw [if_pos hden]
    exact ⟨c, cs, h, hc⟩
  · rw [if_neg hden, h]
    exact ⟨c, cs ++ '/' :: natStr q.den, rfl, hc⟩

theorem ratString_ends (q : ℚ) :
    ∃ ys c, ratString q = ys ++ [c] ∧ c.isDigit = true := by
  unfold ratString
  by_cases hden : q.den = 1
  · rw [if_pos hden]
    unfold intStr
    by_cases hneg : q.num < 0
    · rw [if_pos hneg]
      obtain ⟨ys, c, h, hc⟩ := natStr_ends q.num.natAbs
      exact ⟨'-' :: ys, c, by rw [h]; rfl, hc⟩
    · rw [if_neg hneg]
      exact natStr_ends q.num.toNat
  · rw [if_neg hden]
    obtain ⟨ys, c, h, hc⟩ := natStr_ends q.den
    refine ⟨intStr q.num ++ '/' :: ys, c, ?_, hc⟩
    rw [h]
    simp [List.append_assoc]

theorem matchRat_ratString (q : ℚ) (post : List Char)
    (hpost : ∀ d ds, post = d :: ds → d.isDigit = false ∧ d ≠ '/') :
    matchRat (ratString q ++ post) = some (ratString q, post) := by
  unfold ratString
  by_cases hden : q.den = 1
  · rw [if_pos hden]
    by_cases hneg : q.num < 0
    · rw [intStr_neg hneg]
      exact matchRat_neg_digits _ _ (natStr_ne_nil _) (natStr_digits _) hpost
    · rw [intStr_nonneg (by omega)]
      exact matchRat_digits _ _ (natStr_ne_nil _) (natStr_digits _) hpost
  · rw [if_neg hden]
    by_cases hneg : q.num < 0
    · rw [intStr_neg hneg]
      exact matchRat_neg_slash _ _ _ (natStr_ne_nil _) (natStr_ne_nil _)
        (natStr_digits _) (natStr_digits _)
        (fun d ds hd => (hpost d ds hd).1)
    · rw [intStr_nonneg (by omega)]
      exact matchRat_slash _ _ _ (natStr_ne_nil _) (natStr_ne_nil _)
        (natStr_digits _) (natStr_digits _)
        (fun d ds hd => (hpost d ds hd).1)

/-- A string starting with a non-whitespace character. -/
def headNonWS (s : List Char) : Prop :=
  ∃ c cs, s = c :: cs ∧ c.isWhitespace = false

/-- A string ending with a non-whitespace character. -/
def endsNonWS (s : List Char) : Prop :=
  ∃ ys c, s = ys ++ [c] ∧ c.isWhitespace = false

/-- The unconsumed remainders arising while parsing a serialized tree:
either exhausted, or a space followed by further serialized material (which
always ends in a digit). -/
def restOk (rest : List Char) : Prop :=
  rest = [] ∨ ((∃ r, rest = ' ' :: r) ∧ endsNonWS rest)

theorem trimL_cons_of {c : Char} {cs : List Char}
    (h : c.isWhitespace = false) : trimL (c :: cs) = c :: cs := by
  unfold trimL
  rw [List.dropWhile_cons, h]
  simp

theorem trimR_ends {s : List Char} (h : endsNonWS s) : trimR s = s := by
  obtain ⟨ys, c, rfl, hc⟩ := h
  unfold trimR
  rw [List.reverse_append, List.reverse_singleton, List.singleton_append,
    List.dropWhile_cons, hc]
  simp

theorem trimSpace_eq_self {s : List Char} (hh : headNonWS s)
    (he : endsNonWS s) : trimSpace s = s := by
  have h1 : trimL s = s := by
    obtain ⟨c, cs, hs, hc⟩ := hh
    rw [hs]
    exact trimL_cons_of hc
  unfold trimSpace
  rw [h1, trimR_ends he]

theorem trimSpace_cons_space (s : List Char) :
    trimSpace (' ' :: s) = trimSpace s := by
  unfold trimSpace trimL
  rw [List.dropWhile_cons]
  simp

theorem dropWhile_length_le (p : Char → Bool) :
    ∀ s : List Char, (s.dropWhile p).length ≤ s.length := by
  intro s
  induction s with
  | nil => simp [List.dropWhile]
  | cons c cs ih =>
    rw [List.dropWhile_cons, List.length_cons]
    by_cases h : p c = true
    · rw [if_pos h]
      omega
    · rw [if_neg h, List.length_cons]

theorem trimSpace_length_le (s : List Char) :
    (trimSpace s).length ≤ s.length := by
  unfold trimSpace trimR trimL
  have h1 := dropWhile_length_le Char.isWhitespace s
  have h2 := dropWhile_length_le Char.isWhitespace
    (s.dropWhile Char.isWhitespace).reverse
  simp only [List.length_reverse] at h2 ⊢
  omega

theorem newRationalFromString_ratString (q : ℚ) :
    newRationalFromString (ratString q) = .ok q := by
  have hd0 : (q.den : ℕ) ≠ 0 := q.den_nz
  unfold ratString
  by_cases hden : q.den = 1
  · rw [if_pos hden]
    unfold intStr
    by_cases hneg : q.num < 0
    · rw [if_pos hneg]
      have htw := takeWhile_all Char.isDigit (natStr q.num.natAbs)
        (natStr_digits _)
      unfold newRationalFromString
      split
      · rename_i rest heq
        injection heq with _ h2
        subst h2
        dsimp only
        rw [htw.1, htw.2, readNat_natStr]
        have hnum : -((q.num.natAbs : ℤ)) = q.num := by omega
        rw [if_pos rfl, hnum]
        rw [show ((1 : ℕ) : ℕ) = q.den from hden.symm]
        rw [Rat.mkRat_self]
      · next hno =>
        exact absurd rfl (hno (natStr q.num.natAbs))
    · rw [if_neg hneg]
      have htw := takeWhile_all Char.isDigit (natStr q.num.toNat)
        (natStr_digits _)
      obtain ⟨c, cs, hnat, hc⟩ := natStr_cons q.num.toNat
      unfold newRationalFromString
      rw [hnat]
      split
      · rename_i rest heq
        injection heq with h1 _
        exact absurd (digit_ne hc (by decide) h1) (fun k => k)
      · next hno =>
        dsimp only
        rw [← hnat, htw.1, htw.2, readNat_natStr]
        have hnum : ((q.num.toNat : ℤ)) = q.num := by omega
        rw [if_neg (by exact Bool.false_ne_true), hnum]
        rw [show ((1 : ℕ) : ℕ) = q.den from hden.symm]
        rw [Rat.mkRat_self]
  · rw [if_neg hden]
    have hslash : ∀ d ds, ('/' :: natStr q.den) = d :: ds →
        Char.isDigit d = false := by
      intro d ds hd
      injection hd with h1 _
      rw [← h1]
      decide
    have htw2 := takeWhile_all Char.isDigit (natStr q.den) (natStr_digits _)
    by_cases hneg : q.num < 0
    · rw [intStr_neg hneg]
      have htd := takeWhile_all_append Char.isDigit (natStr q.num.natAbs)
        ('/' :: natStr q.den) (natStr_digits _) hslash
      unfold newRationalFromString
      rw [List.cons_append]
      split
      · rename_i rest heq
        injection heq with _ h2
        subst h2
        dsimp only
        rw [htd.1, htd.2, readNat_natStr]
        split
        · rename_i dens heqd
          injection heqd with _ h3
          subst h3
          rw [htw2.1, readNat_natStr]
          rw [if_neg hd0]
          have hnum : -((q.num.natAbs : ℤ)) = q.num := by omega
          rw [if_pos rfl, hnum, Rat.mkRat_self]
        · next hno2 =>
          exact absurd rfl (hno2 (natStr q.den))
      · next hno =>
        exact absurd rfl (hno (natStr q.num.natAbs ++ '/' :: natStr q.den))
    · rw [intStr_nonneg (by omega)]
      have htd := takeWhile_all_append Char.isDigit (natStr q.num.toNat)
        ('/' :: natStr q.den) (natStr_digits _) hslash
      obtain ⟨c, cs, hnat, hc⟩ := natStr_cons q.num.toNat
      unfold newRationalFromString
      rw [hnat, List.cons_append]
      split
      · rename_i rest heq
        injection heq with h1 _
        exact absurd (digit_ne hc (by decide) h1) (fun k => k)
      · next hno =>
        dsimp only
        rw [← List.cons_append, ← hnat, htd.1, htd.2, readNat_natStr]
        split
        · rename_i dens heqd
          injection heqd with _ h3
          subst h3
          rw [htw2.1, readNat_natStr]
          rw [if_neg hd0]
          have hnum : ((q.num.toNat : ℤ)) = q.num := by omega
          rw [if_neg (by exact Bool.false_ne_true), hnum, Rat.mkRat_self]
        · next hno2 =>
          exact absurd rfl (hno2 (natStr q.den))

theorem binary_ne_null {o : Op} (ho : o.binary = true) : o ≠ .null := by
  intro he
  subst he
  cases ho

theorem unary_ne_null {o : Op} (ho : o.unary = true) : o ≠ .null := by
  intro he
  subst he
  cases ho

theorem unary_not_binary {o : Op} (ho : o.unary = true) : o.binary = false := by
  cases o <;> first | rfl | cases ho

theorem toPolish_leaf (v : ℚ) :
    (Node.mk none none v .null).ToPolish = ratString v := by
  simp [Node.ToPolish, Node.valid]

theorem toPolish_binary (L R : Node) (v : ℚ) {o : Op} (ho : o.binary = true) :
    (Node.mk (some L) (some R) v o).ToPolish
      = o.symbol ++ ' ' :: (L.ToPolish ++ ' ' :: R.ToPolish) := by
  rw [Node.ToPolish]
  rw [if_neg (by simp [valid_of_binary ho]), if_neg (binary_ne_null ho)]
  rw [ho]
  simp [List.append_assoc]

theorem toPolish_unary (L : Node) (v : ℚ) {o : Op} (ho : o.unary = true) :
    (Node.mk (some L) none v o).ToPolish = o.symbol ++ ' ' :: L.ToPolish := by
  rw [Node.ToPolish]
  rw [if_neg (by simp [valid_of_unary ho]), if_neg (unary_ne_null ho)]
  rw [unary_not_binary ho]
  simp

theorem op_symbol_head (o : Op) (ho : o ≠ .null) :
    ∃ c cs, o.symbol = c :: cs ∧ c.isWhitespace = false := by
  cases o
  · exact absurd rfl ho
  all_goals exact ⟨_, _, rfl, by decide⟩

theorem polish_head {t : Node} (hv : t.validRec = true) :
    headNonWS t.ToPolish := by
  rcases op_class t.op with ho | ho | ho
  · have hsh := validRec_null_shape hv ho
    obtain ⟨c, cs, h, hc⟩ := ratString_head t.val
    exact ⟨c, cs, by rw [hsh, toPolish_leaf, h], hc⟩
  · obtain ⟨l, r, hsh, _, _⟩ := validRec_binary_shape hv ho
    obtain ⟨c, cs, h, hc⟩ := op_symbol_head t.op (binary_ne_null ho)
    refine ⟨c, cs ++ ' ' :: (l.ToPolish ++ ' ' :: r.ToPolish), ?_, hc⟩
    rw [hsh, toPolish_binary _ _ _ ho, h]
    rfl
  · obtain ⟨l, hsh, _⟩ := validRec_unary_shape hv ho
    obtain ⟨c, cs, h, hc⟩ := op_symbol_head t.op (unary_ne_null ho)
    refine ⟨c, cs ++ ' ' :: l.ToPolish, ?_, hc⟩
    rw [hsh, toPolish_unary _ _ ho, h]
    rfl

theorem polish_last : ∀ (k : ℕ) (t : Node), t.weight ≤ k →
    t.validRec = true →
    ∃ ys c, t.ToPolish = ys ++ [c] ∧ c.isDigit = true := by
  intro k
  induction k with
  | zero => intro t hk; have := two_le_weight t; omega
  | succ k ihk =>
    intro t hk hv
    rcases op_class t.op with ho | ho | ho
    · have hsh := validRec_null_shape hv ho
      obtain ⟨ys, c, h, hc⟩ := ratString_ends t.val
      exact ⟨ys, c, by rw [hsh, toPolish_leaf, h], hc⟩
    · obtain ⟨l, r, hsh, hlv, hrv⟩ := validRec_binary_shape hv ho
      have hrw : r.weight ≤ k := by
        have := weight_right_lt (show t.right = some r by rw [hsh]; rfl)
        omega
      obtain ⟨ys, c, h, hc⟩ := ihk r hrw hrv
      refine ⟨t.op.symbol ++ ' ' :: (l.ToPolish ++ ' ' :: ys), c, ?_, hc⟩
      rw [hsh, toPolish_binary _ _ _ ho, h]
      simp
    · obtain ⟨l, hsh, hlv⟩ := validRec_unary_shape hv ho
      have hlw : l.weight ≤ k := by
        have := weight_left_lt (show t.left = some l by rw [hsh]; rfl)
        omega
      obtain ⟨ys, c, h, hc⟩ := ihk l hlw hlv
      refine ⟨t.op.symbol ++ ' ' :: ys, c, ?_, hc⟩
      rw [hsh, toPolish_unary _ _ ho, h]
      simp

theorem polish_ends {t : Node} (hv : t.validRec = true) :
    endsNonWS t.ToPolish := by
  obtain ⟨ys, c, h, hc⟩ := polish_last t.weight t le_rfl hv
  exact ⟨ys, c, h, digit_not_ws hc⟩

theorem ne_sqrt_of_head {c : Char} (hc : c ≠ 's') (S : List Char) :
    ¬((c :: S).take 4 = "sqrt".toList) := by
  intro h
  rw [show (c :: S).take 4 = c :: S.take 3 from rfl] at h
  injection h with h1 _
  exact hc h1

theorem ne_dd_of_head {c : Char} (hc : c ≠ '-') (S : List Char) :
    ¬((c :: S).take 2 = "--".toList) := by
  intro h
  rw [show (c :: S).take 2 = c :: S.take 1 from rfl] at h
  injection h with h1 _
  exact hc h1

theorem opToken_binary (o : Op) (ho : o.binary = true) (X : List Char) :
    matchRat (o.symbol ++ ' ' :: X) = none ∧
    ¬(o.symbol ++ ' ' :: X = []) ∧
    ((if (o.symbol ++ ' ' :: X).take 4 = "sqrt".toList
      then ((Op.sqrt : Op), (o.symbol ++ ' ' :: X).drop 4)
      else if (o.symbol ++ ' ' :: X).take 2 = "--".toList
        then ((Op.minus : Op), (o.symbol ++ ' ' :: X).drop 2)
        else (singleCharOp ((o.symbol ++ ' ' :: X).headD ' '),
          (o.symbol ++ ' ' :: X).drop 1))
      = (o, ' ' :: X)) := by
  cases o
  case null => cases ho
  case fact => cases ho
  case sqrt => cases ho
  case minus => cases ho
  case sub =>
    rw [show Op.sub.symbol ++ ' ' :: X = '-' :: ' ' :: X from rfl]
    refine ⟨matchRat_none_dash _ (by decide), by simp, ?_⟩
    rw [if_neg (ne_sqrt_of_head (by decide) _)]
    rw [if_neg (by
      intro h
      rw [show (('-' :: ' ' :: X).take 2) = ['-', ' '] from rfl] at h
      exact absurd h (by decide))]
    rfl
  case add =>
    rw [show Op.add.symbol ++ ' ' :: X = '+' :: ' ' :: X from rfl]
    refine ⟨matchRat_none_head _ (by decide) (by decide), by simp, ?_⟩
    rw [if_neg (ne_sqrt_of_head (by decide) _),
      if_neg (ne_dd_of_head (by decide) _)]
    rfl
  case mul =>
    rw [show Op.mul.symbol ++ ' ' :: X = '*' :: ' ' :: X from rfl]
    refine ⟨matchRat_none_head _ (by decide) (by decide), by simp, ?_⟩
    rw [if_neg (ne_sqrt_of_head (by decide) _),
      if_neg (ne_dd_of_head (by decide) _)]
    rfl
  case div =>
    rw [show Op.div.symbol ++ ' ' :: X = '/' :: ' ' :: X from rfl]
    refine ⟨matchRat_none_head _ (by decide) (by decide), by simp, ?_⟩
    rw [if_neg (ne_sqrt_of_head (by decide) _),
      if_neg (ne_dd_of_head (by decide) _)]
    rfl
  case pow =>
    rw [show Op.pow.symbol ++ ' ' :: X = '^' :: ' ' :: X from rfl]
    refine ⟨matchRat_none_head _ (by decide) (by decide), by simp, ?_⟩
    rw [if_neg (ne_sqrt_of_head (by decide) _),
      if_neg (ne_dd_of_head (by decide) _)]
    rfl

theorem opToken_unary (o : Op) (ho : o.unary = true) (X : List Char) :
    matchRat (o.symbol ++ ' ' :: X) = none ∧
    ¬(o.symbol ++ ' ' :: X = []) ∧
    ((if (o.symbol ++ ' ' :: X).take 4 = "sqrt".toList
      then ((Op.sqrt : Op), (o.symbol ++ ' ' :: X).drop 4)
      else if (o.symbol ++ ' ' :: X).take 2 = "--".toList
        then ((Op.minus : Op), (o.symbol ++ ' ' :: X).drop 2)
        else (singleCharOp ((o.symbol ++ ' ' :: X).headD ' '),
          (o.symbol ++ ' ' :: X).drop 1))
      = (o, ' ' :: X)) := by
  cases o
  case null => cases ho
  case add => cases ho
  case sub => cases ho
  case mul => cases ho
  case div => cases ho
  case pow => cases ho
  case fact =>
    rw [show Op.fact.symbol ++ ' ' :: X = '!' :: ' ' :: X from rfl]
    refine ⟨matchRat_none_head _ (by decide) (by decide), by simp, ?_⟩
    rw [if_neg (ne_sqrt_of_head (by decide) _),
      if_neg (ne_dd_of_head (by decide) _)]
    rfl
  case sqrt =>
    rw [show Op.sqrt.symbol ++ ' ' :: X
      = 's' :: 'q' :: 'r' :: 't' :: ' ' :: X from rfl]
    refine ⟨matchRat_none_head _ (by decide) (by decide), by simp, ?_⟩
    rw [if_pos (by rfl)]
    rfl
  case minus =>
    rw [show Op.minus.symbol ++ ' ' :: X = '-' :: '-' :: ' ' :: X from rfl]
    refine ⟨matchRat_none_dash _ (by decide), by simp, ?_⟩
    rw [if_neg (ne_sqrt_of_head (by decide) _), if_pos (by rfl)]
    rfl

theorem headNonWS_ext {P : List Char} (h : headNonWS P) (X : List Char) :
    headNonWS (P ++ X) := by
  obtain ⟨c, cs, rfl, hc⟩ := h
  exact ⟨c, cs ++ X, rfl, hc⟩

theorem endsNonWS_ext (A : List Char) {B : List Char} (h : endsNonWS B) :
    endsNonWS (A ++ B) := by
  obtain ⟨ys, c, rfl, hc⟩ := h
  exact ⟨A ++ ys, c, by simp, hc⟩

theorem endsNonWS_append_restOk {P : List Char} (hP : endsNonWS P)
    {rest : List Char} (hr : restOk rest) : endsNonWS (P ++ rest) := by
  rcases hr with rfl | ⟨_, he⟩
  · rw [List.append_nil]
    exact hP
  · exact endsNonWS_ext P he

theorem restOk_step {R : Node} (hRv : R.validRec = true) {rest : List Char}
    (hr : restOk rest) : restOk (' ' :: (R.ToPolish ++ rest)) := by
  refine Or.inr ⟨⟨_, rfl⟩, ?_⟩
  exact endsNonWS_ext [' '] (endsNonWS_append_restOk (polish_ends hRv) hr)

theorem restOk_digit_free {rest : List Char} (hr : restOk rest) :
    ∀ d ds, rest = d :: ds → d.isDigit = false ∧ d ≠ '/' := by
  intro d ds hd
  rcases hr with rfl | ⟨⟨r, hrr⟩, _⟩
  · cases hd
  · rw [hrr] at hd
    injection hd with h1 _
    rw [← h1]
    exact ⟨by decide, by decide⟩

theorem parse_RT : ∀ (fuel : ℕ) (t : Node) (rest s0 : List Char),
    t.validRec = true → restOk rest →
    trimSpace s0 = t.ToPolish ++ rest → s0.length < fuel →
    parseNode fuel s0 = .ok (t.normVal, rest) := by
  intro fuel
  induction fuel with
  | zero => intro t rest s0 _ _ _ h; omega
  | succ f ih =>
    intro t rest s0 hv hrok hts hlen
    have hslen : (t.ToPolish ++ rest).length ≤ s0.length := by
      rw [← hts]
      exact trimSpace_length_le s0
    rw [parseNode]
    dsimp only
    rw [hts]
    rcases op_class t.op with ho | ho | ho
    · have hsh := validRec_null_shape hv ho
      rw [hsh, toPolish_leaf]
      rw [matchRat_ratString _ _ (restOk_digit_free hrok)]
      dsimp only
      have hre : endsNonWS (ratString t.val) := by
        obtain ⟨ys, c, h, hc⟩ := ratString_ends t.val
        exact ⟨ys, c, h, digit_not_ws hc⟩
      rw [trimSpace_eq_self (ratString_head t.val) hre,
        newRationalFromString_ratString]
      rw [normVal_mk]
      simp [optNorm]
    · obtain ⟨l, r, hsh, hlv, hrv⟩ := validRec_binary_shape hv ho
      have hTP : t.ToPolish ++ rest
          = t.op.symbol ++ ' ' :: (l.ToPolish ++ ' ' :: (r.ToPolish ++ rest)) := by
        conv_lhs => rw [hsh]
        rw [toPolish_binary _ _ _ ho]
        simp [List.append_assoc]
      rw [hTP]
      obtain ⟨hmr, hne, hop⟩ :=
        opToken_binary t.op ho (l.ToPolish ++ ' ' :: (r.ToPolish ++ rest))
      rw [hmr]
      dsimp only
      rw [if_neg hne, hop]
      dsimp only
      rw [if_neg (binary_ne_null ho)]
      rw [if_neg (by simp)]
      have hlsym : 1 ≤ t.op.symbol.length := by
        obtain ⟨c, cs, h, _⟩ := op_symbol_head t.op (binary_ne_null ho)
        rw [h, List.length_cons]
        omega
      have hllp : 1 ≤ l.ToPolish.length := by
        obtain ⟨c, cs, h, _⟩ := polish_head hlv
        rw [h, List.length_cons]
        omega
      have hlens := hslen
      rw [hTP] at hlens
      simp only [List.length_append, List.length_cons] at hlens
      have htrim1 : trimSpace (' ' :: (l.ToPolish ++ ' ' :: (r.ToPolish ++ rest)))
          = l.ToPolish ++ (' ' :: (r.ToPolish ++ rest)) := by
        rw [trimSpace_cons_space]
        apply trimSpace_eq_self (headNonWS_ext (polish_head hlv) _)
        rw [show l.ToPolish ++ ' ' :: (r.ToPolish ++ rest)
            = (l.ToPolish ++ [' ']) ++ (r.ToPolish ++ rest) by simp]
        exact endsNonWS_ext _ (endsNonWS_append_restOk (polish_ends hrv) hrok)
      have hih1 := ih l (' ' :: (r.ToPolish ++ rest))
        (' ' :: (l.ToPolish ++ ' ' :: (r.ToPolish ++ rest)))
        hlv (restOk_step hrv hrok) htrim1
        (by
          simp only [List.length_cons, List.length_append]
          omega)
      rw [hih1]
      dsimp only
      rw [if_neg (fun hcc => Op.binary_not_unary ho hcc)]
      have htrim2 : trimSpace (' ' :: (r.ToPolish ++ rest))
          = r.ToPolish ++ rest := by
        rw [trimSpace_cons_space]
        exact trimSpace_eq_self (headNonWS_ext (polish_head hrv) _)
          (endsNonWS_append_restOk (polish_ends hrv) hrok)
      have hih2 := ih r rest (' ' :: (r.ToPolish ++ rest)) hrv hrok htrim2
        (by
          simp only [List.length_cons, List.length_append]
          omega)
      rw [hih2]
      conv_rhs => rw [hsh, normVal_mk]
      rw [optNorm_some, optNorm_some, if_neg (binary_ne_null ho)]
    · obtain ⟨l, hsh, hlv⟩ := validRec_unary_shape hv ho
      have hTP : t.ToPolish ++ rest
          = t.op.symbol ++ ' ' :: (l.ToPolish ++ rest) := by
        conv_lhs => rw [hsh]
        rw [toPolish_unary _ _ ho]
        simp [List.append_assoc]
      rw [hTP]
      obtain ⟨hmr, hne, hop⟩ :=
        opToken_unary t.op ho (l.ToPolish ++ rest)
      rw [hmr]
      dsimp only
      rw [if_neg hne, hop]
      dsimp only
      rw [if_neg (unary_ne_null ho)]
      rw [if_neg (by simp)]
      have hlsym : 1 ≤ t.op.symbol.length := by
        obtain ⟨c, cs, h, _⟩ := op_symbol_head t.op (unary_ne_null ho)
        rw [h, List.length_cons]
        omega
      have hlens := hslen
      rw [hTP] at hlens
      simp only [List.length_append, List.length_cons] at hlens
      have htrim1 : trimSpace (' ' :: (l.ToPolish ++ rest))
          = l.ToPolish ++ rest := by
        rw [trimSpace_cons_space]
        exact trimSpace_eq_self (headNonWS_ext (polish_head hlv) _)
          (endsNonWS_append_restOk (polish_ends hlv) hrok)
      have hih1 := ih l rest (' ' :: (l.ToPolish ++ rest)) hlv hrok htrim1
        (by
          simp only [List.length_cons, List.length_append]
          omega)
      rw [hih1]
      dsimp only
      rw [if_pos ho]
      conv_rhs => rw [hsh, normVal_mk]
      rw [optNorm_some, optNorm_none, if_neg (unary_ne_null ho)]

theorem normVal_equal : ∀ (k : ℕ) (t : Node), t.weight ≤ k →
    t.validRec = true → (t.normVal).equal t = true := by
  intro k
  induction k with
  | zero => intro t hk; have := two_le_weight t; omega
  | succ k ihk =>
    intro t hk hv
    rcases op_class t.op with ho | ho | ho
    · have hsh := validRec_null_shape hv ho
      rw [hsh, normVal_mk]
      rw [Node.equal.eq_def]
      simp [optNorm]
    · obtain ⟨l, r, hsh, hlv, hrv⟩ := validRec_binary_shape hv ho
      have hlw : l.weight ≤ k := by
        have := weight_left_lt (show t.left = some l by rw [hsh]; rfl)
        omega
      have hrw : r.weight ≤ k := by
        have := weight_right_lt (show t.right = some r by rw [hsh]; rfl)
        omega
      rw [hsh, normVal_mk, optNorm_some, optNorm_some,
        if_neg (binary_ne_null ho)]
      rw [Node.equal.eq_def]
      dsimp only [Node.left, Node.right]
      rw [if_neg (by simp), if_pos (by simp [binary_ne_null ho])]
      rw [ihk l hlw hlv, ihk r hrw hrv]
      rfl
    · obtain ⟨l, hsh, hlv⟩ := validRec_unary_shape hv ho
      have hlw : l.weight ≤ k := by
        have := weight_left_lt (show t.left = some l by rw [hsh]; rfl)
        omega
      rw [hsh, normVal_mk, optNorm_some, optNorm_none,
        if_neg (unary_ne_null ho)]
      rw [Node.equal.eq_def]
      dsimp only [Node.left, Node.right]
      rw [if_neg (by simp), if_pos (by simp [unary_ne_null ho])]
      rw [ihk l hlw hlv]
      rfl

theorem FromPolish_ToPolish (t : Node) (hv : t.validRec = true) :
    FromPolish t.ToPolish = .ok t.normVal := by
  have htrim : trimSpace t.ToPolish = t.ToPolish :=
    trimSpace_eq_self (polish_head hv) (polish_ends hv)
  unfold FromPolish
  dsimp only
  rw [htrim]
  rw [parse_RT (t.ToPolish.length + 1) t [] t.ToPolish hv (Or.inl rfl)
    (by rw [htrim, List.append_nil]) (by omega)]

/-- No rule applies at the root: neither special rule's guard shape holds,
and none of the 13 pairwise-merge or 4 re-association templates matches. -/
def rootFiresNone (n : Node) : Prop :=
  ¬(n.op = .minus ∧ (optGet n.left).op = .minus) ∧
  ¬(n.op = .pow ∧ (optGet n.left).op = .minus) ∧
  (∀ t ∈ duoRules, duoMatches n t = false) ∧
  (∀ t ∈ trioRules, trioMatches n t = false)

instance (n : Node) : Decidable (rootFiresNone n) := by
  unfold rootFiresNone
  infer_instance

theorem simplify_flag_false {c : Node} (h : (simplifyF c.weight c).2 = false)
    (hcv : c.validRec = true) : c.Simplify = c := by
  rw [Node.Simplify]
  rw [((simplifyF_wv c.weight) c hcv).2.2 h]

theorem simplify_flag_true {c : Node} (h : (simplifyF c.weight c).2 = true)
    (hcv : c.validRec = true) : c.Simplify ≠ c := by
  intro he
  have hlt := ((simplifyF_wv c.weight) c hcv).2.1 h
  rw [Node.Simplify] at he
  rw [he] at hlt
  omega

theorem simplify_rebuild (n : Node) (hv : n.validRec = true)
    (hrf : rootFiresNone n) :
    n.Simplify =
      if n.left.map Node.Simplify = n.left ∧
          n.right.map Node.Simplify = n.right
      then n
      else (Node.mk (n.left.map Node.Simplify) (n.right.map Node.Simplify)
        n.val n.op).Simplify := by
  obtain ⟨h1, h2, hdm, htm⟩ := hrf
  have h2n := two_le_weight n
  obtain ⟨w', hw⟩ : ∃ w', n.weight = w' + 1 := ⟨n.weight - 1, by omega⟩
  rw [Node.Simplify, hw, simplifyF]
  dsimp only
  rw [if_neg h1, if_neg h2]
  have hchain : applyTrios (simplifyF w') (applyDuos (simplifyF w') (n, false))
      = (n, false) := by
    unfold applyDuos applyTrios
    rw [duo_fold_nomatch duoRules hdm, trio_fold_nomatch trioRules htm]
  rw [hchain]
  dsimp only
  rw [if_neg (by simp)]
  rcases op_class n.op with ho | ho | ho
  · have hsh := validRec_null_shape hv ho
    have hln : n.left = none := by rw [hsh]; rfl
    have hrn : n.right = none := by rw [hsh]; rfl
    rw [hln, hrn]
    simp only [Option.map_none']
    rw [if_neg (by simp), if_pos (by simp)]
  · obtain ⟨l, r, hsh, hlv, hrv⟩ := validRec_binary_shape hv ho
    have hln : n.left = some l := by rw [hsh]; rfl
    have hrn : n.right = some r := by rw [hsh]; rfl
    have hlw : l.weight < n.weight := weight_left_lt hln
    have hrw : r.weight < n.weight := weight_right_lt hrn
    have hfl : simplifyF w' l = simplifyF l.weight l :=
      simplifyF_fuel_indep l.weight l le_rfl hlv w' l.weight (by omega) le_rfl
    have hfr : simplifyF w' r = simplifyF r.weight r :=
      simplifyF_fuel_indep r.weight r le_rfl hrv w' r.weight (by omega) le_rfl
    rw [hln, hrn]
    simp only [Option.map_some']
    rw [hfl, hfr]
    have hl1 : (simplifyF l.weight l).1 = l.Simplify := rfl
    have hr1 : (simplifyF r.weight r).1 = r.Simplify := rfl
    by_cases hcl : ((simplifyF l.weight l).2 || (simplifyF r.weight r).2)
        = true
    · rw [if_pos hcl]
      dsimp only
      rw [hl1, hr1]
      have hcond : ¬(some l.Simplify = some l ∧ some r.Simplify = some r) := by
        rintro ⟨ha, hb⟩
        injection ha with ha'
        injection hb with hb'
        rcases Bool.or_eq_true_iff.mp hcl with hf | hf
        · exact simplify_flag_true hf hlv ha'
        · exact simplify_flag_true hf hrv hb'
      rw [if_neg hcond]
      have hRv : (Node.mk (some l.Simplify) (some r.Simplify)
          n.val n.op).validRec = true := by
        rw [validRec_mk, valid_of_binary ho]
        have hlv2 : l.Simplify.validRec = true := by
          rw [Node.Simplify]
          exact ((simplifyF_wv l.weight) l hlv).1
        have hrv2 : r.Simplify.validRec = true := by
          rw [Node.Simplify]
          exact ((simplifyF_wv r.weight) r hrv).1
        simp [optValidRec, hlv2, hrv2]
      have hRw : (Node.mk (some l.Simplify) (some r.Simplify)
          n.val n.op).weight < n.weight := by
        rw [weight_mk, weightOpt_some, weightOpt_some]
        have hwn : n.weight = (l.weight + 1) * r.weight := by
          rw [hsh, weight_mk, weightOpt_some, weightOpt_some]
        have hls : l.Simplify.weight ≤ l.weight := by
          rw [Node.Simplify]
          exact SimpOK.le (simplifyF_wv l.weight) hlv
        have hrs : r.Simplify.weight ≤ r.weight := by
          rw [Node.Simplify]
          exact SimpOK.le (simplifyF_wv r.weight) hrv
        rw [hwn]
        apply weight_prod_lt (two_le_weight r) (two_le_weight r.Simplify)
        rcases Bool.or_eq_true_iff.mp hcl with hf | hf
        · refine Or.inl ⟨?_, hrs⟩
          have := ((simplifyF_wv l.weight) l hlv).2.1 hf
          rw [Node.Simplify]
          omega
        · refine Or.inr ⟨hls, ?_⟩
          have := ((simplifyF_wv r.weight) r hrv).2.1 hf
          rw [Node.Simplify]
          omega
      rw [Node.Simplify]
      exact congrArg Prod.fst (simplifyF_fuel_indep _ _ le_rfl hRv w' _
        (by omega) le_rfl)
    · rw [if_neg hcl]
      dsimp only
      rw [Bool.or_eq_true_iff] at hcl
      push_neg at hcl
      have hfl2 : (simplifyF l.weight l).2 = false := by
        cases hb : (simplifyF l.weight l).2
        · rfl
        · exact absurd hb hcl.1
      have hfr2 : (simplifyF r.weight r).2 = false := by
        cases hb : (simplifyF r.weight r).2
        · rfl
        · exact absurd hb hcl.2
      rw [if_pos ⟨by rw [simplify_flag_false hfl2 hlv],
        by rw [simplify_flag_false hfr2 hrv]⟩]
  · obtain ⟨l, hsh, hlv⟩ := validRec_unary_shape hv ho
    have hln : n.left = some l := by rw [hsh]; rfl
    have hrn : n.right = none := by rw [hsh]; rfl
    have hlw : l.weight < n.weight := weight_left_lt hln
    have hfl : simplifyF w' l = simplifyF l.weight l :=
      simplifyF_fuel_indep l.weight l le_rfl hlv w' l.weight (by omega) le_rfl
    rw [hln, hrn]
    simp only [Option.map_some', Option.map_none']
    rw [hfl]
    have hl1 : (simplifyF l.weight l).1 = l.Simplify := rfl
    by_cases hcl : ((simplifyF l.weight l).2 || false) = true
    · rw [if_pos hcl]
      dsimp only
      rw [hl1]
      rw [Bool.or_false] at hcl
      have hcond : ¬(some l.Simplify = some l ∧ True) := by
        rintro ⟨ha, _⟩
        injection ha with ha'
        exact simplify_flag_true hcl hlv ha'
      rw [if_neg hcond]
      have hRv : (Node.mk (some l.Simplify) none n.val n.op).validRec
          = true := by
        rw [validRec_mk, valid_of_unary ho]
        have hlv2 : l.Simplify.validRec = true := by
          rw [Node.Simplify]
          exact ((simplifyF_wv l.weight) l hlv).1
        simp [optValidRec, hlv2]
      have hRw : (Node.mk (some l.Simplify) none n.val n.op).weight
          < n.weight := by
        rw [weight_mk, weightOpt_some, weightOpt_none]
        have hwn : n.weight = l.weight + 1 := by
          rw [hsh, weight_mk, weightOpt_some, weightOpt_none]
          ring
        have := ((simplifyF_wv l.weight) l hlv).2.1 hcl
        rw [Node.Simplify, hwn, Nat.mul_one]
        omega
      rw [Node.Simplify]
      exact congrArg Prod.fst (simplifyF_fuel_indep _ _ le_rfl hRv w' _
        (by omega) le_rfl)
    · rw [if_neg hcl]
      dsimp only
      rw [Bool.or_false] at hcl
      have hfl2 : (simplifyF l.weight l).2 = false := by
        cases hb : (simplifyF l.weight l).2
        · rfl
        · exact absurd hb hcl
      rw [if_pos ⟨by rw [simplify_flag_false hfl2 hlv], trivial⟩]

/-- Whether a parse result is an error whose message contains the given
text. -/
def errContains (r : Except (List Char) Node) (s : List Char) : Bool :=
  match r with
  | .error e => decide (s <:+: e)
  | .ok _ => false

/-- C1: canonicalization preserves value — if a tree evaluates successfully
to `v`, its canonical form evaluates successfully to the same `v`. -/
theorem C1_canonicalize_preserves_value (n : Node) (v : ℚ)
    (h : n.Eval = .ok v) : (n.Simplify).Eval = .ok v :=
  (simplifyF_pres n.weight) n v h

/-- Witness for C1 at the tree `+ 1 2` (value three). -/
theorem C1_canonicalize_preserves_value_witness :
    (parseNodeOf "+ 1 2").Eval = .ok 3 ∧
    ((parseNodeOf "+ 1 2").Simplify).Eval = .ok 3 :=
  ⟨by decide, C1_canonicalize_preserves_value _ 3 (by decide)⟩

/-- C2 counterexample: the claimed normal form `- + 5 3 1` (inner `add`,
outer `sub`) is NOT what the canonicalizer produces for `- 5 - 3 1`; the
result is not structurally equal to it. -/
theorem C2_counterexample :
    ((parseNodeOf "- 5 - 3 1").Simplify).equal (parseNodeOf "- + 5 3 1")
      = false := by
  decide

/-- C2 amended: the code's re-association tuple for subtraction is
`{OpSub, OpSub, OpSub, OpAdd}`, i.e. `a - (b - c)` becomes `(a - b) + c`
(inner `sub`, outer `add`); `canonicalize(parse "- 5 - 3 1")` equals
`parse "+ - 5 3 1"`, and both trees evaluate to `3/1`. -/
theorem C2_amended :
    (Op.sub, Op.sub, Op.sub, Op.add) ∈ trioRules ∧
    (parseNodeOf "- 5 - 3 1").Simplify = parseNodeOf "+ - 5 3 1" ∧
    (parseNodeOf "- 5 - 3 1").Eval = .ok 3 ∧
    (parseNodeOf "+ - 5 3 1").Eval = .ok 3 := by
  refine ⟨by decide, by decide, by decide, by decide⟩

/-- C3: the canonicalizer is idempotent on recursively valid trees. -/
theorem C3_canonicalize_idempotent (t : Node) (h : t.validRec = true) :
    (t.Simplify).Simplify = t.Simplify := by
  have hfix := simplifyF_fix t.weight t le_rfl h t.weight le_rfl
    ((simplifyF t.weight t).1).weight le_rfl
  conv_lhs => rw [Node.Simplify]
  rw [show (t.Simplify : Node) = (simplifyF t.weight t).1 from rfl]
  rw [hfix]

/-- Witness for C3 at the tree `* -- 2 -- 3`. -/
theorem C3_canonicalize_idempotent_witness :
    (parseNodeOf "* -- 2 -- 3").validRec = true ∧
    ((parseNodeOf "* -- 2 -- 3").Simplify).Simplify
      = (parseNodeOf "* -- 2 -- 3").Simplify :=
  ⟨by decide, C3_canonicalize_idempotent _ (by decide)⟩

/-- C4 counterexample: for `+ 1 - -- 2 3` no rule matches at the root, yet
the canonical form does not keep the root operator: rebuilding with the
canonicalized children is followed by a further canonicalization of the
rebuilt node, which rewrites the root (`1 + (--(2+3))` becomes
`1 - (2+3)`). -/
theorem C4_counterexample :
    (parseNodeOf "+ 1 - -- 2 3").validRec = true ∧
    rootFiresNone (parseNodeOf "+ 1 - -- 2 3") ∧
    ((parseNodeOf "+ 1 - -- 2 3").Simplify).op
      ≠ (parseNodeOf "+ 1 - -- 2 3").op := by
  refine ⟨by decide, by decide, by decide⟩

/-- C4 amended: when no rule matches at the root of a valid tree, the
canonicalizer recurses into the children; if no child changes the node is
returned unchanged, and otherwise the node rebuilt from the canonical
children (operator and value preserved in the rebuilt node) is itself
canonicalized again before being returned. -/
theorem C4_amended (n : Node) (hv : n.validRec = true)
    (hrf : rootFiresNone n) :
    n.Simplify =
      if n.left.map Node.Simplify = n.left ∧
          n.right.map Node.Simplify = n.right
      then n
      else (Node.mk (n.left.map Node.Simplify) (n.right.map Node.Simplify)
        n.val n.op).Simplify :=
  simplify_rebuild n hv hrf

/-- Witness for the amended C4 at the tree `! - 4 2`. -/
theorem C4_amended_witness :
    (parseNodeOf "! - 4 2").validRec = true ∧
    rootFiresNone (parseNodeOf "! - 4 2") ∧
    (parseNodeOf "! - 4 2").Simplify =
      (if (parseNodeOf "! - 4 2").left.map Node.Simplify
            = (parseNodeOf "! - 4 2").left ∧
          (parseNodeOf "! - 4 2").right.map Node.Simplify
            = (parseNodeOf "! - 4 2").right
      then parseNodeOf "! - 4 2"
      else (Node.mk ((parseNodeOf "! - 4 2").left.map Node.Simplify)
        ((parseNodeOf "! - 4 2").right.map Node.Simplify)
        (parseNodeOf "! - 4 2").val (parseNodeOf "! - 4 2").op).Simplify) :=
  ⟨by decide, by decide, C4_amended _ (by decide) (by decide)⟩

/-- C5: parsing the serialization of a valid tree succeeds, and the
reconstructed tree (which carries the parser's zero in internal `val`
fields) is structurally equal to the original in the sense of Go
`Node.Equal`. -/
theorem C5_parse_serialize_round_trip (t : Node) (h : t.validRec = true) :
    FromPolish t.ToPolish = .ok t.normVal ∧ (t.normVal).equal t = true :=
  ⟨FromPolish_ToPolish t h, normVal_equal t.weight t le_rfl h⟩

/-- Witness for C5 at the tree `- 1/2 sqrt 9`. -/
theorem C5_parse_serialize_round_trip_witness :
    (parseNodeOf "- 1/2 sqrt 9").validRec = true ∧
    FromPolish (parseNodeOf "- 1/2 sqrt 9").ToPolish
      = .ok (parseNodeOf "- 1/2 sqrt 9").normVal ∧
    ((parseNodeOf "- 1/2 sqrt 9").normVal).equal (parseNodeOf "- 1/2 sqrt 9")
      = true :=
  ⟨by decide, (C5_parse_serialize_round_trip _ (by decide)).1,
    (C5_parse_serialize_round_trip _ (by decide)).2⟩

/-- C6: the even-power rule fires only when the exponent evaluates to an
even rational; an odd exponent or a failing evaluation leaves the node
untouched (the failure is swallowed, and `Simplify`, having type
`Node → Node`, can never report an error); `^ -- 2 4` canonicalizes to
`^ 2 4` while `^ -- 2 3` is returned unchanged. -/
theorem C6_even_power_guard :
    (∀ n : Node, n.op = .pow → (optGet n.left).op = .minus →
      ((∃ e, (optGet n.right).Eval = .error e) ∨
       (∃ v, (optGet n.right).Eval = .ok v ∧ ¬ratEven v)) →
      n.Simplify = n) ∧
    (parseNodeOf "^ -- 2 4").Simplify = parseNodeOf "^ 2 4" ∧
    (parseNodeOf "^ -- 2 3").Simplify = parseNodeOf "^ -- 2 3" := by
  refine ⟨?_, by decide, by decide⟩
  intro n hop hlop hbad
  have h2n := two_le_weight n
  obtain ⟨w', hw⟩ : ∃ w', n.weight = w' + 1 := ⟨n.weight - 1, by omega⟩
  rw [Node.Simplify, hw, simplifyF]
  dsimp only
  rw [if_neg (by rintro ⟨hm, _⟩; rw [hop] at hm; cases hm)]
  rw [if_pos ⟨hop, hlop⟩]
  rcases hbad with ⟨e, he⟩ | ⟨v, hve, hnev⟩
  · rw [he]
  · rw [hve]
    dsimp only
    rw [if_neg hnev]

/-- Witness for C6 at the tree `^ -- 5 3` (odd exponent, untouched). -/
theorem C6_even_power_guard_witness :
    (parseNodeOf "^ -- 5 3").op = .pow ∧
    (parseNodeOf "^ -- 5 3").Simplify = parseNodeOf "^ -- 5 3" :=
  ⟨by decide, C6_even_power_guard.1 _ (by decide) (by decide)
    (Or.inr ⟨3, by decide, by decide⟩)⟩

/-- C7: a binary node evaluates the left child first, then the right, then
applies the operator; a child's error is propagated unchanged with no
partial result, and a structurally invalid node fails immediately with the
"invalid formula" error. -/
theorem C7_eval_order_and_errors :
    (∀ (l r : Node) (v : ℚ) (o : Op), o.binary = true →
      (Node.mk (some l) (some r) v o).Eval =
        (match l.Eval with
         | .error e => .error e
         | .ok lv =>
           match r.Eval with
           | .error e => .error e
           | .ok rv => (performBinary o lv rv).mapError .arith)) ∧
    (∀ n : Node, n.valid = false → n.Eval = .error .invalidFormula) := by
  refine ⟨fun l r v o ho => eval_mk_binary l r v o ho, ?_⟩
  intro n h
  obtain ⟨l, r, v, o⟩ := n
  rw [Node.Eval.eq_def]
  dsimp only
  rw [if_pos (by simp [h])]

/-- Witness for C7: `1 + 2` evaluates children then applies `add`; a
childless `add` node is invalid and fails with "invalid formula". -/
theorem C7_eval_order_and_errors_witness :
    Op.add.binary = true ∧
    (Node.mk (some (Node.mk none none 1 .null))
      (some (Node.mk none none 2 .null)) 0 .add).Eval = .ok 3 ∧
    (Node.mk none none 0 .add).valid = false ∧
    (Node.mk none none 0 .add).Eval = .error .invalidFormula := by
  refine ⟨by decide, ?_, by decide,
    C7_eval_order_and_errors.2 _ (by decide)⟩
  rw [C7_eval_order_and_errors.1 _ _ _ _ (by decide)]
  decide

/-- C8: parsing the empty string fails; parsing `+ 3` fails with an error
containing "second operand missing"; parsing `@ 1 2` fails with an error
containing "unrecognized operator". -/
theorem C8_parse_error_surfaces :
    errContains (FromPolish "".toList) [] = true ∧
    errContains (FromPolish "+ 3".toList)
      "second operand missing".toList = true ∧
    errContains (FromPolish "@ 1 2".toList)
      "unrecognized operator".toList = true := by
  refine ⟨by decide, by decide, by decide⟩

/-- C9: on a recursively valid tree the canonicalizer returns a tree that
is valid at every node, although it builds replacement nodes with raw
struct literals. -/
theorem C9_simplify_preserves_validity (n : Node)
    (h : n.validRec = true) : (n.Simplify).validRec = true :=
  ((simplifyF_wv n.weight) n h).1

/-- Witness for C9 at the tree `/ -- 1 -- 7`. -/
theorem C9_simplify_preserves_validity_witness :
    (parseNodeOf "/ -- 1 -- 7").validRec = true ∧
    ((parseNodeOf "/ -- 1 -- 7").Simplify).validRec = true :=
  ⟨by decide, C9_simplify_preserves_validity _ (by decide)⟩

/-- C10: a bare operator token (input exhausted right after the operator)
fails with an error containing "first operand missing"; in particular this
holds for every operator symbol, e.g. `+` and `sqrt`. -/
theorem C10_first_operand_missing :
    ∀ o : Op, o ≠ .null →
      errContains (FromPolish o.symbol)
        "first operand missing".toList = true := by
  intro o ho
  cases o
  case null => exact absurd rfl ho
  all_goals decide

/-- Witness for C10 at the operators `+` and `sqrt`. -/
theorem C10_first_operand_missing_witness :
    (Op.add ≠ .null ∧
      errContains (FromPolish Op.add.symbol)
        "first operand missing".toList = true) ∧
    (Op.sqrt ≠ .null ∧
      errContains (FromPolish Op.sqrt.symbol)
        "first operand missing".toList = true) :=
  ⟨⟨by decide, C10_first_operand_missing .add (by decide)⟩,
   ⟨by decide, C10_first_operand_missing .sqrt (by decide)⟩⟩
